import Mathlib

/-!
# Entity/component ownership model of the memory_issue sample

A shallow embedding of `src/cpp/memory_issue/include/EntitySystem.h`.

C++ objects live in a heap that maps addresses to objects.  A pointer is the
address (a natural number); `nullptr` of the `parent` member is `none`.
Every `delete` / `delete[]` expression the code executes is appended to the
log `Heap.released`, so "released exactly once" is a count in that log.
An operation returns `none` when the C++ code would dereference a pointer to
no live object (undefined behaviour) or when a recursion runs out of fuel.
-/

namespace ECS

/-! ## Machine integers and address tables -/

/-- Value of a C++ `int` after an arithmetic result `x` is brought back into
32-bit two's complement range. -/
def wrapInt32 (x : Int) : Int := (x + 2147483648) % 4294967296 - 2147483648

/-- Object stored at address `a` in an address table. -/
def lookup {α : Type} : List (Nat × α) → Nat → Option α
  | [], _ => none
  | (k, v) :: t, a => if k = a then some v else lookup t a

/-- Overwrite the object stored at address `a` (all entries of that address). -/
def assign {α : Type} : List (Nat × α) → Nat → α → List (Nat × α)
  | [], _, _ => []
  | (k, x) :: t, a, v => if k = a then (a, v) :: assign t a v else (k, x) :: assign t a v

/-- Drop the object stored at address `a` from the table. -/
def remove {α : Type} : List (Nat × α) → Nat → List (Nat × α)
  | [], _ => []
  | (k, x) :: t, a => if k = a then remove t a else (k, x) :: remove t a

/-! ## Data model -/

/-- Bit pattern of a C++ `float`; Transform fields are only stored and copied. -/
abbrev FloatBits := Nat

/-- Bit pattern of `1.0f`. -/
def oneF : FloatBits := 1065353216

/-- Objects of the classes derived from `Component`: the public member `name`
of the base class followed by the members of the derived class. -/
inductive Component where
  | Transform (name : String) (x y z rotX rotY rotZ scaleX scaleY scaleZ : FloatBits)
  | Sprite (name : String) (textureData : Nat) (width height : Int)
  | Script (name : String) (userData : Nat)
  deriving DecidableEq, Repr

/-- Member `Component::name`. -/
def Component.name : Component → String
  | .Transform n _ _ _ _ _ _ _ _ _ => n
  | .Sprite n _ _ _ => n
  | .Script n _ => n

/-- Assignment `comp->name = n` to the public member. -/
def Component.setName (n : String) : Component → Component
  | .Transform _ x y z rx ry rz sx sy sz => .Transform n x y z rx ry rz sx sy sz
  | .Sprite _ t w h => .Sprite n t w h
  | .Script _ u => .Script n u

/-- Class `Entity`: `components` and `children` hold addresses. -/
structure Entity where
  name : String
  components : List Nat
  parent : Option Nat
  children : List Nat
  deriving DecidableEq, Repr

/-- What a `delete` expression was applied to. -/
inductive Obj where
  | entity (a : Nat)
  | component (a : Nat)
  | buffer (a : Nat)
  deriving DecidableEq, Repr

/-- The heap: live objects by address, the next fresh address, and the log of
executed `delete` expressions. -/
structure Heap where
  entities : List (Nat × Entity)
  components : List (Nat × Component)
  buffers : List (Nat × List Nat)
  next : Nat
  released : List Obj
  deriving DecidableEq, Repr

/-- Heap of a program that has allocated nothing yet. -/
def Heap.empty : Heap := ⟨[], [], [], 1, []⟩

/-! ## Component constructors and clone -/

/-- Expression `new Transform()`. -/
def newTransform (h : Heap) : Heap × Nat :=
  ({ h with
      components := h.components ++ [(h.next, Component.Transform "Transform" 0 0 0 0 0 0 oneF oneF oneF)],
      next := h.next + 1 }, h.next)

/-- Expression `new Sprite(w, ht)`: the array size `w * ht * 4` is computed in
`int`; a negative size makes `new[]` throw, modelled as `none`.  The fresh
array is filled with zeros. -/
def newSprite (h : Heap) (w ht : Int) : Option (Heap × Nat) :=
  let n := wrapInt32 (wrapInt32 (w * ht) * 4)
  if n < 0 then none
  else
    some ({ h with
      components := h.components ++ [(h.next, Component.Sprite "Sprite" (h.next + 1) w ht)],
      buffers := h.buffers ++ [(h.next + 1, List.replicate n.toNat 0)],
      next := h.next + 2 }, h.next)

/-- Expression `new Script()`. -/
def newScript (h : Heap) : Heap × Nat :=
  ({ h with
      components := h.components ++ [(h.next, Component.Script "Script" 0)],
      next := h.next + 1 }, h.next)

/-- The object built by `comp->clone()`: Transform and Sprite use the implicit
copy constructor (memberwise copy, the `textureData` pointer included);
Script builds `new Script()` and copies `userData` only. -/
def Component.cloneValue : Component → Component
  | .Transform n x y z rx ry rz sx sy sz => .Transform n x y z rx ry rz sx sy sz
  | .Sprite n t w h => .Sprite n t w h
  | .Script _ u => .Script "Script" u

/-- Call `comp->clone()`: allocates the copy and returns its address. -/
def cloneComponent (h : Heap) (comp : Nat) : Option (Heap × Nat) :=
  match lookup h.components comp with
  | none => none
  | some c =>
    some ({ h with components := h.components ++ [(h.next, c.cloneValue)], next := h.next + 1 }, h.next)

/-- Assignment `comp->name = n`. -/
def setComponentName (h : Heap) (comp : Nat) (n : String) : Option Heap :=
  match lookup h.components comp with
  | none => none
  | some c => some { h with components := assign h.components comp (c.setName n) }

/-- Expression `sprite->textureData[i]`. -/
def readTexture (h : Heap) (sprite i : Nat) : Option Nat :=
  match lookup h.components sprite with
  | some (.Sprite _ t _ _) =>
    match lookup h.buffers t with
    | some bytes => bytes.get? i
    | none => none
  | _ => none

/-- Assignment `sprite->textureData[i] = v`. -/
def writeTexture (h : Heap) (sprite i v : Nat) : Option Heap :=
  match lookup h.components sprite with
  | some (.Sprite _ t _ _) =>
    match lookup h.buffers t with
    | some bytes =>
      if i < bytes.length then some { h with buffers := assign h.buffers t (bytes.set i (v % 256)) }
      else none
    | none => none
  | _ => none

/-! ## Entity -/

/-- Expression `new Entity(name)`. -/
def newEntity (h : Heap) (name : String) : Heap × Nat :=
  ({ h with entities := h.entities ++ [(h.next, ⟨name, [], none, []⟩)], next := h.next + 1 }, h.next)

/-- Statement `delete comp` on a `Component*`: the destructors are trivial
(Sprite declares none, so `textureData` is not freed). -/
def deleteComponent (h : Heap) (comp : Nat) : Heap :=
  { h with components := remove h.components comp, released := h.released ++ [Obj.component comp] }

/-- Statement `delete p` on an `Entity*` with a recursion bound.  The lifetime
of `*p` ends when the destructor starts; the destructor deletes every child,
then every component.  A `delete` of an address that holds no live entity is
undefined behaviour in C++; the model records it in the log and runs no
destructor body. -/
def deleteEntityFuel : Nat → Heap → Nat → Option Heap
  | 0, _, _ => none
  | fuel + 1, h, p =>
    match lookup h.entities p with
    | none => some { h with released := h.released ++ [Obj.entity p] }
    | some ent =>
      match ent.children.foldlM (fun acc child => deleteEntityFuel fuel acc child)
          { h with entities := remove h.entities p, released := h.released ++ [Obj.entity p] } with
      | none => none
      | some h2 => some (ent.components.foldl deleteComponent h2)

/-- Statement `delete p` on an `Entity*`: every nested destructor call ends the
lifetime of one more live entity, so a bound of one more than the number of
live entities is never reached (`deleteEntityFuel_enough`). -/
def deleteEntity (h : Heap) (p : Nat) : Heap :=
  (deleteEntityFuel (h.entities.length + 1) h p).getD h

/-- Method `Entity::addComponent`. -/
def addComponent (h : Heap) (e comp : Nat) : Option Heap :=
  match lookup h.entities e with
  | none => none
  | some ent =>
    some { h with entities := assign h.entities e { ent with components := ent.components ++ [comp] } }

/-- Loop of `Entity::getComponent` over the vector. -/
def findNamed (comps : List (Nat × Component)) (name : String) : List Nat → Option (Option Nat)
  | [] => some none
  | c :: rest =>
    match lookup comps c with
    | none => none
    | some co => if co.name = name then some (some c) else findNamed comps name rest

/-- Method `Entity::getComponent`; the inner `none` is `nullptr`. -/
def getComponent (h : Heap) (e : Nat) (name : String) : Option (Option Nat) :=
  match lookup h.entities e with
  | none => none
  | some ent => findNamed h.components name ent.components

/-- Loop of `Entity::removeComponent` over the vector: the first component
with the given name is deleted and erased, the rest is kept. -/
def removeFirstNamed (comps : List (Nat × Component)) (name : String) :
    List Nat → Option (Option Nat × List Nat)
  | [] => some (none, [])
  | c :: rest =>
    match lookup comps c with
    | none => none
    | some co =>
      if co.name = name then some (some c, rest)
      else
        match removeFirstNamed comps name rest with
        | none => none
        | some (d, r) => some (d, c :: r)

/-- Method `Entity::removeComponent`. -/
def removeComponent (h : Heap) (e : Nat) (name : String) : Option Heap :=
  match lookup h.entities e with
  | none => none
  | some ent =>
    match removeFirstNamed h.components name ent.components with
    | none => none
    | some (none, _) => some h
    | some (some d, rest) =>
      let h1 := deleteComponent h d
      some { h1 with entities := assign h1.entities e { ent with components := rest } }

/-- Method `Entity::addChild`: `child->parent = this; children.push_back(child)`. -/
def addChild (h : Heap) (e child : Nat) : Option Heap :=
  match lookup h.entities child with
  | none => none
  | some c =>
    let ents := assign h.entities child { c with parent := some e }
    match lookup ents e with
    | none => none
    | some ent => some { h with entities := assign ents e { ent with children := ent.children ++ [child] } }

/-- Method `Entity::removeChild`: the first occurrence of `child` in the vector
gets `parent = nullptr` and is erased. -/
def removeChild (h : Heap) (e child : Nat) : Option Heap :=
  match lookup h.entities e with
  | none => none
  | some ent =>
    if child ∈ ent.children then
      match lookup h.entities child with
      | none => none
      | some c =>
        let ents := assign h.entities child { c with parent := none }
        match lookup ents e with
        | none => none
        | some ent1 => some { h with entities := assign ents e { ent1 with children := ent1.children.erase child } }
    else some h

/-- Method `Entity::shallowClone`: the clone gets a copy of the pointer vector. -/
def shallowClone (h : Heap) (e : Nat) : Option (Heap × Nat) :=
  match lookup h.entities e with
  | none => none
  | some ent =>
    let (h1, clone) := newEntity h (ent.name ++ "_clone")
    match lookup h1.entities clone with
    | none => none
    | some cl => some ({ h1 with entities := assign h1.entities clone { cl with components := ent.components } }, clone)

/-- Statement `clone->components.push_back(comp->clone())` of `deepClone`. -/
def cloneInto (clone : Nat) (acc : Heap) (comp : Nat) : Option Heap :=
  match cloneComponent acc comp with
  | none => none
  | some (h1, copy) => addComponent h1 clone copy

/-- Method `Entity::deepClone` with a recursion bound. -/
def deepCloneFuel : Nat → Heap → Nat → Option (Heap × Nat)
  | 0, _, _ => none
  | fuel + 1, h, e =>
    match lookup h.entities e with
    | none => none
    | some ent =>
      let (h1, clone) := newEntity h (ent.name ++ "_clone")
      match ent.components.foldlM (cloneInto clone) h1 with
      | none => none
      | some h2 =>
        match ent.children.foldlM
            (fun acc child =>
              match deepCloneFuel fuel acc child with
              | none => none
              | some (h3, cc) => addChild h3 clone cc) h2 with
        | none => none
        | some h4 => some (h4, clone)

/-! ## EntityManager -/

/-- Lookup `entities.find(id)` in the `std::map<int, Entity*>`. -/
def mapFind : List (Int × Nat) → Int → Option Nat
  | [], _ => none
  | (k, v) :: t, id => if k = id then some v else mapFind t id

/-- Assignment `entities[id] = p`: keys stay in ascending order, an existing
key gets the new pointer. -/
def mapAssign : List (Int × Nat) → Int → Nat → List (Int × Nat)
  | [], id, p => [(id, p)]
  | (k, v) :: t, id, p =>
    if id < k then (id, p) :: (k, v) :: t
    else if id = k then (id, p) :: t
    else (k, v) :: mapAssign t id p

/-- Call `entities.erase(it)` for the entry of key `id`. -/
def mapErase (m : List (Int × Nat)) (id : Int) : List (Int × Nat) :=
  m.filter (fun kv => decide (kv.1 ≠ id))

/-- Class `EntityManager`. -/
structure EntityManager where
  entities : List (Int × Nat)
  nextId : Int
  deriving DecidableEq, Repr

/-- A manager together with the heap its entities live in. -/
structure World where
  mgr : EntityManager
  heap : Heap
  deriving DecidableEq, Repr

/-- State after `new EntityManager()` in a program that allocated nothing else. -/
def World.fresh : World := ⟨⟨[], 0⟩, Heap.empty⟩

/-- Method `EntityManager::createEntity`: `int id = nextId++`, then
`entities[id] = new Entity(name)`.  The increment of the 32-bit `int` at
`INT_MAX` (undefined in standard C++) is taken as the two's complement
wrap-around to `INT_MIN`. -/
def createEntity (w : World) (name : String) : World × Int :=
  let id := w.mgr.nextId
  let (h1, p) := newEntity w.heap name
  (⟨⟨mapAssign w.mgr.entities id p, wrapInt32 (id + 1)⟩, h1⟩, id)

/-- Method `EntityManager::getEntity`; `none` is `nullptr`. -/
def getEntity (w : World) (id : Int) : Option Nat := mapFind w.mgr.entities id

/-- Method `EntityManager::destroyEntity`. -/
def destroyEntity (w : World) (id : Int) : World :=
  match mapFind w.mgr.entities id with
  | none => w
  | some p => ⟨⟨mapErase w.mgr.entities id, w.mgr.nextId⟩, deleteEntity w.heap p⟩

/-- Method `EntityManager::clearWrong`. -/
def clearWrong (w : World) : World := ⟨⟨[], w.mgr.nextId⟩, w.heap⟩

/-- Method `EntityManager::clearAlsoWrong`: `delete pair.second` for every entry
in key order, then `entities.clear()`. -/
def clearAlsoWrong (w : World) : World :=
  ⟨⟨[], w.mgr.nextId⟩, w.mgr.entities.foldl (fun h kv => deleteEntity h kv.2) w.heap⟩

/-! ## Scenarios -/

/-- Observations of `cloneSpriteScenario`. -/
structure CloneSpriteResult where
  sprite : Nat
  cloneSprite : Nat
  spriteObj : Option Component
  cloneSpriteObj : Option Component
  byteBefore : Nat
  byteAfter : Nat
  deriving DecidableEq, Repr

/-- Scenario of the spec: attach a `Sprite(wd, ht)` to `E`, deep-clone `E`
into `E2`, write byte `v` at index `i` of the Sprite of `E2`.  Returns the
addresses of the two Sprites, the two Sprite objects, and byte `i` of the
Sprite of `E` before and after the write. -/
def cloneSpriteScenario (wd ht : Int) (i v : Nat) : Option CloneSpriteResult := do
  let (h1, e) := newEntity Heap.empty "E"
  let (h2, s) ← newSprite h1 wd ht
  let h3 ← addComponent h2 e s
  let (h4, e2) ← deepCloneFuel 1 h3 e
  let s2 ← (← getComponent h4 e2 "Sprite")
  let before ← readTexture h4 s i
  let h5 ← writeTexture h4 s2 i v
  let after ← readTexture h5 s i
  pure ⟨s, s2, lookup h5.components s, lookup h5.components s2, before, after⟩

/-- Names of the components an entity holds, in vector order. -/
def componentNames (h : Heap) (e : Nat) : Option (List String) :=
  match lookup h.entities e with
  | none => none
  | some ent => ent.components.mapM (fun c => (lookup h.components c).map Component.name)

/-- An entity holds a Script whose public member `name` was set to "AI"; the
entity is deep-cloned.  Returns the component names of the original and of
the clone. -/
def cloneRenamedScriptScenario : Option (List String × List String) := do
  let (h1, e) := newEntity Heap.empty "E"
  let (h2, s) := newScript h1
  let h3 ← setComponentName h2 s "AI"
  let h4 ← addComponent h3 e s
  let (h5, e2) ← deepCloneFuel 1 h4 e
  pure (← componentNames h5 e, ← componentNames h5 e2)

/-- Observations of `circularScenario`. -/
structure CircularResult where
  a : Nat
  b : Nat
  aAfterFirst : Option Entity
  bAfterFirst : Option Entity
  aAfterSecond : Option Entity
  bAfterSecond : Option Entity
  deriving DecidableEq, Repr

/-- First part of `demonstrateCircularReference`: `a->addChild(b)` then
`b->addChild(a)`.  Returns the addresses of `a` and `b`, and the objects
`*a`, `*b` after the first and after the second call. -/
def circularScenario : Option CircularResult := do
  let (h1, a) := newEntity Heap.empty "A"
  let (h2, b) := newEntity h1 "B"
  let h3 ← addChild h2 a b
  let h4 ← addChild h3 b a
  pure ⟨a, b, lookup h3.entities a, lookup h3.entities b, lookup h4.entities a, lookup h4.entities b⟩

/-- As `demonstrateMemoryLeak`, with the entity owned by a manager: a
registered entity gets a `Sprite(2, 2)` and is destroyed through its id.
Returns the address of the pixel buffer, the release log and the addresses of
the arrays that are still allocated. -/
def destroySpriteScenario : Option (Nat × List Obj × List Nat) := do
  let (w1, id) := createEntity World.fresh "LeakyEntity"
  let e ← getEntity w1 id
  let (h2, s) ← newSprite w1.heap 2 2
  let h3 ← addComponent h2 e s
  let buf ← match lookup h3.components s with
    | some (.Sprite _ t _ _) => some t
    | _ => none
  let w4 := destroyEntity ⟨w1.mgr, h3⟩ id
  pure (buf, w4.heap.released, w4.heap.buffers.map Prod.fst)

/-- Two registered entities, the second made a child of the first through
`getEntity` and `addChild`, then `clearAlsoWrong`.  Returns the addresses of
the two entities, the registry and the release log afterwards. -/
def clearChildScenario : Option (Nat × Nat × List (Int × Nat) × List Obj) := do
  let (w1, ida) := createEntity World.fresh "Entity1"
  let (w2, idb) := createEntity w1 "Entity2"
  let a ← getEntity w2 ida
  let b ← getEntity w2 idb
  let h3 ← addChild w2.heap a b
  let w4 := clearAlsoWrong ⟨w2.mgr, h3⟩
  pure (a, b, w4.mgr.entities, w4.heap.released)

/-- As `demonstrateSingletonLeak` followed by `clearWrong`.  Returns the
registry, the release log and the addresses of the live entities afterwards. -/
def clearWrongScenario : List (Int × Nat) × List Obj × List Nat :=
  let (w1, _) := createEntity World.fresh "Entity1"
  let (w2, _) := createEntity w1 "Entity2"
  let w3 := clearWrong w2
  (w3.mgr.entities, w3.heap.released, w3.heap.entities.map Prod.fst)

/-- Whether `c` points to a live component whose name is `K`. -/
def namedIn (h : Heap) (K : String) (c : Nat) : Bool :=
  match lookup h.components c with
  | some co => decide (co.name = K)
  | none => false

/-- Number of entries of the component vector of `e` that point to a live
component named `K`. -/
def countNamed (h : Heap) (e : Nat) (K : String) : Nat :=
  match lookup h.entities e with
  | none => 0
  | some ent => ent.components.countP (namedIn h K)

/-- Component vector of `e`. -/
def componentsOf (h : Heap) (e : Nat) : Option (List Nat) :=
  (lookup h.entities e).map Entity.components

/-- An entity that holds a Transform gets a second Transform `c`, then
`removeComponent("Transform")`, then a third Transform `c2`.  Returns the
addresses of the three Transforms, the component vector at the end and the
number of components named "Transform" in it. -/
def reattachScenario : Option (Nat × Nat × Nat × Option (List Nat) × Nat) := do
  let (h1, e) := newEntity Heap.empty "Test"
  let (h2, c0) := newTransform h1
  let h3 ← addComponent h2 e c0
  let (h4, c) := newTransform h3
  let (h5, c2) := newTransform h4
  let h6 ← addComponent h5 e c
  let h7 ← removeComponent h6 e "Transform"
  let h8 ← addComponent h7 e c2
  pure (c0, c, c2, componentsOf h8 e, countNamed h8 e "Transform")

/-- An entity that holds a Transform gets another Transform through
`addComponent`.  Returns the component vector before and after the call and
the number of components named "Transform" after it. -/
def duplicateScenario : Option (Option (List Nat) × Option (List Nat) × Nat) := do
  let (h1, e) := newEntity Heap.empty "Test"
  let (h2, c0) := newTransform h1
  let h3 ← addComponent h2 e c0
  let (h4, c) := newTransform h3
  let h5 ← addComponent h4 e c
  pure (componentsOf h4 e, componentsOf h5 e, countNamed h5 e "Transform")

/-- Heap with one entity (address 1) that holds the Transform at address 2,
and a second Transform at address 3 that no entity holds yet. -/
def oneTransformHeap : Heap :=
  { entities := [(1, ⟨"Test", [2], none, []⟩)],
    components := [(2, Component.Transform "Transform" 0 0 0 0 0 0 oneF oneF oneF),
      (3, Component.Transform "Transform" 0 0 0 0 0 0 oneF oneF oneF)],
    buffers := [], next := 4, released := [] }

/-- Child vector of the live entity at `p`; empty when `p` holds no live entity. -/
def childrenOf (h : Heap) (p : Nat) : List Nat :=
  match lookup h.entities p with
  | some ent => ent.children
  | none => []

/-- The entity at the second address is the one at the first or is reached from
it by following child vectors. -/
inductive Reach (h : Heap) : Nat → Nat → Prop where
  | refl (p : Nat) : Reach h p p
  | step (p q r : Nat) : q ∈ childrenOf h p → Reach h q r → Reach h p r

/-- Every live entity of `r` is a live entity of `h` with the same members. -/
def SubHeap (h r : Heap) : Prop :=
  ∀ q, lookup r.entities q = lookup h.entities q ∨ lookup r.entities q = none

/-- Observations of `staleChildScenario`. -/
structure StaleChildResult where
  p : Nat
  c : Nat
  parentBefore : Option (Option Nat)
  childrenBefore : List Nat
  childrenAfter : List Nat
  released : List Obj
  deriving DecidableEq, Repr

/-- Entities `p`, `q`, `r`, `c`: `q->addChild(c)`, `r->addChild(c)`,
`r->removeChild(c)`, `p->addChild(q)`.  Now `c` has no parent and is not in the
child vector of `p`, but still in that of `q`.  Then `p->addChild(c)`,
`p->removeChild(c)` and `delete p`.  Returns the addresses of `p` and `c`, the
parent of `c` and the child vector of `p` before the two calls, the child
vector of `p` after them, and the release log after `delete p`. -/
def staleChildScenario : Option StaleChildResult := do
  let (h1, p) := newEntity Heap.empty "Parent"
  let (h2, q) := newEntity h1 "Q"
  let (h3, r) := newEntity h2 "R"
  let (h4, c) := newEntity h3 "Child"
  let h5 ← addChild h4 q c
  let h6 ← addChild h5 r c
  let h7 ← removeChild h6 r c
  let h8 ← addChild h7 p q
  let h9 ← addChild h8 p c
  let h10 ← removeChild h9 p c
  pure ⟨p, c, (lookup h8.entities c).map Entity.parent, childrenOf h8 p, childrenOf h10 p,
    (deleteEntity h10 p).released⟩

/-- Heap of `demonstrateParentChildLeak` before the calls: entity "Parent" at
address 1 and entity "Child" at address 2, unrelated. -/
def parentChildHeap : Heap :=
  { entities := [(1, ⟨"Parent", [], none, []⟩), (2, ⟨"Child", [], none, []⟩)],
    components := [], buffers := [], next := 3, released := [] }

/-- Calls on an `EntityManager`. -/
inductive MgrOp where
  | createEntity (name : String)
  | destroyEntity (id : Int)
  | clearWrong
  | clearAlsoWrong
  deriving DecidableEq, Repr

/-- One call: the state afterwards and, for `createEntity`, the returned id. -/
def runOp (w : World) : MgrOp → World × Option Int
  | .createEntity name => ((createEntity w name).1, some (createEntity w name).2)
  | .destroyEntity id => (destroyEntity w id, none)
  | .clearWrong => (clearWrong w, none)
  | .clearAlsoWrong => (clearAlsoWrong w, none)

/-- Identifiers returned by the `createEntity` calls of a sequence of calls,
in call order. -/
def returnedIds : World → List MgrOp → List Int
  | _, [] => []
  | w, op :: rest =>
    match (runOp w op).2 with
    | some id => id :: returnedIds (runOp w op).1 rest
    | none => returnedIds (runOp w op).1 rest

/-- Number of `createEntity` calls in a sequence of calls. -/
def createCount : List MgrOp → Nat
  | [] => 0
  | .createEntity _ :: rest => createCount rest + 1
  | _ :: rest => createCount rest

/-- State after a sequence of calls on the manager. -/
def runOps : World → List MgrOp → World
  | w, [] => w
  | w, op :: rest => runOps (runOp w op).1 rest

/-- Observations of `destroyParentScenario`. -/
structure DestroyParentResult where
  childId : Int
  child : Nat
  found : Option Nat
  childObject : Option Entity
  released : List Obj
  foundAfterDestroy : Option Nat
  deriving DecidableEq, Repr

/-- Two registered entities, the second made a child of the first through
`getEntity` and `addChild`; then the parent is destroyed through
`destroyEntity` with its id.  Returns the id and the address of the child,
what `getEntity` returns for the id of the child afterwards, the child object
afterwards (`none`: no live object), the release log, and what `getEntity`
returns for the id of the child after `destroyEntity` with that id. -/
def destroyParentScenario : Option DestroyParentResult := do
  let (w1, idp) := createEntity World.fresh "Parent"
  let (w2, idc) := createEntity w1 "Child"
  let p ← getEntity w2 idp
  let c ← getEntity w2 idc
  let h3 ← addChild w2.heap p c
  let w4 := destroyEntity ⟨w2.mgr, h3⟩ idp
  pure ⟨idc, c, getEntity w4 idc, lookup w4.heap.entities c, w4.heap.released,
    getEntity (destroyEntity w4 idc) idc⟩

/-- Observations of `reparentScenario`. -/
structure ReparentResult where
  p : Nat
  q : Nat
  c : Nat
  qChildren : List Nat
  pChildren : List Nat
  cParent : Option (Option Nat)
  releasedAfterDeletes : List Obj
  deriving DecidableEq, Repr

/-- Entities `p`, `q`, `c`: `q->addChild(c)`, then `p->addChild(c)`.  Returns
the child vectors of `q` and `p` and the parent of `c` afterwards, and the
release log after `delete p; delete q`. -/
def reparentScenario : Option ReparentResult := do
  let (h1, p) := newEntity Heap.empty "P"
  let (h2, q) := newEntity h1 "Q"
  let (h3, c) := newEntity h2 "C"
  let h4 ← addChild h3 q c
  let h5 ← addChild h4 p c
  pure ⟨p, q, c, childrenOf h5 q, childrenOf h5 p, (lookup h5.entities c).map Entity.parent,
    (deleteEntity (deleteEntity h5 p) q).released⟩

/-- A fresh entity `e` and the call `e->addChild(e)`.  Returns the address of
`e` and the object `*e` before and after the call. -/
def selfParentScenario : Option (Nat × Option Entity × Option Entity) := do
  let (h1, e) := newEntity Heap.empty "E"
  let h2 ← addChild h1 e e
  pure (e, lookup h1.entities e, lookup h2.entities e)

/-- An entity gets a Transform through `addComponent` and is then cloned with
`shallowClone`.  Returns the address of the Transform and the component
vectors of the entity and of the clone. -/
def shallowCloneScenario : Option (Nat × Option (List Nat) × Option (List Nat)) := do
  let (h1, e) := newEntity Heap.empty "Test"
  let (h2, t) := newTransform h1
  let h3 ← addComponent h2 e t
  let (h4, clone) ← shallowClone h3 e
  pure (t, componentsOf h4 e, componentsOf h4 clone)

/-- Observations of `destroyChildScenario`. -/
structure DestroyChildResult where
  p : Nat
  c : Nat
  childrenBefore : List Nat
  childrenAfter : List Nat
  childObject : Option Entity
  released : List Obj
  deriving DecidableEq, Repr

/-- Two registered entities, the second made a child of the first; the child
is destroyed through `destroyEntity` with its id.  Returns the child vector
of the parent before and after, the child object afterwards (`none`: no live
object) and the release log. -/
def destroyChildScenario : Option DestroyChildResult := do
  let (w1, idp) := createEntity World.fresh "Parent"
  let (w2, idc) := createEntity w1 "Child"
  let p ← getEntity w2 idp
  let c ← getEntity w2 idc
  let h3 ← addChild w2.heap p c
  let w4 := destroyEntity ⟨w2.mgr, h3⟩ idc
  pure ⟨p, c, childrenOf h3 p, childrenOf w4.heap p, lookup w4.heap.entities c, w4.heap.released⟩

/-- Statement `e->children.clear()` on the public member. -/
def clearChildren (h : Heap) (e : Nat) : Option Heap :=
  match lookup h.entities e with
  | none => none
  | some ent => some { h with entities := assign h.entities e { ent with children := [] } }

/-- What `delete p` may release: the entities reached from `p` through child
vectors and the components held by those entities; no pixel buffer. -/
def OwnedBy (h : Heap) (p : Nat) : Obj → Prop
  | Obj.entity x => Reach h p x
  | Obj.component c => ∃ x ent, Reach h p x ∧ lookup h.entities x = some ent ∧ c ∈ ent.components
  | Obj.buffer _ => False

/-- The calls of `demonstrateCircularReference`: `a->addChild(b)`,
`b->addChild(a)`, `b->children.clear()`, `delete a`.  Returns the addresses of
`a` and `b`, the parent of `a` before the delete and the release log after it. -/
def brokenCycleScenario : Option (Nat × Nat × Option (Option Nat) × List Obj) := do
  let (h1, a) := newEntity Heap.empty "A"
  let (h2, b) := newEntity h1 "B"
  let h3 ← addChild h2 a b
  let h4 ← addChild h3 b a
  let h5 ← clearChildren h4 b
  pure (a, b, (lookup h5.entities a).map Entity.parent, (deleteEntity h5 a).released)

/-- From `x`, child vectors lead to an entity `a` that lies on a cycle of
child links. -/
def ReachesCycle (h : Heap) (x : Nat) : Prop :=
  ∃ a b, Reach h x a ∧ b ∈ childrenOf h a ∧ Reach h b a

/-- Every child link of `h` is also a child link of `r`. -/
def ChildMono (h r : Heap) : Prop :=
  ∀ q y, y ∈ childrenOf h q → y ∈ childrenOf r q

/-- Heap after `a->addChild(b); b->addChild(a)` on two fresh entities `a`
(address 1) and `b` (address 2). -/
def cyclicHeap : Heap :=
  { entities := [(1, ⟨"A", [], some 2, [2]⟩), (2, ⟨"B", [], some 1, [1]⟩)],
    components := [], buffers := [], next := 3, released := [] }

/-- Concatenation of the results of `f` on the elements of a list; `none` as
soon as one of them is `none`. -/
def collect (f : Nat → Option (List Nat)) : List Nat → Option (List Nat)
  | [] => some []
  | c :: t =>
    match f c with
    | none => none
    | some l =>
      match collect f t with
      | none => none
      | some r => some (l ++ r)

/-- Addresses of the entities of the child graph under `e`, parents before
children, when that graph is unfolded to at most the given depth; `none` when
the graph is deeper, or when an entity or component pointer in it refers to no
live object. -/
def treeNodes : Nat → Heap → Nat → Option (List Nat)
  | 0, _, _ => none
  | n + 1, h, e =>
    match lookup h.entities e with
    | none => none
    | some ent =>
      if ent.components.all (fun c => (lookup h.components c).isSome) then
        match collect (fun c => treeNodes n h c) ent.children with
        | none => none
        | some r => some (e :: r)
      else none

/-- The child graph under `e` is a finite tree with the entities `l`: it
unfolds completely within some depth and no entity occurs in it twice. -/
def IsFiniteTree (h : Heap) (e : Nat) (l : List Nat) : Prop :=
  ∃ n, treeNodes n h e = some l ∧ l.Nodup

/-- Allocator invariant: no object lives at an address that `new` has not
handed out yet. -/
def Fresh (h : Heap) : Prop :=
  ∀ a, h.next ≤ a → lookup h.entities a = none ∧ lookup h.components a = none

/-- The heaps `h` and `r` hold the same entities and components at all
addresses below `N`. -/
def Agree (N : Nat) (h r : Heap) : Prop :=
  ∀ q, q < N →
    lookup r.entities q = lookup h.entities q ∧ lookup r.components q = lookup h.components q

/-- State of a running `deepClone` call that started in heap `h` and allocated
the entity `clone`: only objects allocated since the start were touched, and
the clone is live. -/
def CloneInv (h : Heap) (clone : Nat) (acc : Heap) : Prop :=
  Fresh acc ∧ clone < acc.next ∧ h.next ≤ clone ∧ Agree h.next h acc ∧
    ∃ ce, lookup acc.entities clone = some ce

/-- Heap with a tree of three entities: "Root" (address 1, holding the
Transform at address 4) with the children "Left" (address 2) and "Right"
(address 3). -/
def smallTreeHeap : Heap :=
  { entities := [(1, ⟨"Root", [4], none, [2, 3]⟩), (2, ⟨"Left", [], some 1, []⟩),
      (3, ⟨"Right", [], some 1, []⟩)],
    components := [(4, Component.Transform "Transform" 0 0 0 0 0 0 oneF oneF oneF)],
    buffers := [], next := 5, released := [] }

/-! ## DynamicArray -/

/-- Class `DynamicArray`.  `data` is the `int[]` array the member points to
(cells that were never written hold 0); `stray` records every write through
`data[i]` whose index lies outside that array, as index and value (undefined
behaviour in C++). -/
structure DynamicArray where
  data : List Int
  size : Int
  capacity : Int
  stray : List (Int × Int)
  deriving DecidableEq, Repr

/-- Constructor `DynamicArray(initialCapacity)`; `new int[capacity]` throws for
a negative capacity, modelled as `none`. -/
def DynamicArray.new (initialCapacity : Int) : Option DynamicArray :=
  if initialCapacity < 0 then none
  else some ⟨List.replicate initialCapacity.toNat 0, 0, initialCapacity, []⟩

/-- Assignment `data[i] = v`. -/
def DynamicArray.writeAt (a : DynamicArray) (i v : Int) : DynamicArray :=
  if 0 ≤ i ∧ i.toNat < a.data.length then { a with data := a.data.set i.toNat v }
  else { a with stray := a.stray ++ [(i, v)] }

/-- Expression `arr[index]` read as a value: the cell of the array, or `none`
for an address outside the array (undefined behaviour).  The method checks
nothing and has no failure result. -/
def DynamicArray.index (a : DynamicArray) (i : Int) : Option Int :=
  if 0 ≤ i ∧ i.toNat < a.data.length then a.data.get? i.toNat else none

/-- Assignment `arr[index] = v` through the reference `operator[]` returns. -/
def DynamicArray.assignIndex (a : DynamicArray) (i v : Int) : DynamicArray := a.writeAt i v

/-- Method `DynamicArray::resize`: `capacity *= 2` in 32-bit arithmetic,
`new int[capacity]` (throws for a negative capacity: `none`), then the copy
loop `newData[i] = data[i]` for `0 <= i < size`. -/
def DynamicArray.resize (a : DynamicArray) : Option DynamicArray :=
  let cap := wrapInt32 (a.capacity * 2)
  if cap < 0 then none
  else
    some ((List.range a.size.toNat).foldl
      (fun acc (i : Nat) => acc.writeAt (Int.ofNat i) (a.data.getD i 0))
      ⟨List.replicate cap.toNat 0, a.size, cap, a.stray⟩)

/-- Method `DynamicArray::push`. -/
def DynamicArray.push (a : DynamicArray) (v : Int) : Option DynamicArray :=
  match (if a.size ≥ a.capacity then a.resize else some a) with
  | none => none
  | some a1 => some { a1.writeAt a1.size v with size := wrapInt32 (a1.size + 1) }

/-- Method `DynamicArray::pop`: `return data[--size]`; `none` when the index
lies outside the array. -/
def DynamicArray.pop (a : DynamicArray) : Option (DynamicArray × Int) :=
  match a.index (wrapInt32 (a.size - 1)) with
  | none => none
  | some v => some ({ a with size := wrapInt32 (a.size - 1) }, v)

/-- A sequence of `push` calls. -/
def DynamicArray.pushAll : DynamicArray → List Int → Option DynamicArray
  | a, [] => some a
  | a, v :: rest =>
    match a.push v with
    | none => none
    | some a1 => a1.pushAll rest

/-- Capacity after each `push` of a sequence of `push` calls. -/
def DynamicArray.capacities : DynamicArray → List Int → List Int
  | _, [] => []
  | a, v :: rest =>
    match a.push v with
    | none => []
    | some a1 => a1.capacity :: a1.capacities rest

/-- Observations of `outOfBoundsScenario`. -/
structure OutOfBoundsResult where
  size : Int
  capacity : Int
  read4 : Option Int
  read10 : Option Int
  readNeg : Option Int
  afterWrite4 : List Int
  strayAfterWrite10 : List (Int × Int)
  deriving DecidableEq, Repr

/-- As `demonstrateArrayOutOfBounds`: `DynamicArray arr(5)`, three `push`
calls, then reads of `arr[4]`, `arr[10]` and `arr[-1]` and the writes
`arr[4] = 999` and `arr[10] = 999`. -/
def outOfBoundsScenario : Option OutOfBoundsResult := do
  let a0 ← DynamicArray.new 5
  let a ← a0.pushAll [1, 2, 3]
  pure ⟨a.size, a.capacity, a.index 4, a.index 10, a.index (-1),
    (a.assignIndex 4 999).data, (a.assignIndex 10 999).stray⟩

/-- `DynamicArray arr(0)` followed by `arr.push(1)`.  Returns size, capacity
and length of the array after the call and the writes that fell outside it. -/
def zeroCapacityScenario : Option (Int × Int × Nat × List (Int × Int)) := do
  let a0 ← DynamicArray.new 0
  let a ← a0.push 1
  pure (a.size, a.capacity, a.data.length, a.stray)

/-! ## Texture -/

/-- Class `Texture`: `dataLen` is the length of the array `data` points to,
`deleted` counts the executions of `delete this`.  After `delete this` the
members are taken to keep their values, as the code goes on using them. -/
structure Texture where
  width : Int
  height : Int
  dataLen : Nat
  refCount : Int
  deleted : Nat
  deriving DecidableEq, Repr

/-- Constructor `Texture(w, h)`: `refCount(1)` and `new unsigned char[w * h * 4]`
(throws for a negative size: `none`). -/
def Texture.new (w h : Int) : Option Texture :=
  if wrapInt32 (wrapInt32 (w * h) * 4) < 0 then none
  else some ⟨w, h, (wrapInt32 (wrapInt32 (w * h) * 4)).toNat, 1, 0⟩

/-- Method `Texture::addRef`. -/
def Texture.addRef (t : Texture) : Texture := { t with refCount := wrapInt32 (t.refCount + 1) }

/-- Method `Texture::release`. -/
def Texture.release (t : Texture) : Texture :=
  if wrapInt32 (t.refCount - 1) = 0 then
    { t with refCount := wrapInt32 (t.refCount - 1), deleted := t.deleted + 1 }
  else { t with refCount := wrapInt32 (t.refCount - 1) }

/-- Calls on a `Texture`. -/
inductive TexOp where
  | addRef
  | release
  deriving DecidableEq, Repr

/-- State after a sequence of calls. -/
def Texture.run : Texture → List TexOp → Texture
  | t, [] => t
  | t, TexOp.addRef :: rest => t.addRef.run rest
  | t, TexOp.release :: rest => t.release.run rest

/-- Number of `addRef` calls in a sequence. -/
def addRefCount (ops : List TexOp) : Nat := ops.count TexOp.addRef

/-- Number of `release` calls in a sequence. -/
def releaseCount (ops : List TexOp) : Nat := ops.count TexOp.release

/-- Length of the pixel array `new Sprite(w, ht)` allocates. -/
def spriteBufferLength (h : Heap) (w ht : Int) : Option Nat :=
  match newSprite h w ht with
  | none => none
  | some (h1, s) =>
    match lookup h1.components s with
    | some (Component.Sprite _ t _ _) => (lookup h1.buffers t).map List.length
    | _ => none

/-- Observations of `doubleFreeScenario`. -/
structure DoubleFreeResult where
  transform : Nat
  entityComponents : Option (List Nat)
  cloneComponents : Option (List Nat)
  released : List Obj
  deriving DecidableEq, Repr

/-- The calls of `demonstrateDoubleFree`: `clone = entity->shallowClone()`,
then `entity->addComponent(new Transform())`, then `delete entity` and
`delete clone`.  Returns the address of the Transform, the component vectors
of the entity and the clone before the deletes, and the release log. -/
def doubleFreeScenario : Option DoubleFreeResult := do
  let (h1, e) := newEntity Heap.empty "Test"
  let (h2, clone) ← shallowClone h1 e
  let (h3, t) := newTransform h2
  let h4 ← addComponent h3 e t
  pure ⟨t, componentsOf h4 e, componentsOf h4 clone, (deleteEntity (deleteEntity h4 e) clone).released⟩

/-- State of a `DynamicArray` built with capacity `c` after the values `vs`
were pushed without overflow: the members agree with the array, the first
cells hold `vs`, nothing was written outside the array, and the capacity is
still `c` as long as no more than `c` values were pushed. -/
def PushInv (c : Int) (vs : List Int) (a : DynamicArray) : Prop :=
  a.size = (vs.length : Int) ∧ a.stray = [] ∧ a.capacity = (a.data.length : Int) ∧
    1 ≤ a.data.length ∧ a.data.length ≤ 2147483647 ∧ vs.length ≤ a.data.length ∧
    (∀ j, j < vs.length → a.data[j]? = vs[j]?) ∧
    ((vs.length : Int) ≤ c → a.capacity = c)

end ECS

/-! # Entity of the header_missing sample

A shallow embedding of `src/cpp/header_missing/include/Entity.h` and of the
pool in `Components.h`, with the same representation of pointers and heaps as
above. -/

namespace Game

/-- The classes derived from `Component` in `Components.h`; a value stands for
`std::type_index(typeid(T))`. -/
inductive ComponentClass where
  | Transform
  | Physics
  | Render
  | Script
  deriving DecidableEq, Repr

/-- Class `Component`: the dynamic class of the object and the member `owner`. -/
structure Component where
  cls : ComponentClass
  owner : Option Nat
  deriving DecidableEq, Repr

/-- Class `Entity`.  `componentMap` is the `std::unordered_map`, kept as a list
of entries with distinct keys. -/
structure Entity where
  name : String
  components : List Nat
  componentMap : List (ComponentClass × Nat)
  world : Option Nat
  parent : Option Nat
  children : List Nat
  active : Bool
  id : Nat
  deriving DecidableEq, Repr

/-- The heap: live entities and components by address, the next fresh address,
the static member `Entity::nextId` and the log of executed `delete`
expressions. -/
structure Heap where
  entities : List (Nat × Entity)
  components : List (Nat × Component)
  next : Nat
  nextId : Nat
  released : List Nat
  deriving DecidableEq, Repr

/-- Heap of a program that has allocated nothing yet. -/
def Heap.empty : Heap := ⟨[], [], 1, 0, []⟩

/-- Expression `new Entity(name)`: `id(nextId++)` on a `uint32_t`. -/
def newEntity (h : Heap) (name : String) : Heap × Nat :=
  ({ h with
      entities := h.entities ++ [(h.next, ⟨name, [], [], none, none, [], true, h.nextId⟩)],
      next := h.next + 1, nextId := (h.nextId + 1) % 4294967296 }, h.next)

/-- Lookup `componentMap.find(typeId)`. -/
def mapFind : List (ComponentClass × Nat) → ComponentClass → Option Nat
  | [], _ => none
  | (k, v) :: t, T => if k = T then some v else mapFind t T

/-- Assignment `componentMap[typeId] = p`. -/
def mapAssign : List (ComponentClass × Nat) → ComponentClass → Nat → List (ComponentClass × Nat)
  | [], T, p => [(T, p)]
  | (k, v) :: t, T, p => if k = T then (T, p) :: t else (k, v) :: mapAssign t T p

/-- Call `componentMap.erase(it)` for the entry of key `T`. -/
def mapErase : List (ComponentClass × Nat) → ComponentClass → List (ComponentClass × Nat)
  | [], _ => []
  | (k, v) :: t, T => if k = T then mapErase t T else (k, v) :: mapErase t T

/-- Method `Entity::addComponent<T>`: returns the component of class `T` the
entity already has, or else builds `new T()`, sets its owner and enters it
into the vector and the map. -/
def addComponent (h : Heap) (e : Nat) (T : ComponentClass) : Option (Heap × Nat) :=
  match ECS.lookup h.entities e with
  | none => none
  | some ent =>
    match mapFind ent.componentMap T with
    | some p => some (h, p)
    | none =>
      match ECS.lookup (h.components ++ [(h.next, (⟨T, none⟩ : Component))]) h.next with
      | none => none
      | some o =>
        some ({ h with
          entities := ECS.assign h.entities e
            { ent with components := ent.components ++ [h.next],
                       componentMap := mapAssign ent.componentMap T h.next },
          components := ECS.assign (h.components ++ [(h.next, (⟨T, none⟩ : Component))]) h.next
            { o with owner := some e },
          next := h.next + 1 }, h.next)

/-- Method `Entity::getComponent<T>`; the inner `none` is `nullptr`. -/
def getComponent (h : Heap) (e : Nat) (T : ComponentClass) : Option (Option Nat) :=
  match ECS.lookup h.entities e with
  | none => none
  | some ent => some (mapFind ent.componentMap T)

/-- Method `Entity::removeComponent<T>`: erases the map entry, erases the
pointer from the vector (`std::find`, first occurrence) and deletes the
component. -/
def removeComponent (h : Heap) (e : Nat) (T : ComponentClass) : Option Heap :=
  match ECS.lookup h.entities e with
  | none => none
  | some ent =>
    match mapFind ent.componentMap T with
    | none => some h
    | some comp =>
      some { h with
        entities := ECS.assign h.entities e
          { ent with componentMap := mapErase ent.componentMap T,
                     components := ent.components.erase comp },
        components := ECS.remove h.components comp,
        released := h.released ++ [comp] }

/-- Method `Entity::removeChild`. -/
def removeChild (h : Heap) (e child : Nat) : Option Heap :=
  match ECS.lookup h.entities e with
  | none => none
  | some ent =>
    if child ∈ ent.children then
      match ECS.lookup h.entities child with
      | none => none
      | some c =>
        match ECS.lookup (ECS.assign h.entities child { c with parent := none }) e with
        | none => none
        | some ent1 =>
          some { h with
            entities := ECS.assign (ECS.assign h.entities child { c with parent := none }) e
              { ent1 with children := ent1.children.erase child } }
    else some h

/-- Last two statements of `Entity::addChild`: `child->parent = this;
children.push_back(child);`. -/
def linkChild (h : Heap) (e child : Nat) : Option Heap :=
  match ECS.lookup h.entities child with
  | none => none
  | some c =>
    match ECS.lookup (ECS.assign h.entities child { c with parent := some e }) e with
    | none => none
    | some ent =>
      some { h with
        entities := ECS.assign (ECS.assign h.entities child { c with parent := some e }) e
          { ent with children := ent.children ++ [child] } }

/-- Method `Entity::addChild`.  A pointer is an address, so `child != nullptr`
holds; a failing `assert(child != this)` aborts the program (`none`).  A child
that has a parent is first removed from that parent. -/
def addChild (h : Heap) (e child : Nat) : Option Heap :=
  if child = e then none
  else
    match ECS.lookup h.entities child with
    | none => none
    | some c =>
      match c.parent with
      | some q =>
        match removeChild h q child with
        | none => none
        | some h1 => linkChild h1 e child
      | none => linkChild h e child

/-- Calls that change the components of one entity. -/
inductive CompOp where
  | add (T : ComponentClass)
  | remove (T : ComponentClass)
  deriving DecidableEq, Repr

/-- State after a sequence of `addComponent<T>` and `removeComponent<T>` calls
on the entity `e`. -/
def runComps (e : Nat) : Heap → List CompOp → Option Heap
  | h, [] => some h
  | h, CompOp.add T :: rest =>
    match addComponent h e T with
    | none => none
    | some (h1, _) => runComps e h1 rest
  | h, CompOp.remove T :: rest =>
    match removeComponent h e T with
    | none => none
    | some h1 => runComps e h1 rest

/-- Dynamic class of the live component at `p`. -/
def classOf (h : Heap) (p : Nat) : Option ComponentClass :=
  (ECS.lookup h.components p).map Component.cls

/-- State of an entity `e` whose components were all made by `addComponent<T>`:
vector and map hold the same pointers in the same order, keys and pointers are
distinct, every entry points to a live component of the class of its key, and
no component lives at an address not handed out yet. -/
def CompInv (h : Heap) (e : Nat) : Prop :=
  ∃ ent, ECS.lookup h.entities e = some ent ∧
    ent.components = ent.componentMap.map Prod.snd ∧
    (ent.componentMap.map Prod.fst).Nodup ∧ (ent.componentMap.map Prod.snd).Nodup ∧
    (∀ T p, (T, p) ∈ ent.componentMap →
      p < h.next ∧ ∃ o, ECS.lookup h.components p = some ⟨T, o⟩) ∧
    ∀ a, h.next ≤ a → ECS.lookup h.components a = none

/-- Calls that change parent and child links. -/
inductive LinkOp where
  | addChild (p c : Nat)
  | removeChild (p c : Nat)
  deriving DecidableEq, Repr

/-- State after a sequence of `addChild` and `removeChild` calls. -/
def runLinks : Heap → List LinkOp → Option Heap
  | h, [] => some h
  | h, LinkOp.addChild p c :: rest =>
    match addChild h p c with
    | none => none
    | some h1 => runLinks h1 rest
  | h, LinkOp.removeChild p c :: rest =>
    match removeChild h p c with
    | none => none
    | some h1 => runLinks h1 rest

/-- Child vector of the live entity at `p`. -/
def childrenOf (h : Heap) (p : Nat) : List Nat :=
  match ECS.lookup h.entities p with
  | some ent => ent.children
  | none => []

/-- Parent link of the live entity at `c`. -/
def parentOf (h : Heap) (c : Nat) : Option Nat :=
  match ECS.lookup h.entities c with
  | some ent => ent.parent
  | none => none

/-- All entities are parentless and childless. -/
def Unlinked (h : Heap) : Prop :=
  ∀ e ent, ECS.lookup h.entities e = some ent → ent.parent = none ∧ ent.children = []

/-- Parent links and child vectors agree: a parent link points to a live
entity that lists the child, a listed child is live and has that parent, and
no child vector lists an entity twice or lists its own entity. -/
def LinkInv (h : Heap) : Prop :=
  (∀ c ec p, ECS.lookup h.entities c = some ec → ec.parent = some p →
      ∃ ep, ECS.lookup h.entities p = some ep ∧ c ∈ ep.children) ∧
    (∀ p ep c, ECS.lookup h.entities p = some ep → c ∈ ep.children →
      ∃ ec, ECS.lookup h.entities c = some ec ∧ ec.parent = some p) ∧
    (∀ p ep, ECS.lookup h.entities p = some ep → ep.children.Nodup ∧ p ∉ ep.children)

/-- Heap with three fresh entities at the addresses 1, 2 and 3. -/
def threeEntities : Heap :=
  (newEntity (newEntity (newEntity Heap.empty "A").1 "B").1 "C").1

/-- Class template `ComponentPool<T>`: `pool` and the queue `freeList` hold
addresses; `next` is the address the next `new T()` returns. -/
structure ComponentPool where
  pool : List Nat
  freeList : List Nat
  maxSize : Nat
  next : Nat
  deriving DecidableEq, Repr

/-- Constructor `ComponentPool(max)`. -/
def ComponentPool.new (max next : Nat) : ComponentPool := ⟨[], [], max, next⟩

/-- Method `ComponentPool::acquire`; `none` is `nullptr`. -/
def ComponentPool.acquire (p : ComponentPool) : ComponentPool × Option Nat :=
  match p.freeList with
  | item :: rest => ({ p with freeList := rest }, some item)
  | [] =>
    if p.pool.length < p.maxSize then
      ({ p with pool := p.pool ++ [p.next], next := p.next + 1 }, some p.next)
    else (p, none)

/-- Method `ComponentPool::release`. -/
def ComponentPool.release (p : ComponentPool) (item : Nat) : ComponentPool :=
  { p with freeList := p.freeList ++ [item] }

/-- Calls on a pool. -/
inductive PoolOp where
  | acquire
  | release (item : Nat)
  deriving DecidableEq, Repr

/-- State of the pool and list of the items held by callers after a sequence
of calls; `none` when a `release` names an item that is not held. -/
def runPool : ComponentPool × List Nat → List PoolOp → Option (ComponentPool × List Nat)
  | st, [] => some st
  | (p, held), PoolOp.acquire :: rest =>
    match p.acquire.2 with
    | some item => runPool (p.acquire.1, held ++ [item]) rest
    | none => runPool (p.acquire.1, held) rest
  | (p, held), PoolOp.release item :: rest =>
    if item ∈ held then runPool (p.release item, held.erase item) rest else none

/-- State of a pool used as agreed: the created items are distinct and below
`next`, every created item is either held or in the free list, never both and
never twice, and no more than `maxSize` items were created. -/
def PoolInv (p : ComponentPool) (held : List Nat) : Prop :=
  (∀ x ∈ p.pool, x < p.next) ∧ p.freeList.Nodup ∧ held.Nodup ∧
    (∀ x ∈ p.freeList, x ∈ p.pool) ∧ (∀ x ∈ held, x ∈ p.pool ∧ x ∉ p.freeList) ∧
    held.length + p.freeList.length = p.pool.length ∧ p.pool.length ≤ p.maxSize

end Game

/-! # Entity of the linker_error sample

A shallow embedding of `src/cpp/linker_error/src/GameEngine.cpp`. -/

namespace GameEngine

/-- Class `Component`: the members `name` and `owner`. -/
structure Component where
  name : String
  owner : Option Nat
  deriving DecidableEq, Repr

/-- Class `Entity`: `components` holds the addresses of the components. -/
structure Entity where
  entityName : String
  components : List Nat
  isActive : Bool
  deriving DecidableEq, Repr

/-- Live component objects by address, the static member `Entity::entityCount`
and the log of the addresses passed to `delete`. -/
structure Heap where
  components : List (Nat × Component)
  entityCount : Int
  released : List Nat
  deriving DecidableEq, Repr

/-- Constant `Entity::MAX_COMPONENTS`. -/
def MAX_COMPONENTS : Nat := 32

/-- Constructor `Entity(name)`. -/
def Entity.new (h : Heap) (name : String) : Heap × Entity :=
  ({ h with entityCount := ECS.wrapInt32 (h.entityCount + 1) }, ⟨name, [], true⟩)

/-- Method `Entity::addComponent`. -/
def addComponent (e : Entity) (component : Nat) : Entity :=
  if e.components.length < MAX_COMPONENTS then
    { e with components := e.components ++ [component] }
  else e

/-- Call `std::find_if` of `removeComponent`: position of the first component
whose `getName()` equals `name` (`some none` when there is none).  The
predicate reads through each pointer up to that position; reading through a
pointer to no live component gives `none`. -/
def findByName (h : Heap) : List Nat → String → Option (Option Nat)
  | [], _ => some none
  | c :: t, name =>
    match ECS.lookup h.components c with
    | none => none
    | some comp =>
      if comp.name = name then some (some 0)
      else
        match findByName h t name with
        | none => none
        | some none => some none
        | some (some i) => some (some (i + 1))

/-- Statement `delete component`. -/
def deleteComponent (h : Heap) (c : Nat) : Heap :=
  { h with components := ECS.remove h.components c, released := h.released ++ [c] }

/-- Method `Entity::removeComponent`. -/
def removeComponent (h : Heap) (e : Entity) (name : String) : Option (Heap × Entity) :=
  match findByName h e.components name with
  | none => none
  | some none => some (h, e)
  | some (some i) =>
    match e.components[i]? with
    | none => none
    | some c => some (deleteComponent h c, { e with components := e.components.eraseIdx i })

/-- Method `Entity::getComponent`. -/
def getComponent (h : Heap) : List Nat → String → Option (Option Nat)
  | [], _ => some none
  | c :: t, name =>
    match ECS.lookup h.components c with
    | none => none
    | some comp => if comp.name = name then some (some c) else getComponent h t name

/-- Destructor `~Entity`: the count goes down and every listed component is
deleted, in order. -/
def destroy (h : Heap) (e : Entity) : Heap :=
  e.components.foldl deleteComponent { h with entityCount := ECS.wrapInt32 (h.entityCount - 1) }

/-- One call on an entity. -/
inductive CompOp where
  | add (component : Nat)
  | remove (name : String)
  deriving DecidableEq, Repr

/-- State after a sequence of `addComponent` and `removeComponent` calls. -/
def runOps : Heap → Entity → List CompOp → Option (Heap × Entity)
  | h, e, [] => some (h, e)
  | h, e, CompOp.add c :: rest => runOps h (addComponent e c) rest
  | h, e, CompOp.remove name :: rest =>
    match removeComponent h e name with
    | none => none
    | some (h1, e1) => runOps h1 e1 rest

/-- Heap with live components named `C` at the addresses 1 to `n`. -/
def heapOf (n : Nat) : Heap :=
  ⟨(List.range' 1 n).map (fun a => (a, ⟨"C", none⟩)), 0, []⟩

/-- Calls on a new entity: add the component at address 1, remove the component
named `C` (that one), add the components at the addresses 2 to 33, which
fills the entity, and add the component at address 34. -/
def fillOps : List CompOp :=
  CompOp.add 1 :: CompOp.remove "C" :: (List.range' 2 33).map CompOp.add

end GameEngine

/-! # Theorems -/

namespace ECS

/-! ## Address table lemmas -/

theorem lookup_assign {α : Type} (l : List (Nat × α)) (a q : Nat) (v : α) :
    lookup (assign l a v) q = if q = a then (lookup l a).map (fun _ => v) else lookup l q := by
  induction l with
  | nil => simp [assign, lookup]
  | cons kv t ih =>
    obtain ⟨k, x⟩ := kv
    by_cases hk : k = a <;> by_cases hq : q = a <;> by_cases hkq : k = q <;>
      simp_all [assign, lookup]

theorem lookup_assign_self {α : Type} (l : List (Nat × α)) (a : Nat) (v w : α)
    (hl : lookup l a = some w) : lookup (assign l a v) a = some v := by
  rw [lookup_assign]; simp [hl]

theorem lookup_assign_other {α : Type} (l : List (Nat × α)) (a q : Nat) (v : α)
    (hq : q ≠ a) : lookup (assign l a v) q = lookup l q := by
  rw [lookup_assign]; simp [hq]

theorem lookup_remove {α : Type} (l : List (Nat × α)) (a q : Nat) :
    lookup (remove l a) q = if q = a then none else lookup l q := by
  induction l with
  | nil => simp [remove, lookup]
  | cons kv t ih =>
    obtain ⟨k, x⟩ := kv
    by_cases hk : k = a <;> by_cases hq : q = a <;> by_cases hkq : k = q <;>
      simp_all [remove, lookup]

theorem remove_length_le {α : Type} (l : List (Nat × α)) (a : Nat) :
    (remove l a).length ≤ l.length := by
  induction l with
  | nil => simp [remove]
  | cons kv t ih =>
    obtain ⟨k, x⟩ := kv
    by_cases hk : k = a <;> simp [remove, hk] <;> omega

theorem remove_length_lt {α : Type} (l : List (Nat × α)) (a : Nat) (v : α)
    (hl : lookup l a = some v) : (remove l a).length < l.length := by
  induction l with
  | nil => simp [lookup] at hl
  | cons kv t ih =>
    obtain ⟨k, x⟩ := kv
    by_cases hk : k = a
    · have hle := remove_length_le t a
      simp [remove, hk]
      omega
    · simp only [lookup, hk, if_false] at hl
      have := ih hl
      simp [remove, hk]
      omega

/-! ## The delete statement on entities -/

theorem foldlM_option_mono {α β : Type} (f g : β → α → Option β)
    (hfg : ∀ b a r, f b a = some r → g b a = some r) :
    ∀ (l : List α) (b r : β), l.foldlM f b = some r → l.foldlM g b = some r := by
  intro l
  induction l with
  | nil => intro b r hr; simpa using hr
  | cons a t ih =>
    intro b r hr
    simp only [List.foldlM_cons, Option.bind_eq_bind] at hr ⊢
    cases hf : f b a with
    | none => simp [hf] at hr
    | some b1 =>
      rw [hf] at hr
      rw [hfg b a b1 hf]
      exact ih b1 r hr

theorem foldl_deleteComponent_entities (l : List Nat) (h : Heap) :
    (l.foldl deleteComponent h).entities = h.entities := by
  induction l generalizing h with
  | nil => rfl
  | cons a t ih => simp [List.foldl_cons, ih, deleteComponent]

theorem deleteEntityFuel_succ (fuel : Nat) (h : Heap) (p : Nat) :
    deleteEntityFuel (fuel + 1) h p =
      match lookup h.entities p with
      | none => some { h with released := h.released ++ [Obj.entity p] }
      | some ent =>
        match ent.children.foldlM (fun acc child => deleteEntityFuel fuel acc child)
            { h with entities := remove h.entities p, released := h.released ++ [Obj.entity p] } with
        | none => none
        | some h2 => some (ent.components.foldl deleteComponent h2) := rfl

theorem deleteEntityFuel_mono (n : Nat) :
    ∀ (m : Nat) (h : Heap) (p : Nat) (r : Heap), n ≤ m →
      deleteEntityFuel n h p = some r → deleteEntityFuel m h p = some r := by
  induction n with
  | zero => intro m h p r _ hr; simp [deleteEntityFuel] at hr
  | succ k ih =>
    intro m h p r hm hr
    obtain ⟨m1, rfl⟩ : ∃ m1, m = m1 + 1 := ⟨m - 1, by omega⟩
    have hk : k ≤ m1 := by omega
    rw [deleteEntityFuel_succ] at hr ⊢
    cases hl : lookup h.entities p with
    | none => simpa [hl] using hr
    | some ent =>
      simp only [hl] at hr ⊢
      cases hf : List.foldlM (fun acc child => deleteEntityFuel k acc child)
          { h with entities := remove h.entities p, released := h.released ++ [Obj.entity p] }
          ent.children with
      | none => simp [hf] at hr
      | some h2 =>
        rw [hf] at hr
        rw [foldlM_option_mono _ (fun acc child => deleteEntityFuel m1 acc child)
          (fun b a r1 hb => ih m1 b a r1 hk hb) _ _ _ hf]
        exact hr

theorem deleteEntityFuel_total (n : Nat) :
    ∀ (h : Heap) (p : Nat), h.entities.length ≤ n →
      ∃ r, deleteEntityFuel (n + 1) h p = some r ∧ r.entities.length ≤ h.entities.length := by
  induction n with
  | zero =>
    intro h p hn
    cases hl : lookup h.entities p with
    | none =>
      exact ⟨{ h with released := h.released ++ [Obj.entity p] },
        by rw [deleteEntityFuel_succ, hl], le_refl _⟩
    | some ent =>
      have := remove_length_lt h.entities p ent hl
      omega
  | succ k ih =>
    intro h p hn
    cases hl : lookup h.entities p with
    | none =>
      exact ⟨{ h with released := h.released ++ [Obj.entity p] },
        by rw [deleteEntityFuel_succ, hl], le_refl _⟩
    | some ent =>
      have hlt := remove_length_lt h.entities p ent hl
      have hfold : ∀ (cs : List Nat) (acc : Heap), acc.entities.length ≤ k →
          ∃ r, List.foldlM (fun acc child => deleteEntityFuel (k + 1) acc child) acc cs = some r ∧
            r.entities.length ≤ acc.entities.length := by
        intro cs
        induction cs with
        | nil => intro acc _; exact ⟨acc, by simp, le_refl _⟩
        | cons c t iht =>
          intro acc hacc
          obtain ⟨r1, hr1, hle1⟩ := ih acc c hacc
          obtain ⟨r2, hr2, hle2⟩ := iht r1 (by omega)
          exact ⟨r2, by simp [List.foldlM_cons, hr1, hr2], by omega⟩
      obtain ⟨h2, hh2, hle2⟩ := hfold ent.children
        { h with entities := remove h.entities p, released := h.released ++ [Obj.entity p] }
        (by simp only; omega)
      refine ⟨ent.components.foldl deleteComponent h2, by rw [deleteEntityFuel_succ, hl]; simp only [hh2], ?_⟩
      rw [foldl_deleteComponent_entities]
      simp only at hle2
      omega

/-- The recursion bound used by `deleteEntity` is never reached. -/
theorem deleteEntityFuel_enough (h : Heap) (p : Nat) :
    deleteEntityFuel (h.entities.length + 1) h p = some (deleteEntity h p) := by
  obtain ⟨r, hr, -⟩ := deleteEntityFuel_total h.entities.length h p (le_refl _)
  simp [deleteEntity, hr]

/-- Whatever bound lets the recursion finish, the result is that of `deleteEntity`. -/
theorem deleteEntity_of_fuel (n : Nat) (h : Heap) (p : Nat) (r : Heap)
    (hr : deleteEntityFuel n h p = some r) : deleteEntity h p = r := by
  have h1 := deleteEntityFuel_mono n (max n (h.entities.length + 1)) h p r (le_max_left _ _) hr
  have h2 := deleteEntityFuel_mono _ (max n (h.entities.length + 1)) h p _ (le_max_right _ _)
    (deleteEntityFuel_enough h p)
  rw [h1] at h2
  exact (Option.some.inj h2).symm

theorem Reach.mono (h r : Heap) (hsub : SubHeap h r) (a b : Nat) (hab : Reach r a b) :
    Reach h a b := by
  induction hab with
  | refl p => exact Reach.refl p
  | step p q x hq _ ih =>
    refine Reach.step p q x ?_ ih
    rcases hsub p with heq | hnone
    · simpa [childrenOf, heq] using hq
    · simp [childrenOf, hnone] at hq

theorem SubHeap.refl (h : Heap) : SubHeap h h := fun _ => Or.inl rfl

theorem SubHeap.trans (a b c : Heap) (hab : SubHeap a b) (hbc : SubHeap b c) : SubHeap a c := by
  intro q
  rcases hbc q with h1 | h1
  · rcases hab q with h2 | h2
    · exact Or.inl (h1.trans h2)
    · exact Or.inr (h1.trans h2)
  · exact Or.inr h1

theorem foldl_deleteComponent_released (l : List Nat) (h : Heap) :
    (l.foldl deleteComponent h).released = h.released ++ l.map Obj.component := by
  induction l generalizing h with
  | nil => simp
  | cons a t ih => simp [List.foldl_cons, ih, deleteComponent]

/-- What `delete p` does to entities: live entities only disappear, entities
that are not reached from `p` stay, and the entities it adds to the release
log are reached from `p`. -/
theorem deleteEntityFuel_inv (n : Nat) :
    ∀ (h : Heap) (p : Nat) (r : Heap), deleteEntityFuel n h p = some r →
      SubHeap h r ∧ (∀ q, ¬ Reach h p q → lookup r.entities q = lookup h.entities q) ∧
      ∃ new, r.released = h.released ++ new ∧ ∀ x, Obj.entity x ∈ new → Reach h p x := by
  induction n with
  | zero => intro h p r hr; simp [deleteEntityFuel] at hr
  | succ k ih =>
    intro h p r hr
    rw [deleteEntityFuel_succ] at hr
    cases hl : lookup h.entities p with
    | none =>
      simp only [hl, Option.some.injEq] at hr
      subst hr
      refine ⟨SubHeap.refl _, fun _ _ => rfl, [Obj.entity p], rfl, ?_⟩
      intro x hx
      simp only [List.mem_singleton, Obj.entity.injEq] at hx
      subst hx
      exact Reach.refl _
    | some ent =>
      simp only [hl] at hr
      have hfold : ∀ (cs : List Nat) (acc res : Heap),
          List.foldlM (fun acc child => deleteEntityFuel k acc child) acc cs = some res →
          SubHeap acc res ∧
          (∀ q, (∀ c ∈ cs, ¬ Reach acc c q) → lookup res.entities q = lookup acc.entities q) ∧
          ∃ new, res.released = acc.released ++ new ∧
            ∀ x, Obj.entity x ∈ new → ∃ c ∈ cs, Reach acc c x := by
        intro cs
        induction cs with
        | nil =>
          intro acc res hres
          simp only [List.foldlM_nil, Option.pure_def, Option.some.injEq] at hres
          subst hres
          exact ⟨SubHeap.refl _, fun _ _ => rfl, [], by simp, by simp⟩
        | cons c t iht =>
          intro acc res hres
          simp only [List.foldlM_cons, Option.bind_eq_bind] at hres
          cases hc : deleteEntityFuel k acc c with
          | none => simp [hc] at hres
          | some r1 =>
            rw [hc] at hres
            simp only [Option.some_bind] at hres
            obtain ⟨hs1, hk1, new1, hn1, hr1⟩ := ih acc c r1 hc
            obtain ⟨hs2, hk2, new2, hn2, hr2⟩ := iht r1 res hres
            refine ⟨SubHeap.trans _ _ _ hs1 hs2, ?_, new1 ++ new2, ?_, ?_⟩
            · intro q hq
              rw [hk2 q, hk1 q]
              · exact hq c (List.mem_cons_self c t)
              · intro c1 hc1 hreach
                exact hq c1 (List.mem_cons_of_mem c hc1) (Reach.mono acc r1 hs1 c1 q hreach)
            · rw [hn2, hn1, List.append_assoc]
            · intro x hx
              rcases List.mem_append.mp hx with hx1 | hx2
              · exact ⟨c, List.mem_cons_self c t, hr1 x hx1⟩
              · obtain ⟨c1, hc1, hreach⟩ := hr2 x hx2
                exact ⟨c1, List.mem_cons_of_mem c hc1, Reach.mono acc r1 hs1 c1 x hreach⟩
      cases hf : List.foldlM (fun acc child => deleteEntityFuel k acc child)
          { h with entities := remove h.entities p, released := h.released ++ [Obj.entity p] }
          ent.children with
      | none => simp [hf] at hr
      | some h2 =>
        rw [hf] at hr
        simp only [Option.some.injEq] at hr
        subst hr
        obtain ⟨hs, hk, new, hn, hreach⟩ := hfold _ _ _ hf
        have hsub1 : SubHeap h
            { h with entities := remove h.entities p, released := h.released ++ [Obj.entity p] } := by
          intro q
          simp only [lookup_remove]
          by_cases hq : q = p
          · exact Or.inr (by simp [hq])
          · exact Or.inl (by simp [hq])
        have hchild : ∀ c ∈ ent.children, c ∈ childrenOf h p := by
          intro c hc
          simpa [childrenOf, hl] using hc
        refine ⟨?_, ?_, [Obj.entity p] ++ new ++ ent.components.map Obj.component, ?_, ?_⟩
        · intro q
          rw [foldl_deleteComponent_entities]
          exact SubHeap.trans _ _ _ hsub1 hs q
        · intro q hq
          rw [foldl_deleteComponent_entities, hk q]
          · have hqp : q ≠ p := fun hh => hq (hh ▸ Reach.refl _)
            simp [lookup_remove, hqp]
          · intro c hc hcq
            exact hq (Reach.step p c q (hchild c hc) (Reach.mono _ _ hsub1 c q hcq))
        · rw [foldl_deleteComponent_released, hn]
          simp [List.append_assoc]
        · intro x hx
          simp only [List.append_assoc, List.mem_append, List.mem_singleton, Obj.entity.injEq,
            List.mem_map] at hx
          rcases hx with hx | hx | hx
          · subst hx; exact Reach.refl _
          · obtain ⟨c, hc, hcx⟩ := hreach x hx
            exact Reach.step p c x (hchild c hc) (Reach.mono _ _ hsub1 c x hcx)
          · obtain ⟨a, _, ha⟩ := hx
            cases ha

/-- Consequence for `deleteEntity`: an entity that is not reached from `p`
is neither released nor changed by `delete p`. -/
theorem deleteEntity_unreached (h : Heap) (p c : Nat) (hc : ¬ Reach h p c) :
    (deleteEntity h p).released.count (Obj.entity c) = h.released.count (Obj.entity c) ∧
      lookup (deleteEntity h p).entities c = lookup h.entities c := by
  obtain ⟨-, hk, new, hn, hreach⟩ :=
    deleteEntityFuel_inv _ h p _ (deleteEntityFuel_enough h p)
  refine ⟨?_, hk c hc⟩
  rw [hn, List.count_append]
  have : List.count (Obj.entity c) new = 0 :=
    List.count_eq_zero.mpr (fun hmem => hc (hreach c hmem))
  omega

/-! ## Attaching and detaching children -/

theorem addChild_spec (h : Heap) (e child : Nat) (c ent : Entity)
    (hc : lookup h.entities child = some c) (he : lookup h.entities e = some ent) :
    ∃ h1, addChild h e child = some h1 ∧ h1.components = h.components ∧
      h1.buffers = h.buffers ∧ h1.released = h.released ∧
      ∀ q, lookup h1.entities q =
        if q = e then
          some { (if e = child then { c with parent := some e } else ent) with
            children := (if e = child then { c with parent := some e } else ent).children ++ [child] }
        else if q = child then some { c with parent := some e }
        else lookup h.entities q := by
  have l1 : lookup (assign h.entities child { c with parent := some e }) e
      = some (if e = child then { c with parent := some e } else ent) := by
    rw [lookup_assign]
    by_cases hec : e = child
    · subst hec; simp [hc]
    · simp [hec, he]
  refine ⟨{ h with
      entities := assign (assign h.entities child { c with parent := some e }) e
        ({ (if e = child then { c with parent := some e } else ent) with
          children := (if e = child then { c with parent := some e } else ent).children ++ [child] }) },
    by simp only [addChild, hc, l1], rfl, rfl, rfl, ?_⟩
  intro q
  simp only [lookup_assign, l1, hc, Option.map_some']

theorem removeChild_spec (h : Heap) (e child : Nat) (c ent : Entity)
    (he : lookup h.entities e = some ent) (hmem : child ∈ ent.children)
    (hc : lookup h.entities child = some c) :
    ∃ h1, removeChild h e child = some h1 ∧ h1.components = h.components ∧
      h1.buffers = h.buffers ∧ h1.released = h.released ∧
      ∀ q, lookup h1.entities q =
        if q = e then
          some { (if e = child then { c with parent := none } else ent) with
            children := (if e = child then { c with parent := none } else ent).children.erase child }
        else if q = child then some { c with parent := none }
        else lookup h.entities q := by
  have l1 : lookup (assign h.entities child { c with parent := none }) e
      = some (if e = child then { c with parent := none } else ent) := by
    rw [lookup_assign]
    by_cases hec : e = child
    · subst hec; simp [hc]
    · simp [hec, he]
  refine ⟨{ h with
      entities := assign (assign h.entities child { c with parent := none }) e
        ({ (if e = child then { c with parent := none } else ent) with
          children := (if e = child then { c with parent := none } else ent).children.erase child }) },
    by simp only [removeChild, he, hmem, if_true, hc, l1], rfl, rfl, rfl, ?_⟩
  intro q
  simp only [lookup_assign, l1, hc, Option.map_some']

theorem childrenOf_congr (h r : Heap) (heq : ∀ q, lookup r.entities q = lookup h.entities q) :
    SubHeap r h ∧ SubHeap h r :=
  ⟨fun q => Or.inl (heq q).symm, fun q => Or.inl (heq q)⟩

/-! ## Attaching and detaching components -/

theorem namedIn_of_components (h h' : Heap) (K : String) (hc : h'.components = h.components) :
    namedIn h' K = namedIn h K := by
  funext c
  simp [namedIn, hc]

theorem addComponent_spec (h : Heap) (e comp : Nat) (ent : Entity)
    (he : lookup h.entities e = some ent) :
    ∃ h1, addComponent h e comp = some h1 ∧
      lookup h1.entities e = some { ent with components := ent.components ++ [comp] } ∧
      h1.components = h.components ∧ h1.released = h.released := by
  refine ⟨{ h with entities := assign h.entities e { ent with components := ent.components ++ [comp] } },
    by simp [addComponent, he], ?_, rfl, rfl⟩
  exact lookup_assign_self _ _ _ _ he

theorem removeComponent_spec (h : Heap) (e d : Nat) (K : String) (ent : Entity) (rest : List Nat)
    (he : lookup h.entities e = some ent)
    (hrm : removeFirstNamed h.components K ent.components = some (some d, rest)) :
    ∃ h1, removeComponent h e K = some h1 ∧
      lookup h1.entities e = some { ent with components := rest } ∧
      h1.components = remove h.components d ∧
      h1.released = h.released ++ [Obj.component d] := by
  refine ⟨{ deleteComponent h d with
      entities := assign (deleteComponent h d).entities e { ent with components := rest } },
    by simp [removeComponent, he, hrm], ?_, rfl, rfl⟩
  exact lookup_assign_self _ _ _ _ he

theorem namedIn_live (h : Heap) (K : String) (c : Nat) (hc : namedIn h K c = true) :
    ∃ co, lookup h.components c = some co ∧ co.name = K := by
  unfold namedIn at hc
  cases hl : lookup h.components c with
  | none => simp [hl] at hc
  | some co => exact ⟨co, rfl, by simpa [hl] using hc⟩

theorem removeFirstNamed_append (comps : List (Nat × Component)) (K : String) (c : Nat)
    (co : Component) (hc : lookup comps c = some co) (hK : co.name = K) (L : List Nat)
    (habs : ∀ c0 ∈ L, ∃ co0, lookup comps c0 = some co0 ∧ co0.name ≠ K) :
    removeFirstNamed comps K (L ++ [c]) = some (some c, L) := by
  induction L with
  | nil => simp [removeFirstNamed, hc, hK]
  | cons a t ih =>
    obtain ⟨co0, h0, hn0⟩ := habs a (List.mem_cons_self a t)
    have iht := ih (fun c0 hc0 => habs c0 (List.mem_cons_of_mem a hc0))
    simp [removeFirstNamed, h0, hn0, iht]

/-- C7, counterexample: an entity that already holds a Transform ends with two
components named "Transform" after add, remove, add; the removal deleted the
older Transform (address 2), not the one just added. -/
theorem reattach_counterexample :
    reattachScenario = some (2, 3, 4, some [3, 4], 2) ∧
      ¬ (reattachScenario.map (fun r => r.2.2.2.2) = some 1) := by
  decide

/-- C7, amended: when the entity holds no component named `K` beforehand (all
its component pointers are live and carry other names), then after
`addComponent(c)`, `removeComponent(K)`, `addComponent(c2)` with live
components `c`, `c2` named `K`, all three calls are defined, the component
vector is the old one followed by `c2`, and exactly one component named `K`
is held. -/
theorem reattach_when_absent (h : Heap) (e c c2 : Nat) (K : String) (ent : Entity)
    (he : lookup h.entities e = some ent)
    (habs : ∀ c0 ∈ ent.components, ∃ co0, lookup h.components c0 = some co0 ∧ co0.name ≠ K)
    (hc : namedIn h K c = true) (hc2 : namedIn h K c2 = true) (hne : c2 ≠ c) :
    ∃ h1 h2 h3, addComponent h e c = some h1 ∧ removeComponent h1 e K = some h2 ∧
      addComponent h2 e c2 = some h3 ∧
      componentsOf h3 e = some (ent.components ++ [c2]) ∧ countNamed h3 e K = 1 := by
  obtain ⟨co, hco, hK⟩ := namedIn_live h K c hc
  obtain ⟨co2, hco2, hK2⟩ := namedIn_live h K c2 hc2
  obtain ⟨h1, s1, e1, c1, -⟩ := addComponent_spec h e c ent he
  have hrm : removeFirstNamed h1.components K
      ({ ent with components := ent.components ++ [c] } : Entity).components
      = some (some c, ent.components) := by
    rw [c1]
    exact removeFirstNamed_append h.components K c co hco hK ent.components habs
  obtain ⟨h2, s2, e2, c2eq, -⟩ := removeComponent_spec h1 e c K _ _ e1 hrm
  obtain ⟨h3, s3, e3, c3, -⟩ := addComponent_spec h2 e c2 _ e2
  refine ⟨h1, h2, h3, s1, s2, s3, ?_, ?_⟩
  · simp [componentsOf, e3]
  · have hcomp : h3.components = remove h.components c := by rw [c3, c2eq, c1]
    have hold : List.countP (namedIn h3 K) ent.components = 0 := by
      rw [List.countP_eq_zero]
      intro c0 hc0
      obtain ⟨co0, h0, hn0⟩ := habs c0 hc0
      simp only [namedIn, hcomp, lookup_remove]
      by_cases hcc : c0 = c
      · simp [hcc]
      · simp [hcc, h0, hn0]
    have hnew : namedIn h3 K c2 = true := by
      simp [namedIn, hcomp, lookup_remove, hne, hco2, hK2]
    simp only [countNamed, e3, List.countP_append, hold]
    simp [List.countP_cons, hnew]

/-- C7, the amended statement at a concrete entity: a fresh entity and two
fresh Transforms. -/
theorem reattach_when_absent_witness :
    ∃ h1 h2 h3, addComponent (newTransform (newTransform (newEntity Heap.empty "Test").1).1).1 1 2 = some h1 ∧
      removeComponent h1 1 "Transform" = some h2 ∧ addComponent h2 1 3 = some h3 ∧
      componentsOf h3 1 = some ([] ++ [3]) ∧ countNamed h3 1 "Transform" = 1 :=
  reattach_when_absent (newTransform (newTransform (newEntity Heap.empty "Test").1).1).1 1 2 3
    "Transform" ⟨"Test", [], none, []⟩ (by decide) (by simp) (by decide) (by decide) (by decide)

/-- C8, counterexample: `addComponent` with a second Transform does not leave
the component vector unchanged; the entity then holds two components named
"Transform". -/
theorem duplicate_counterexample :
    duplicateScenario = some (some [2], some [2, 3], 2) ∧
      ¬ (duplicateScenario.map (fun r => r.2.1) = duplicateScenario.map (fun r => r.1)) := by
  decide

/-- C8, amended: for an entity that already holds a live component named `K`,
`addComponent` with another live component named `K` is defined (it has no
failure result), appends the pointer to the component vector and leaves the
entity with one more component named `K`, so at least two. -/
theorem addComponent_duplicate_appends (h : Heap) (e c0 comp : Nat) (K : String) (ent : Entity)
    (he : lookup h.entities e = some ent) (hc0 : c0 ∈ ent.components)
    (hn0 : namedIn h K c0 = true) (hn : namedIn h K comp = true) :
    ∃ h1, addComponent h e comp = some h1 ∧
      componentsOf h1 e = some (ent.components ++ [comp]) ∧
      h1.components = h.components ∧ h1.released = h.released ∧
      countNamed h1 e K = countNamed h e K + 1 ∧ 2 ≤ countNamed h1 e K := by
  obtain ⟨h1, s1, e1, c1, r1⟩ := addComponent_spec h e comp ent he
  have hcnt : countNamed h1 e K = countNamed h e K + 1 := by
    simp only [countNamed, e1, he, List.countP_append]
    rw [namedIn_of_components h h1 K c1]
    simp [List.countP_cons, hn]
  have hpos : 1 ≤ countNamed h e K := by
    simp only [countNamed, he]
    exact List.countP_pos_iff.mpr ⟨c0, hc0, hn0⟩
  refine ⟨h1, s1, ?_, c1, r1, hcnt, ?_⟩
  · simp [componentsOf, e1]
  · rw [hcnt]; omega

/-- C8, the amended statement at a concrete entity that holds one Transform. -/
theorem addComponent_duplicate_appends_witness :
    ∃ h1, addComponent oneTransformHeap 1 3 = some h1 ∧
      componentsOf h1 1 = some ([2] ++ [3]) ∧
      h1.components = oneTransformHeap.components ∧ h1.released = oneTransformHeap.released ∧
      countNamed h1 1 "Transform" = countNamed oneTransformHeap 1 "Transform" + 1 ∧
      2 ≤ countNamed h1 1 "Transform" :=
  addComponent_duplicate_appends oneTransformHeap 1 2 3
    "Transform" ⟨"Test", [2], none, []⟩ (by decide) (by decide) (by decide) (by decide)

theorem erase_append_singleton (L : List Nat) (c : Nat) (hnot : c ∉ L) :
    (L ++ [c]).erase c = L := by
  induction L with
  | nil => simp
  | cons a t ih =>
    have hne : a ≠ c := fun hh => hnot (hh ▸ List.mem_cons_self a t)
    have hnt : c ∉ t := fun hh => hnot (List.mem_cons_of_mem a hh)
    rw [List.cons_append, List.erase_cons_tail (by simpa using hne), ih hnt]

/-- Effect of `p->addChild(c)` followed by `p->removeChild(c)` on the entities,
for a parentless `c` that is not in the child vector of `p`. -/
theorem addChild_removeChild_lookup (h : Heap) (p c : Nat) (ep ec : Entity)
    (hp : lookup h.entities p = some ep) (hc : lookup h.entities c = some ec)
    (hpar : ec.parent = none) (hnot : c ∉ ep.children) :
    ∃ h1 h2, addChild h p c = some h1 ∧ removeChild h1 p c = some h2 ∧
      (∀ q, lookup h2.entities q = lookup h.entities q) ∧
      h2.components = h.components ∧ h2.released = h.released := by
  obtain ⟨h1, s1, c1, -, r1, l1⟩ := addChild_spec h p c ec ep hc hp
  by_cases hpc : p = c
  · subst hpc
    have hee : ep = ec := Option.some.inj (hp.symm.trans hc)
    subst hee
    have lp : lookup h1.entities p
        = some { ep with parent := some p, children := ep.children ++ [p] } := by
      rw [l1 p]; simp
    obtain ⟨h2, s2, c2, -, r2, l2⟩ := removeChild_spec h1 p p _ _ lp (by simp) lp
    refine ⟨h1, h2, s1, s2, ?_, c2.trans c1, r2.trans r1⟩
    intro q
    rw [l2 q]
    by_cases hq : q = p
    · subst hq
      rw [hp]
      simp only [if_true, erase_append_singleton _ _ hnot]
      cases ep
      simp_all
    · simp only [hq, if_false]
      rw [l1 q]
      simp [hq]
  · have lp : lookup h1.entities p = some { ep with children := ep.children ++ [c] } := by
      rw [l1 p]; simp [hpc]
    have lc : lookup h1.entities c = some { ec with parent := some p } := by
      rw [l1 c]
      have hcp : ¬ c = p := fun hh => hpc hh.symm
      simp [hcp]
    obtain ⟨h2, s2, c2, -, r2, l2⟩ := removeChild_spec h1 p c _ _ lp (by simp) lc
    refine ⟨h1, h2, s1, s2, ?_, c2.trans c1, r2.trans r1⟩
    intro q
    rw [l2 q]
    by_cases hq : q = p
    · subst hq
      rw [hp]
      simp only [if_true, hpc, if_false, erase_append_singleton _ _ hnot]
    · simp only [hq, if_false]
      by_cases hqc : q = c
      · subst hqc
        rw [hc]
        simp only [if_true]
        cases ec
        simp_all
      · simp only [hqc, if_false]
        rw [l1 q]
        simp [hq, hqc]

/-- C9, counterexample: `c` is parentless and not in the child vector of `p`,
yet it is still in the child vector of `q`, a child of `p`; after
`p->addChild(c)` and `p->removeChild(c)`, `delete p` releases `c` (address 4). -/
theorem staleChild_counterexample :
    staleChildScenario = some ⟨1, 4, some none, [2], [2],
      [Obj.entity 1, Obj.entity 2, Obj.entity 4]⟩ ∧
      ¬ (staleChildScenario.map (fun r => r.released.count (Obj.entity r.c)) = some 0) := by
  decide

/-- C9, amended: for a live entity `p` and a live parentless entity `c` that is
not in the child vector of `p`, `p->addChild(c)` followed by
`p->removeChild(c)` is defined, leaves every entity as it was (so the child
vector of `p` is the old one and `c` has no parent) and releases nothing; and
when `c` is not reached from `p` through child vectors (`c` is not `p` and not
a descendant of `p`), `delete p` afterwards neither releases nor changes `c`. -/
theorem addChild_removeChild_restores (h : Heap) (p c : Nat) (ep ec : Entity)
    (hp : lookup h.entities p = some ep) (hc : lookup h.entities c = some ec)
    (hpar : ec.parent = none) (hnot : c ∉ ep.children) :
    ∃ h1 h2, addChild h p c = some h1 ∧ removeChild h1 p c = some h2 ∧
      (∀ q, lookup h2.entities q = lookup h.entities q) ∧
      childrenOf h2 p = ep.children ∧
      (lookup h2.entities c).map Entity.parent = some none ∧
      h2.released = h.released ∧
      (¬ Reach h p c →
        (deleteEntity h2 p).released.count (Obj.entity c) = h.released.count (Obj.entity c) ∧
        lookup (deleteEntity h2 p).entities c = some ec) := by
  obtain ⟨h1, h2, s1, s2, hl, -, hr⟩ := addChild_removeChild_lookup h p c ep ec hp hc hpar hnot
  refine ⟨h1, h2, s1, s2, hl, ?_, ?_, hr, ?_⟩
  · simp [childrenOf, hl p, hp]
  · simp [hl c, hc, hpar]
  · intro hreach
    have hreach2 : ¬ Reach h2 p c :=
      fun hh => hreach (Reach.mono h h2 (childrenOf_congr h h2 hl).2 p c hh)
    obtain ⟨hcount, hlive⟩ := deleteEntity_unreached h2 p c hreach2
    exact ⟨by rw [hcount, hr], by rw [hlive, hl c, hc]⟩

/-- C9, the amended statement at the entities of `demonstrateParentChildLeak`:
after `delete parent` the child is unreleased and still live. -/
theorem addChild_removeChild_restores_witness :
    ∃ h1 h2, addChild parentChildHeap 1 2 = some h1 ∧ removeChild h1 1 2 = some h2 ∧
      (∀ q, lookup h2.entities q = lookup parentChildHeap.entities q) ∧
      childrenOf h2 1 = [] ∧
      (lookup h2.entities 2).map Entity.parent = some none ∧
      h2.released = parentChildHeap.released ∧
      (deleteEntity h2 1).released.count (Obj.entity 2) = 0 ∧
      lookup (deleteEntity h2 1).entities 2 = some ⟨"Child", [], none, []⟩ := by
  obtain ⟨h1, h2, s1, s2, hl, hch, hpa, hr, hdel⟩ :=
    addChild_removeChild_restores parentChildHeap 1 2 ⟨"Parent", [], none, []⟩
      ⟨"Child", [], none, []⟩ (by decide) (by decide) rfl (by simp)
  refine ⟨h1, h2, s1, s2, hl, hch, hpa, hr, hdel ?_⟩
  intro hreach
  cases hreach with
  | step p q r hq _ => simp [childrenOf, parentChildHeap, lookup] at hq

/-! ## Identifiers handed out by the manager -/

theorem wrapInt32_of_inRange (x : Int) (h1 : -2147483648 ≤ x) (h2 : x < 2147483648) :
    wrapInt32 x = x := by
  unfold wrapInt32; omega

theorem wrapInt32_range (x : Int) :
    -2147483648 ≤ wrapInt32 x ∧ wrapInt32 x < 2147483648 := by
  unfold wrapInt32; omega

theorem wrapInt32_add (x y : Int) : wrapInt32 (wrapInt32 x + y) = wrapInt32 (x + y) := by
  unfold wrapInt32; omega

theorem destroyEntity_nextId (w : World) (id : Int) :
    (destroyEntity w id).mgr.nextId = w.mgr.nextId := by
  unfold destroyEntity
  cases mapFind w.mgr.entities id <;> rfl

/-- The k-th `createEntity` call of a sequence returns `nextId + k` wrapped to
32 bits, whatever other calls are made in between. -/
theorem returnedIds_eq (ops : List MgrOp) :
    ∀ w : World, -2147483648 ≤ w.mgr.nextId → w.mgr.nextId < 2147483648 →
      returnedIds w ops =
        (List.range (createCount ops)).map (fun i : Nat => wrapInt32 (w.mgr.nextId + i)) := by
  induction ops with
  | nil => intro w _ _; simp [returnedIds, createCount]
  | cons op rest ih =>
    intro w h1 h2
    cases op with
    | createEntity name =>
      have hn : (createEntity w name).1.mgr.nextId = wrapInt32 (w.mgr.nextId + 1) := rfl
      have hr := wrapInt32_range (w.mgr.nextId + 1)
      have hrest := ih (createEntity w name).1 (by rw [hn]; exact hr.1) (by rw [hn]; exact hr.2)
      have hid : (createEntity w name).2 = w.mgr.nextId := rfl
      simp only [returnedIds, runOp, createCount, hrest, hid, hn, List.range_succ_eq_map,
        List.map_cons, List.map_map]
      congr 1
      · simp [wrapInt32_of_inRange _ h1 h2]
      · apply List.map_congr_left
        intro i _
        simp only [Function.comp, wrapInt32_add]
        congr 1
        push_cast
        ring
    | destroyEntity id =>
      have hn := destroyEntity_nextId w id
      have hrest := ih (destroyEntity w id) (by rw [hn]; exact h1) (by rw [hn]; exact h2)
      simp only [returnedIds, runOp, createCount, hrest, hn]
    | clearWrong =>
      have hrest := ih (clearWrong w) h1 h2
      simp only [returnedIds, runOp, createCount, hrest]
      rfl
    | clearAlsoWrong =>
      have hrest := ih (clearAlsoWrong w) h1 h2
      simp only [returnedIds, runOp, createCount, hrest]
      rfl

theorem createCount_replicate (n : Nat) (name : String) :
    createCount (List.replicate n (MgrOp.createEntity name)) = n := by
  induction n with
  | zero => rfl
  | succ k ih => simp [List.replicate_succ, createCount, ih]

/-- C10, counterexample: in a sequence of 2^32 + 1 `createEntity` calls on a
new manager the first and the last call return the same identifier, because
`nextId` is a 32-bit `int` that wraps around. -/
theorem createEntity_id_reused :
    ¬ (returnedIds World.fresh (List.replicate 4294967297 (MgrOp.createEntity "E"))).Nodup := by
  intro hnd
  rw [returnedIds_eq _ World.fresh (by decide) (by decide), createCount_replicate] at hnd
  have hinj := List.inj_on_of_nodup_map hnd
  have h0 : (0 : Nat) ∈ List.range 4294967297 := List.mem_range.mpr (by omega)
  have h1 : (4294967296 : Nat) ∈ List.range 4294967297 := List.mem_range.mpr (by omega)
  have := hinj h0 h1 (by simp [World.fresh, wrapInt32])
  omega

/-- C10, amended: in every sequence of `createEntity`, `destroyEntity`,
`clearWrong` and `clearAlsoWrong` calls on one manager that contains at most
2^32 `createEntity` calls, the identifiers returned by `createEntity` are
pairwise distinct. -/
theorem createEntity_ids_distinct (w : World) (ops : List MgrOp)
    (h1 : -2147483648 ≤ w.mgr.nextId) (h2 : w.mgr.nextId < 2147483648)
    (hcount : createCount ops ≤ 4294967296) :
    (returnedIds w ops).Nodup := by
  rw [returnedIds_eq ops w h1 h2]
  apply List.Nodup.map_on _ (List.nodup_range _)
  intro i hi j hj hij
  have hi1 := List.mem_range.mp hi
  have hj1 := List.mem_range.mp hj
  unfold wrapInt32 at hij
  omega

/-- C10, the amended statement at a concrete sequence of calls on a new manager. -/
theorem createEntity_ids_distinct_witness :
    (returnedIds World.fresh
      [MgrOp.createEntity "Entity1", MgrOp.createEntity "Entity2", MgrOp.destroyEntity 0,
        MgrOp.createEntity "Entity3", MgrOp.clearAlsoWrong, MgrOp.createEntity "Entity4",
        MgrOp.clearWrong, MgrOp.createEntity "Entity5"]).Nodup :=
  createEntity_ids_distinct World.fresh _ (by decide) (by decide) (by decide)

/-! ## The code at the inputs where it departs from the specification -/

/-- C1, the code at a failing input: after `deepClone` the Sprite of the clone
(address 5) carries the same `textureData` pointer (address 3) as the Sprite of
the original (address 2), so writing byte 0 through the clone changes byte 0
of the original from 0 to 255. -/
theorem deepClone_sprite_shares_buffer :
    cloneSpriteScenario 2 2 0 255 =
      some ⟨2, 5, some (Component.Sprite "Sprite" 3 2 2), some (Component.Sprite "Sprite" 3 2 2),
        0, 255⟩ := by
  decide

/-- C2, the code at a failing input: the original holds a Script whose member
`name` is "AI"; the component of the deep clone is named "Script", because
`Script::clone` builds `new Script()` and copies `userData` only. -/
theorem deepClone_script_name_reset :
    cloneRenamedScriptScenario = some (["AI"], ["Script"]) := by
  decide

/-- C3, the code at the input of the claim: the second call `b->addChild(a)`
is carried out.  It sets the parent of `a` (address 1) to `b` (address 2) and
puts `a` into the child vector of `b`, so each entity is a child of the other. -/
theorem addChild_builds_cycle :
    circularScenario = some ⟨1, 2,
      some ⟨"A", [], none, [2]⟩, some ⟨"B", [], some 1, []⟩,
      some ⟨"A", [], some 2, [2]⟩, some ⟨"B", [], some 1, [1]⟩⟩ := by
  decide

/-- C4, the code at a failing input: destroying a registered entity that holds
a Sprite releases the entity (address 1) and the Sprite (address 2); the pixel
buffer (address 3) is not released and stays allocated. -/
theorem destroyEntity_keeps_pixel_buffer :
    destroySpriteScenario = some (3, [Obj.entity 1, Obj.component 2], [3]) := by
  decide

/-- C5, the code at a failing input: with the second registered entity made a
child of the first, `clearAlsoWrong` executes `delete` on the second entity
(address 2) twice, once from the destructor of the first entity and once from
its own registry entry. -/
theorem clearAlsoWrong_deletes_twice :
    clearChildScenario = some (1, 2, [], [Obj.entity 1, Obj.entity 2, Obj.entity 2]) := by
  decide

/-- C6, the code at a failing input: `clearWrong` empties the registry and
executes no `delete`; both entities stay allocated. -/
theorem clearWrong_releases_nothing :
    clearWrongScenario = ([], [], [1, 2]) := by
  decide

/-! ## Lookup in the registry -/

theorem mapFind_mapAssign (m : List (Int × Nat)) (id k : Int) (p : Nat) :
    mapFind (mapAssign m id p) k = if k = id then some p else mapFind m k := by
  induction m with
  | nil =>
    by_cases hk : k = id
    · simp [mapAssign, mapFind, hk]
    · have hk2 : ¬ id = k := fun hh => hk hh.symm
      simp [mapAssign, mapFind, hk, hk2]
  | cons kv t ih =>
    obtain ⟨k0, v0⟩ := kv
    by_cases h1 : id < k0
    · by_cases hk : k = id
      · simp [mapAssign, mapFind, h1, hk]
      · have hk2 : ¬ id = k := fun hh => hk hh.symm
        simp [mapAssign, mapFind, h1, hk, hk2]
    · by_cases h2 : id = k0
      · subst h2
        by_cases hk : k = id
        · simp [mapAssign, mapFind, hk]
        · have hk2 : ¬ id = k := fun hh => hk hh.symm
          simp [mapAssign, mapFind, hk, hk2]
      · by_cases hk : k = id
        · subst hk
          have h3 : ¬ k0 = k := fun hh => h2 hh.symm
          simp [mapAssign, mapFind, h1, h2, h3, ih]
        · by_cases h4 : k0 = k
          · subst h4
            simp [mapAssign, mapFind, h1, h2, hk]
          · simp [mapAssign, mapFind, h1, h2, h4, hk, ih]

theorem mapFind_mapErase (m : List (Int × Nat)) (id k : Int) :
    mapFind (mapErase m id) k = if k = id then none else mapFind m k := by
  induction m with
  | nil => simp [mapErase, mapFind]
  | cons kv t ih =>
    obtain ⟨k0, v0⟩ := kv
    simp only [mapErase] at ih ⊢
    by_cases h1 : k0 = id <;> by_cases hk : k = id <;> by_cases h2 : k0 = k <;>
      simp_all [List.filter_cons, mapFind]

theorem getEntity_destroyEntity (w : World) (id : Int) :
    getEntity (destroyEntity w id) id = none := by
  unfold getEntity destroyEntity
  cases hf : mapFind w.mgr.entities id with
  | none => simp [hf]
  | some p => simp [mapFind_mapErase]

/-- C11, the code at a failing input: the child (id 1, address 2) was destroyed
together with its parent by `destroyEntity` with the id of the parent (the
release log holds both entities and no object is live at address 2), yet
`getEntity(1)` still returns the address 2.  Only after `destroyEntity(1)`,
which passes the released child to `delete` once more, does `getEntity(1)`
return `nullptr`. -/
theorem getEntity_returns_destroyed_child :
    destroyParentScenario =
      some ⟨1, 2, some 2, none, [Obj.entity 1, Obj.entity 2], none⟩ := by
  decide

/-- C12: `destroyEntity(id)` with an id that is not registered changes nothing:
the registry, `nextId`, every object in the heap and the release log stay as
they were. -/
theorem destroyEntity_unregistered (w : World) (id : Int) (hid : getEntity w id = none) :
    destroyEntity w id = w := by
  unfold getEntity at hid
  simp [destroyEntity, hid]

/-- C12 at a manager with one registered entity (id 0) and the unknown id 5. -/
theorem destroyEntity_unregistered_witness :
    destroyEntity (createEntity World.fresh "Entity1").1 5 = (createEntity World.fresh "Entity1").1 :=
  destroyEntity_unregistered (createEntity World.fresh "Entity1").1 5 (by decide)

/-- C13, the code at the input of the claim: after `q->addChild(c)` and
`p->addChild(c)` the entity `c` (address 3) is in the child vector of `q` and
in that of `p`; `delete p; delete q` then executes `delete` on `c` twice. -/
theorem addChild_keeps_old_owner :
    reparentScenario = some ⟨1, 2, 3, [3], [3], some (some 1),
      [Obj.entity 1, Obj.entity 3, Obj.entity 2, Obj.entity 3]⟩ := by
  decide

/-- C14, the code at the input of the claim: `e->addChild(e)` is carried out;
it makes `e` (address 1) its own parent and its own child. -/
theorem addChild_self :
    selfParentScenario = some (1, some ⟨"E", [], none, []⟩, some ⟨"E", [], some 1, [1]⟩) := by
  decide

/-- C16, the code at a failing input: after `addComponent(t)` and
`shallowClone()` the Transform (address 2) is in the component vector of the
entity and in that of the clone. -/
theorem shallowClone_shares_component :
    shallowCloneScenario = some (2, some [2], some [2]) := by
  decide

/-- C17, the code at a failing input: after the child (address 2) was destroyed
through its id, the child vector of the parent still holds its address,
although the object is released and no longer live. -/
theorem destroyEntity_leaves_child_link :
    destroyChildScenario = some ⟨1, 2, [2], [2], none, [Obj.entity 2]⟩ := by
  decide

theorem removeFirstNamed_absent (comps : List (Nat × Component)) (K : String) (L : List Nat)
    (habs : ∀ c0 ∈ L, ∃ co0, lookup comps c0 = some co0 ∧ co0.name ≠ K) :
    removeFirstNamed comps K L = some (none, L) := by
  induction L with
  | nil => rfl
  | cons a t ih =>
    obtain ⟨co0, h0, hn0⟩ := habs a (List.mem_cons_self a t)
    have iht := ih (fun c0 hc0 => habs c0 (List.mem_cons_of_mem a hc0))
    simp [removeFirstNamed, h0, hn0, iht]

/-- C15, counterexample: `removeComponent("Sprite")` on an entity that holds
only a Transform returns normally; the call does not fail. -/
theorem removeComponent_absent_returns :
    removeComponent oneTransformHeap 1 "Sprite" = some oneTransformHeap ∧
      removeComponent oneTransformHeap 1 "Sprite" ≠ none := by
  decide

/-- C15, amended: for a live entity none of whose (live) components is named
`K`, `removeComponent(K)` returns normally without reporting anything and
leaves the whole heap as it was: the component vector is unchanged and
nothing is released. -/
theorem removeComponent_absent (h : Heap) (e : Nat) (K : String) (ent : Entity)
    (he : lookup h.entities e = some ent)
    (habs : ∀ c0 ∈ ent.components, ∃ co0, lookup h.components c0 = some co0 ∧ co0.name ≠ K) :
    removeComponent h e K = some h ∧
      ∀ h1, removeComponent h e K = some h1 →
        componentsOf h1 e = some ent.components ∧ h1.released = h.released ∧
          h1.components = h.components := by
  have hrm := removeFirstNamed_absent h.components K ent.components habs
  have hres : removeComponent h e K = some h := by
    simp [removeComponent, he, hrm]
  refine ⟨hres, ?_⟩
  intro h1 h1eq
  rw [hres] at h1eq
  cases h1eq
  exact ⟨by simp [componentsOf, he], rfl, rfl⟩

/-- C15, the amended statement at an entity that holds one Transform, asked to
remove "Sprite". -/
theorem removeComponent_absent_witness :
    removeComponent oneTransformHeap 1 "Sprite" = some oneTransformHeap ∧
      ∀ h1, removeComponent oneTransformHeap 1 "Sprite" = some h1 →
        componentsOf h1 1 = some [2] ∧ h1.released = oneTransformHeap.released ∧
          h1.components = oneTransformHeap.components :=
  removeComponent_absent oneTransformHeap 1 "Sprite" ⟨"Test", [2], none, []⟩ (by decide)
    (by
      intro c0 hc0
      simp only [List.mem_singleton] at hc0
      subst hc0
      exact ⟨_, rfl, by decide⟩)

/-! ## What a delete releases -/

theorem ownedBy_mono (h r : Heap) (hsub : SubHeap h r) (p : Nat) (o : Obj)
    (ho : OwnedBy r p o) : OwnedBy h p o := by
  cases o with
  | entity x => exact Reach.mono h r hsub p x ho
  | component c =>
    obtain ⟨x, ent, hx, hl, hc⟩ := ho
    refine ⟨x, ent, Reach.mono h r hsub p x hx, ?_, hc⟩
    rcases hsub x with heq | hnone
    · rw [← heq]; exact hl
    · rw [hnone] at hl; cases hl
  | buffer b => exact ho

theorem ownedBy_of_child (h : Heap) (p c : Nat) (o : Obj) (hc : c ∈ childrenOf h p)
    (ho : OwnedBy h c o) : OwnedBy h p o := by
  cases o with
  | entity x => exact Reach.step p c x hc ho
  | component k =>
    obtain ⟨x, ent, hx, hl, hk⟩ := ho
    exact ⟨x, ent, Reach.step p c x hc hx, hl, hk⟩
  | buffer b => exact ho

theorem deleteEntityFuel_log (n : Nat) :
    ∀ (h : Heap) (p : Nat) (r : Heap), deleteEntityFuel n h p = some r →
      ∃ new, r.released = h.released ++ new ∧ ∀ o ∈ new, OwnedBy h p o := by
  induction n with
  | zero => intro h p r hr; simp [deleteEntityFuel] at hr
  | succ k ih =>
    intro h p r hr
    rw [deleteEntityFuel_succ] at hr
    cases hl : lookup h.entities p with
    | none =>
      simp only [hl, Option.some.injEq] at hr
      subst hr
      refine ⟨[Obj.entity p], rfl, ?_⟩
      intro o ho
      simp only [List.mem_singleton] at ho
      subst ho
      exact Reach.refl p
    | some ent =>
      simp only [hl] at hr
      have hfold : ∀ (cs : List Nat) (acc res : Heap),
          List.foldlM (fun acc child => deleteEntityFuel k acc child) acc cs = some res →
          SubHeap acc res ∧ ∃ new, res.released = acc.released ++ new ∧
            ∀ o ∈ new, ∃ c ∈ cs, OwnedBy acc c o := by
        intro cs
        induction cs with
        | nil =>
          intro acc res hres
          simp only [List.foldlM_nil, Option.pure_def, Option.some.injEq] at hres
          subst hres
          exact ⟨SubHeap.refl _, [], by simp, by simp⟩
        | cons c t iht =>
          intro acc res hres
          simp only [List.foldlM_cons, Option.bind_eq_bind] at hres
          cases hc : deleteEntityFuel k acc c with
          | none => simp [hc] at hres
          | some r1 =>
            rw [hc] at hres
            simp only [Option.some_bind] at hres
            obtain ⟨new1, hn1, ho1⟩ := ih acc c r1 hc
            obtain ⟨hs1, -, -⟩ := deleteEntityFuel_inv k acc c r1 hc
            obtain ⟨hs2, new2, hn2, ho2⟩ := iht r1 res hres
            refine ⟨SubHeap.trans _ _ _ hs1 hs2, new1 ++ new2, ?_, ?_⟩
            · rw [hn2, hn1, List.append_assoc]
            · intro o ho
              rcases List.mem_append.mp ho with hx1 | hx2
              · exact ⟨c, List.mem_cons_self c t, ho1 o hx1⟩
              · obtain ⟨c1, hc1, hown⟩ := ho2 o hx2
                exact ⟨c1, List.mem_cons_of_mem c hc1, ownedBy_mono acc r1 hs1 c1 o hown⟩
      cases hf : List.foldlM (fun acc child => deleteEntityFuel k acc child)
          { h with entities := remove h.entities p, released := h.released ++ [Obj.entity p] }
          ent.children with
      | none => simp [hf] at hr
      | some h2 =>
        rw [hf] at hr
        simp only [Option.some.injEq] at hr
        subst hr
        obtain ⟨-, new, hn, hown⟩ := hfold _ _ _ hf
        have hsub1 : SubHeap h
            { h with entities := remove h.entities p, released := h.released ++ [Obj.entity p] } := by
          intro q
          simp only [lookup_remove]
          by_cases hq : q = p
          · exact Or.inr (by simp [hq])
          · exact Or.inl (by simp [hq])
        have hchild : ∀ c ∈ ent.children, c ∈ childrenOf h p := by
          intro c hc
          simpa [childrenOf, hl] using hc
        refine ⟨[Obj.entity p] ++ new ++ ent.components.map Obj.component, ?_, ?_⟩
        · rw [foldl_deleteComponent_released, hn]
          simp [List.append_assoc]
        · intro o ho
          simp only [List.append_assoc, List.mem_append, List.mem_singleton, List.mem_map] at ho
          rcases ho with ho | ho | ho
          · subst ho; exact Reach.refl p
          · obtain ⟨c, hc, hco⟩ := hown o ho
            exact ownedBy_of_child h p c o (hchild c hc) (ownedBy_mono _ _ hsub1 c o hco)
          · obtain ⟨a, ha, rfl⟩ := ho
            exact ⟨p, ent, Reach.refl p, hl, ha⟩

/-- C18: `delete e` releases only `e`, entities reached from `e` through child
vectors, and components held by those entities; an entity that is not reached
through child vectors (the parent of `e`, or anything reached only through a
parent link) is released no more often than before.  In the calls of
`demonstrateCircularReference` (`a->addChild(b)`, `b->addChild(a)`,
`b->children.clear()`, `delete a`) the entities `a` and `b` are released once
each, although the parent link of `a` still points to `b`. -/
theorem deleteEntity_releases_owned (h : Heap) (e : Nat) :
    (∃ new, (deleteEntity h e).released = h.released ++ new ∧ ∀ o ∈ new, OwnedBy h e o) ∧
      (∀ x, ¬ Reach h e x →
        (deleteEntity h e).released.count (Obj.entity x) = h.released.count (Obj.entity x)) ∧
      brokenCycleScenario = some (1, 2, some (some 2), [Obj.entity 1, Obj.entity 2]) := by
  refine ⟨deleteEntityFuel_log _ h e _ (deleteEntityFuel_enough h e), ?_, by decide⟩
  intro x hx
  exact (deleteEntity_unreached h e x hx).1

/-! ## Deep clone on a cyclic child graph -/

theorem lookup_append_singleton {α : Type} (l : List (Nat × α)) (k q : Nat) (v : α) :
    lookup (l ++ [(k, v)]) q =
      match lookup l q with
      | some x => some x
      | none => if k = q then some v else none := by
  induction l with
  | nil => simp [lookup]
  | cons kv t ih =>
    obtain ⟨k0, x0⟩ := kv
    by_cases h0 : k0 = q
    · simp [lookup, h0]
    · simp [lookup, h0, ih]

theorem deepCloneFuel_succ (fuel : Nat) (h : Heap) (e : Nat) :
    deepCloneFuel (fuel + 1) h e =
      match lookup h.entities e with
      | none => none
      | some ent =>
        match ent.components.foldlM (cloneInto (newEntity h (ent.name ++ "_clone")).2)
            (newEntity h (ent.name ++ "_clone")).1 with
        | none => none
        | some h2 =>
          match ent.children.foldlM
              (fun acc child =>
                match deepCloneFuel fuel acc child with
                | none => none
                | some (h3, cc) => addChild h3 (newEntity h (ent.name ++ "_clone")).2 cc) h2 with
          | none => none
          | some h4 => some (h4, (newEntity h (ent.name ++ "_clone")).2) := rfl

theorem childMono_refl (h : Heap) : ChildMono h h := fun _ _ hy => hy

theorem childMono_trans (a b c : Heap) (hab : ChildMono a b) (hbc : ChildMono b c) :
    ChildMono a c := fun q y hy => hbc q y (hab q y hy)

theorem reach_childMono (h r : Heap) (hm : ChildMono h r) (a b : Nat) (hab : Reach h a b) :
    Reach r a b := by
  induction hab with
  | refl p => exact Reach.refl p
  | step p q x hq _ ih => exact Reach.step p q x (hm p q hq) ih

theorem reachesCycle_childMono (h r : Heap) (hm : ChildMono h r) (x : Nat)
    (hx : ReachesCycle h x) : ReachesCycle r x := by
  obtain ⟨a, b, h1, h2, h3⟩ := hx
  exact ⟨a, b, reach_childMono h r hm x a h1, hm a b h2, reach_childMono h r hm b a h3⟩

theorem reachesCycle_child (h : Heap) (x : Nat) (hx : ReachesCycle h x) :
    ∃ y ∈ childrenOf h x, ReachesCycle h y := by
  obtain ⟨a, b, h1, h2, h3⟩ := hx
  cases h1 with
  | refl => exact ⟨b, h2, _, b, h3, h2, h3⟩
  | step _ q _ hq hqa => exact ⟨q, hq, _, b, hqa, h2, h3⟩

theorem foldlM_option_rel {α β : Type} (R : β → β → Prop) (hrefl : ∀ b, R b b)
    (htrans : ∀ a b c, R a b → R b c → R a c) (f : β → α → Option β)
    (hf : ∀ b a r, f b a = some r → R b r) :
    ∀ (l : List α) (b r : β), l.foldlM f b = some r → R b r := by
  intro l
  induction l with
  | nil =>
    intro b r hr
    simp only [List.foldlM_nil, Option.pure_def, Option.some.injEq] at hr
    subst hr
    exact hrefl b
  | cons a t ih =>
    intro b r hr
    simp only [List.foldlM_cons, Option.bind_eq_bind] at hr
    cases hfa : f b a with
    | none => simp [hfa] at hr
    | some b1 =>
      rw [hfa] at hr
      exact htrans _ _ _ (hf b a b1 hfa) (ih b1 r hr)

theorem childrenOf_eq_of_lookup (h r : Heap) (q : Nat)
    (hq : (lookup r.entities q).map Entity.children = (lookup h.entities q).map Entity.children) :
    childrenOf r q = childrenOf h q := by
  unfold childrenOf
  cases h1 : lookup r.entities q <;> cases h2 : lookup h.entities q <;> simp_all

theorem newEntity_childMono (h : Heap) (name : String) : ChildMono h (newEntity h name).1 := by
  intro q y hy
  unfold childrenOf at hy ⊢
  cases hl : lookup h.entities q with
  | none => simp [hl] at hy
  | some ent =>
    simp only [newEntity, lookup_append_singleton, hl]
    simpa [hl] using hy

theorem addComponent_children (h h1 : Heap) (e comp : Nat) (hs : addComponent h e comp = some h1)
    (q : Nat) : childrenOf h1 q = childrenOf h q := by
  unfold addComponent at hs
  cases hl : lookup h.entities e with
  | none => simp [hl] at hs
  | some ent =>
    simp only [hl, Option.some.injEq] at hs
    subst hs
    apply childrenOf_eq_of_lookup
    simp only [lookup_assign]
    by_cases hq : q = e
    · subst hq; simp [hl]
    · simp [hq]

theorem cloneInto_childMono (clone : Nat) (h h1 : Heap) (comp : Nat)
    (hs : cloneInto clone h comp = some h1) : ChildMono h h1 := by
  unfold cloneInto at hs
  cases hc : cloneComponent h comp with
  | none => simp [hc] at hs
  | some pr =>
    obtain ⟨h2, copy⟩ := pr
    simp only [hc] at hs
    have hent : h2.entities = h.entities := by
      unfold cloneComponent at hc
      cases hl : lookup h.components comp with
      | none => simp [hl] at hc
      | some c =>
        simp only [hl, Option.some.injEq, Prod.mk.injEq] at hc
        rw [← hc.1]
    intro q y hy
    rw [addComponent_children h2 h1 clone copy hs q]
    simpa [childrenOf, hent] using hy

theorem addChild_live (h h1 : Heap) (e child : Nat) (hs : addChild h e child = some h1) :
    ∃ c ent, lookup h.entities child = some c ∧ lookup h.entities e = some ent := by
  unfold addChild at hs
  cases hc : lookup h.entities child with
  | none => simp [hc] at hs
  | some c =>
    cases he : lookup h.entities e with
    | none =>
      exfalso
      simp only [hc] at hs
      rw [lookup_assign] at hs
      by_cases hec : e = child
      · subst hec; rw [hc] at he; cases he
      · simp [hec, he] at hs
    | some ent => exact ⟨c, ent, rfl, rfl⟩

theorem addChild_childMono (h h1 : Heap) (e child : Nat) (hs : addChild h e child = some h1) :
    ChildMono h h1 := by
  obtain ⟨c, ent, hc, he⟩ := addChild_live h h1 e child hs
  obtain ⟨h2, s2, -, -, -, l2⟩ := addChild_spec h e child c ent hc he
  rw [hs] at s2
  cases s2
  intro q y hy
  unfold childrenOf at hy ⊢
  rw [l2 q]
  by_cases hqe : q = e
  · subst hqe
    rw [he] at hy
    by_cases hqc : q = child
    · subst hqc
      have : c = ent := Option.some.inj (hc.symm.trans he)
      subst this
      simp at hy ⊢
      exact Or.inl hy
    · simp [hqc] at hy ⊢
      exact Or.inl hy
  · by_cases hqc : q = child
    · subst hqc
      rw [hc] at hy
      simpa [hqe] using hy
    · simpa [hqe, hqc] using hy

theorem deepCloneFuel_childMono (n : Nat) :
    ∀ (h : Heap) (e : Nat) (r : Heap) (c : Nat), deepCloneFuel n h e = some (r, c) →
      ChildMono h r := by
  induction n with
  | zero => intro h e r c hr; simp [deepCloneFuel] at hr
  | succ k ih =>
    intro h e r c hr
    rw [deepCloneFuel_succ] at hr
    cases hl : lookup h.entities e with
    | none => simp [hl] at hr
    | some ent =>
      simp only [hl] at hr
      cases hf : List.foldlM (cloneInto (newEntity h (ent.name ++ "_clone")).2)
          (newEntity h (ent.name ++ "_clone")).1 ent.components with
      | none => simp [hf] at hr
      | some h2 =>
        simp only [hf] at hr
        have hm2 : ChildMono h h2 :=
          childMono_trans _ _ _ (newEntity_childMono h _)
            (foldlM_option_rel ChildMono childMono_refl childMono_trans _
              (fun b a r1 hb => cloneInto_childMono _ b r1 a hb) _ _ _ hf)
        cases hg : List.foldlM
            (fun acc child =>
              match deepCloneFuel k acc child with
              | none => none
              | some (h3, cc) => addChild h3 (newEntity h (ent.name ++ "_clone")).2 cc)
            h2 ent.children with
        | none => simp [hg] at hr
        | some h4 =>
          simp only [hg, Option.some.injEq, Prod.mk.injEq] at hr
          rw [← hr.1]
          refine childMono_trans _ _ _ hm2
            (foldlM_option_rel ChildMono childMono_refl childMono_trans _ ?_ _ _ _ hg)
          intro b a r1 hb
          cases hd : deepCloneFuel k b a with
          | none => simp [hd] at hb
          | some pr =>
            obtain ⟨h3, cc⟩ := pr
            simp only [hd] at hb
            exact childMono_trans _ _ _ (ih b a h3 cc hd) (addChild_childMono h3 r1 _ cc hb)

/-- On an entity from which child vectors lead into a cycle, the recursion of
`deepClone` never comes back, whatever bound it is given. -/
theorem deepCloneFuel_cycle (n : Nat) :
    ∀ (h : Heap) (x : Nat), ReachesCycle h x → deepCloneFuel n h x = none := by
  induction n with
  | zero => intro h x _; rfl
  | succ k ih =>
    intro h x hx
    rw [deepCloneFuel_succ]
    cases hl : lookup h.entities x with
    | none => rfl
    | some ent =>
      simp only
      cases hf : List.foldlM (cloneInto (newEntity h (ent.name ++ "_clone")).2)
          (newEntity h (ent.name ++ "_clone")).1 ent.components with
      | none => rfl
      | some h2 =>
        simp only
        have hm2 : ChildMono h h2 :=
          childMono_trans _ _ _ (newEntity_childMono h _)
            (foldlM_option_rel ChildMono childMono_refl childMono_trans _
              (fun b a r1 hb => cloneInto_childMono _ b r1 a hb) _ _ _ hf)
        obtain ⟨y, hy, hcy⟩ := reachesCycle_child h x hx
        have hy1 : y ∈ ent.children := by simpa [childrenOf, hl] using hy
        have hfold : ∀ (cs : List Nat) (acc : Heap), (∃ y ∈ cs, ReachesCycle acc y) →
            List.foldlM
              (fun acc child =>
                match deepCloneFuel k acc child with
                | none => none
                | some (h3, cc) => addChild h3 (newEntity h (ent.name ++ "_clone")).2 cc)
              acc cs = none := by
          intro cs
          induction cs with
          | nil => intro acc hex; obtain ⟨y1, hy1, -⟩ := hex; cases hy1
          | cons c t iht =>
            intro acc hex
            obtain ⟨y1, hmem, hcyc⟩ := hex
            simp only [List.foldlM_cons, Option.bind_eq_bind]
            cases hd : deepCloneFuel k acc c with
            | none => rfl
            | some pr =>
              obtain ⟨h3, cc⟩ := pr
              simp only
              cases ha : addChild h3 (newEntity h (ent.name ++ "_clone")).2 cc with
              | none => rfl
              | some acc1 =>
                simp only [Option.some_bind]
                have hm : ChildMono acc acc1 :=
                  childMono_trans _ _ _ (deepCloneFuel_childMono k acc c h3 cc hd)
                    (addChild_childMono h3 acc1 _ cc ha)
                rcases List.mem_cons.mp hmem with heq | htl
                · subst heq
                  rw [ih acc y1 hcyc] at hd
                  cases hd
                · exact iht acc1 ⟨y1, htl, reachesCycle_childMono acc acc1 hm y1 hcyc⟩
        rw [hfold ent.children h2 ⟨y, hy1, reachesCycle_childMono h h2 hm2 y hcy⟩]

/-- C19, the code at the input of the claim: `a->addChild(b); b->addChild(a)`
gives the heap `cyclicHeap`, in which every pointer refers to a live object;
`a->deepClone()` on it does not return for any recursion bound, so the call
recurses without end instead of failing with an error. -/
theorem deepClone_cycle_never_returns :
    (addChild (newEntity (newEntity Heap.empty "A").1 "B").1 1 2).bind (fun h => addChild h 2 1)
        = some cyclicHeap ∧
      ∀ fuel, deepCloneFuel fuel cyclicHeap 1 = none := by
  refine ⟨by decide, ?_⟩
  intro fuel
  apply deepCloneFuel_cycle
  have h12 : (2 : Nat) ∈ childrenOf cyclicHeap 1 := by decide
  have h21 : (1 : Nat) ∈ childrenOf cyclicHeap 2 := by decide
  exact ⟨1, 2, Reach.refl 1, h12, Reach.step 2 1 1 h21 (Reach.refl 1)⟩

/-! ## Deep clone on a finite tree -/

theorem assign_length {α : Type} (l : List (Nat × α)) (a : Nat) (v : α) :
    (assign l a v).length = l.length := by
  induction l with
  | nil => rfl
  | cons kv t ih =>
    obtain ⟨k, x⟩ := kv
    by_cases hk : k = a <;> simp [assign, hk, ih]

theorem lookup_assign_none {α : Type} (l : List (Nat × α)) (a q : Nat) (v : α)
    (hq : lookup l q = none) : lookup (assign l a v) q = none := by
  rw [lookup_assign]
  by_cases hqa : q = a
  · subst hqa; simp [hq]
  · simp [hqa, hq]

theorem Fresh.lt_of_entity (h : Heap) (hf : Fresh h) (q : Nat) (x : Entity)
    (hq : lookup h.entities q = some x) : q < h.next := by
  by_contra hge
  have := (hf q (by omega)).1
  rw [hq] at this
  cases this

theorem Fresh.lt_of_component (h : Heap) (hf : Fresh h) (q : Nat) (x : Component)
    (hq : lookup h.components q = some x) : q < h.next := by
  by_contra hge
  have := (hf q (by omega)).2
  rw [hq] at this
  cases this

theorem newEntity_cloneInv (h : Heap) (hf : Fresh h) (name : String) :
    CloneInv h h.next (newEntity h name).1 ∧ (newEntity h name).2 = h.next ∧
      (newEntity h name).1.entities.length = h.entities.length + 1 := by
  refine ⟨⟨?_, ?_, le_refl _, ?_, ?_⟩, rfl, ?_⟩
  · intro a ha
    simp only [newEntity] at ha ⊢
    have := hf a (by omega)
    refine ⟨?_, this.2⟩
    rw [lookup_append_singleton, this.1]
    have hne : ¬ h.next = a := by omega
    simp [hne]
  · simp [newEntity]
  · intro q hq
    refine ⟨?_, rfl⟩
    simp only [newEntity]
    rw [lookup_append_singleton]
    cases hl : lookup h.entities q with
    | some x => rfl
    | none =>
      have hne : ¬ h.next = q := by omega
      simp [hne]
  · refine ⟨⟨name, [], none, []⟩, ?_⟩
    simp only [newEntity]
    rw [lookup_append_singleton, (hf h.next (le_refl _)).1]
    simp
  · simp [newEntity]

theorem cloneInto_cloneInv (h : Heap) (clone : Nat) (acc : Heap) (comp : Nat) (co : Component)
    (hf : Fresh h) (hinv : CloneInv h clone acc) (hco : lookup h.components comp = some co) :
    ∃ r, cloneInto clone acc comp = some r ∧ CloneInv h clone r ∧
      r.entities.length = acc.entities.length := by
  obtain ⟨hfa, hlt, hle, hag, ce, hce⟩ := hinv
  have hcomp : lookup acc.components comp = some co := by
    rw [(hag comp (Fresh.lt_of_component h hf comp co hco)).2]; exact hco
  refine ⟨{ acc with
      entities := assign acc.entities clone { ce with components := ce.components ++ [acc.next] },
      components := acc.components ++ [(acc.next, co.cloneValue)],
      next := acc.next + 1 }, ?_, ⟨?_, ?_, hle, ?_, ?_⟩, ?_⟩
  · simp [cloneInto, cloneComponent, hcomp, addComponent, hce]
  · intro a ha
    simp only at ha ⊢
    have := hfa a (by omega)
    refine ⟨lookup_assign_none _ _ _ _ this.1, ?_⟩
    rw [lookup_append_singleton, this.2]
    have hne : ¬ acc.next = a := by omega
    simp [hne]
  · simp only; omega
  · intro q hq
    simp only
    have hqc : q ≠ clone := by omega
    refine ⟨by rw [lookup_assign_other _ _ _ _ hqc]; exact (hag q hq).1, ?_⟩
    rw [lookup_append_singleton, ← (hag q hq).2]
    cases hl : lookup acc.components q with
    | some x => rfl
    | none =>
      have hne : ¬ acc.next = q := by omega
      simp [hne]
  · exact ⟨_, lookup_assign_self _ _ _ _ hce⟩
  · simp [assign_length]

theorem foldlM_cloneInto_cloneInv (h : Heap) (clone : Nat) (hf : Fresh h) :
    ∀ (comps : List Nat) (acc : Heap), CloneInv h clone acc →
      (∀ c ∈ comps, ∃ co, lookup h.components c = some co) →
      ∃ r, List.foldlM (cloneInto clone) acc comps = some r ∧ CloneInv h clone r ∧
        r.entities.length = acc.entities.length := by
  intro comps
  induction comps with
  | nil => intro acc hinv _; exact ⟨acc, by simp, hinv, rfl⟩
  | cons c t ih =>
    intro acc hinv hall
    obtain ⟨co, hco⟩ := hall c (List.mem_cons_self c t)
    obtain ⟨r1, hr1, hinv1, hlen1⟩ := cloneInto_cloneInv h clone acc c co hf hinv hco
    obtain ⟨r2, hr2, hinv2, hlen2⟩ := ih r1 hinv1 (fun c1 hc1 => hall c1 (List.mem_cons_of_mem c hc1))
    exact ⟨r2, by simp [List.foldlM_cons, hr1, hr2], hinv2, by omega⟩

theorem addChild_shape (h : Heap) (e child : Nat) (c ent : Entity)
    (hc : lookup h.entities child = some c) (he : lookup h.entities e = some ent) :
    ∃ ents, addChild h e child = some { h with entities := ents } ∧
      ents.length = h.entities.length := by
  have l1 : lookup (assign h.entities child { c with parent := some e }) e
      = some (if e = child then { c with parent := some e } else ent) := by
    rw [lookup_assign]
    by_cases hec : e = child
    · subst hec; simp [hc]
    · simp [hec, he]
  refine ⟨assign (assign h.entities child { c with parent := some e }) e
      ({ (if e = child then { c with parent := some e } else ent) with
        children := (if e = child then { c with parent := some e } else ent).children ++ [child] }),
    by simp only [addChild, hc, l1], by simp [assign_length]⟩

theorem addChild_cloneInv (h : Heap) (clone : Nat) (acc h3 : Heap)
    (hinv : CloneInv h clone acc) (hchild : CloneInv acc acc.next h3) :
    ∃ r, addChild h3 clone acc.next = some r ∧ CloneInv h clone r ∧
      r.entities.length = h3.entities.length := by
  obtain ⟨-, hlt, hle, hag, ce, hce⟩ := hinv
  obtain ⟨hf3, hlt3, -, hag3, cc, hcc⟩ := hchild
  have hclone3 : lookup h3.entities clone = some ce := by
    rw [(hag3 clone hlt).1]; exact hce
  obtain ⟨ents, hs, hlen⟩ := addChild_shape h3 clone acc.next cc ce hcc hclone3
  obtain ⟨r1, hs1, -, -, -, hl⟩ := addChild_spec h3 clone acc.next cc ce hcc hclone3
  rw [hs] at hs1
  cases hs1
  refine ⟨_, hs, ⟨?_, ?_, hle, ?_, ?_⟩, hlen⟩
  · intro a ha
    simp only at ha ⊢
    have hn := hf3 a ha
    refine ⟨?_, hn.2⟩
    have hl1 := hl a
    simp only at hl1
    rw [hl1]
    have h1 : ¬ a = clone := by omega
    have h2 : ¬ a = acc.next := by omega
    simp [h1, h2, hn.1]
  · simp only; omega
  · intro q hq
    have hq2 : q < acc.next := by omega
    have hl1 := hl q
    simp only at hl1 ⊢
    have h1 : ¬ q = clone := by omega
    have h2 : ¬ q = acc.next := by omega
    refine ⟨?_, ?_⟩
    · rw [hl1]
      simp only [h1, h2, if_false]
      rw [(hag3 q hq2).1, (hag q hq).1]
    · rw [(hag3 q hq2).2, (hag q hq).2]
  · have hl1 := hl clone
    simp only at hl1 ⊢
    rw [hl1]
    simp

theorem treeNodes_succ (n : Nat) (h : Heap) (e : Nat) :
    treeNodes (n + 1) h e =
      match lookup h.entities e with
      | none => none
      | some ent =>
        if ent.components.all (fun c => (lookup h.components c).isSome) then
          match collect (fun c => treeNodes n h c) ent.children with
          | none => none
          | some r => some (e :: r)
        else none := rfl

theorem collect_congr (f g : Nat → Option (List Nat))
    (hfg : ∀ c l, f c = some l → g c = some l) :
    ∀ (cs : List Nat) (r : List Nat), collect f cs = some r → collect g cs = some r := by
  intro cs
  induction cs with
  | nil => intro r hr; simpa [collect] using hr
  | cons c t ih =>
    intro r hr
    simp only [collect] at hr ⊢
    cases hfc : f c with
    | none => simp [hfc] at hr
    | some l =>
      simp only [hfc] at hr
      cases hft : collect f t with
      | none => simp [hft] at hr
      | some rt =>
        simp only [hft] at hr
        simp only [hfg c l hfc, ih rt hft]
        exact hr

theorem treeNodes_agree (n : Nat) :
    ∀ (h acc : Heap) (e : Nat) (l : List Nat), Fresh h → Agree h.next h acc →
      treeNodes n h e = some l → treeNodes n acc e = some l := by
  induction n with
  | zero => intro h acc e l _ _ ht; simp [treeNodes] at ht
  | succ k ih =>
    intro h acc e l hf hag ht
    rw [treeNodes_succ] at ht ⊢
    cases hl : lookup h.entities e with
    | none => simp [hl] at ht
    | some ent =>
      have hacc : lookup acc.entities e = some ent := by
        rw [(hag e (Fresh.lt_of_entity h hf e ent hl)).1]; exact hl
      simp only [hl] at ht
      simp only [hacc]
      by_cases hall : ent.components.all (fun c => (lookup h.components c).isSome) = true
      · have hall2 : ent.components.all (fun c => (lookup acc.components c).isSome) = true := by
          rw [List.all_eq_true] at hall ⊢
          intro c hc
          have h1 := hall c hc
          cases hlc : lookup h.components c with
          | none => simp [hlc] at h1
          | some co =>
            rw [(hag c (Fresh.lt_of_component h hf c co hlc)).2, hlc]
            rfl
        simp only [hall, if_true] at ht
        simp only [hall2, if_true]
        cases hc : collect (fun c => treeNodes k h c) ent.children with
        | none => simp [hc] at ht
        | some r =>
          simp only [hc] at ht
          rw [collect_congr _ (fun c => treeNodes k acc c)
            (fun c l1 hcl => ih h acc c l1 hf hag hcl) _ _ hc]
          exact ht
      · simp [hall] at ht

theorem deepCloneFuel_tree (n : Nat) :
    ∀ (h : Heap) (e : Nat) (l : List Nat), Fresh h → treeNodes n h e = some l →
      ∃ r, deepCloneFuel n h e = some (r, h.next) ∧ CloneInv h h.next r ∧
        r.entities.length = h.entities.length + l.length := by
  induction n with
  | zero => intro h e l _ ht; simp [treeNodes] at ht
  | succ k ih =>
    intro h e l hf ht
    rw [treeNodes_succ] at ht
    cases hl : lookup h.entities e with
    | none => simp [hl] at ht
    | some ent =>
      simp only [hl] at ht
      by_cases hall : ent.components.all (fun c => (lookup h.components c).isSome) = true
      · simp only [hall, if_true] at ht
        cases hc : collect (fun c => treeNodes k h c) ent.children with
        | none => simp [hc] at ht
        | some r0 =>
          simp only [hc, Option.some.injEq] at ht
          subst ht
          obtain ⟨hinv1, -, hlen1⟩ := newEntity_cloneInv h hf (ent.name ++ "_clone")
          have hlive : ∀ c ∈ ent.components, ∃ co, lookup h.components c = some co := by
            intro c hcm
            have h1 := (List.all_eq_true.mp hall) c hcm
            cases hlc : lookup h.components c with
            | none => simp [hlc] at h1
            | some co => exact ⟨co, rfl⟩
          obtain ⟨h2, hfold2, hinv2, hlen2⟩ :=
            foldlM_cloneInto_cloneInv h h.next hf ent.components _ hinv1 hlive
          have hfold : ∀ (cs : List Nat) (acc : Heap) (rs : List Nat), CloneInv h h.next acc →
              collect (fun c => treeNodes k h c) cs = some rs →
              ∃ res, List.foldlM
                  (fun acc child =>
                    match deepCloneFuel k acc child with
                    | none => none
                    | some (h3, cc) => addChild h3 h.next cc) acc cs = some res ∧
                CloneInv h h.next res ∧
                res.entities.length = acc.entities.length + rs.length := by
            intro cs
            induction cs with
            | nil =>
              intro acc rs hinv hcol
              simp only [collect, Option.some.injEq] at hcol
              subst hcol
              exact ⟨acc, by simp, hinv, by simp⟩
            | cons c t iht =>
              intro acc rs hinv hcol
              simp only [collect] at hcol
              cases hfc : treeNodes k h c with
              | none => simp [hfc] at hcol
              | some lc =>
                simp only [hfc] at hcol
                cases hft : collect (fun c => treeNodes k h c) t with
                | none => simp [hft] at hcol
                | some rt =>
                  simp only [hft, Option.some.injEq] at hcol
                  subst hcol
                  have hacc := treeNodes_agree k h acc c lc hf hinv.2.2.2.1 hfc
                  obtain ⟨h3, hd, hinv3, hlen3⟩ := ih acc c lc hinv.1 hacc
                  obtain ⟨acc1, ha, hinvA, hlenA⟩ := addChild_cloneInv h h.next acc h3 hinv hinv3
                  obtain ⟨res, hres, hinvR, hlenR⟩ := iht acc1 rt hinvA hft
                  refine ⟨res, ?_, hinvR, ?_⟩
                  · simp only [List.foldlM_cons, Option.bind_eq_bind, hd, ha, Option.some_bind]
                    exact hres
                  · rw [hlenR, hlenA, hlen3, List.length_append]; omega
          obtain ⟨h4, hfold4, hinv4, hlen4⟩ := hfold ent.children h2 r0 hinv2 hc
          refine ⟨h4, ?_, hinv4, ?_⟩
          · rw [deepCloneFuel_succ]
            simp only [hl]
            have e2 : (newEntity h (ent.name ++ "_clone")).2 = h.next := rfl
            simp only [e2, hfold2, hfold4]
          · rw [hlen4, hlen2, hlen1, List.length_cons]; omega
      · simp [hall] at ht

theorem deepCloneFuel_mono (n : Nat) :
    ∀ (m : Nat) (h : Heap) (e : Nat) (r : Heap × Nat), n ≤ m →
      deepCloneFuel n h e = some r → deepCloneFuel m h e = some r := by
  induction n with
  | zero => intro m h e r _ hr; simp [deepCloneFuel] at hr
  | succ k ih =>
    intro m h e r hm hr
    obtain ⟨m1, rfl⟩ : ∃ m1, m = m1 + 1 := ⟨m - 1, by omega⟩
    have hk : k ≤ m1 := by omega
    rw [deepCloneFuel_succ] at hr ⊢
    cases hl : lookup h.entities e with
    | none => simp [hl] at hr
    | some ent =>
      simp only [hl] at hr ⊢
      cases hf : List.foldlM (cloneInto (newEntity h (ent.name ++ "_clone")).2)
          (newEntity h (ent.name ++ "_clone")).1 ent.components with
      | none => simp [hf] at hr
      | some h2 =>
        simp only [hf] at hr ⊢
        cases hg : List.foldlM
            (fun acc child =>
              match deepCloneFuel k acc child with
              | none => none
              | some (h3, cc) => addChild h3 (newEntity h (ent.name ++ "_clone")).2 cc)
            h2 ent.children with
        | none => simp [hg] at hr
        | some h4 =>
          simp only [hg] at hr
          have hg2 := foldlM_option_mono _
            (fun acc child =>
              match deepCloneFuel m1 acc child with
              | none => none
              | some (h3, cc) => addChild h3 (newEntity h (ent.name ++ "_clone")).2 cc)
            (fun b a r1 hb => by
              cases hd : deepCloneFuel k b a with
              | none => simp [hd] at hb
              | some pr =>
                simp only [hd] at hb
                simp only [ih m1 b a pr hk hd]
                exact hb) _ _ _ hg
          simp only [hg2]
          exact hr

/-- C20: in a heap that respects the allocator invariant, for every entity
whose child graph is a finite tree with the entities `l` (all entity and
component pointers in it live), `deepClone` terminates: some recursion bound
lets it return, and every bound that lets it return gives the same result.
The call creates exactly as many entities as the tree has: the heap holds
`l.length` more entities afterwards, and the entities and components that
existed before are left as they were. -/
theorem deepClone_tree_terminates (h : Heap) (e : Nat) (l : List Nat) (hf : Fresh h)
    (ht : IsFiniteTree h e l) :
    ∃ fuel r c, deepCloneFuel fuel h e = some (r, c) ∧
      (∀ fuel2 r2, deepCloneFuel fuel2 h e = some r2 → r2 = (r, c)) ∧
      r.entities.length = h.entities.length + l.length ∧ Agree h.next h r := by
  obtain ⟨n, hn, -⟩ := ht
  obtain ⟨r, hr, hinv, hlen⟩ := deepCloneFuel_tree n h e l hf hn
  refine ⟨n, r, h.next, hr, ?_, hlen, hinv.2.2.2.1⟩
  intro fuel2 r2 h2
  have h1 := deepCloneFuel_mono n (max n fuel2) h e _ (le_max_left _ _) hr
  have h3 := deepCloneFuel_mono fuel2 (max n fuel2) h e _ (le_max_right _ _) h2
  rw [h1] at h3
  exact (Option.some.inj h3).symm

/-- C20 at a tree of three entities: the root holds a Transform and has two
childless children. -/
theorem deepClone_tree_terminates_witness :
    ∃ fuel r c, deepCloneFuel fuel smallTreeHeap 1 = some (r, c) ∧
      (∀ fuel2 r2, deepCloneFuel fuel2 smallTreeHeap 1 = some r2 → r2 = (r, c)) ∧
      r.entities.length = smallTreeHeap.entities.length + [1, 2, 3].length ∧
      Agree smallTreeHeap.next smallTreeHeap r :=
  deepClone_tree_terminates smallTreeHeap 1 [1, 2, 3]
    (by
      intro a ha
      have ha5 : 5 ≤ a := ha
      have h1 : ¬ 1 = a := by omega
      have h2 : ¬ 2 = a := by omega
      have h3 : ¬ 3 = a := by omega
      have h4 : ¬ 4 = a := by omega
      simp [smallTreeHeap, lookup, h1, h2, h3, h4])
    ⟨2, by decide, by decide⟩

/-! ## DynamicArray, Texture and Sprite sizes -/

/-- C21, the code at failing inputs: with size 3 and capacity 5, `arr[4]` is
not refused: the read returns the unwritten cell and `arr[4] = 999` stores
into the array, while `arr[10]` and `arr[-1]` address memory outside the
array and `arr[10] = 999` writes there.  No call raises an error. -/
theorem index_unchecked :
    outOfBoundsScenario =
      some ⟨3, 5, some 0, none, none, [1, 2, 3, 0, 999], [(10, 999)]⟩ := by
  decide

/-- C23, the code at the input of the claim: `shallowClone` copied the (empty)
pointer vector before the Transform (address 3) was added, so only the entity
holds it; the clone holds nothing, and the two deletes release the Transform
once. -/
theorem shallowClone_then_add_not_shared :
    doubleFreeScenario =
      some ⟨3, some [3], some [], [Obj.entity 1, Obj.component 3, Obj.entity 2]⟩ := by
  decide

/-- C26, the code at a failing input: on `DynamicArray arr(0)` the first `push`
doubles the capacity 0 to 0, allocates an array of length 0 and writes the
value at index 0 outside it; afterwards size is 1 and capacity is 0. -/
theorem push_zero_capacity :
    zeroCapacityScenario = some (1, 0, 0, [(0, 1)]) := by
  decide

/-- C22, counterexample: for `Sprite(32768, 32768)` the size `w * h * 4` is
2^32, which wraps to 0 in `int`: the constructor allocates an array of 0
bytes, not of 4294967296. -/
theorem sprite_size_overflow :
    spriteBufferLength Heap.empty 32768 32768 = some 0 ∧
      ((32768 : Int) * 32768 * 4).toNat = 4294967296 := by
  decide

/-- C22, amended: for non-negative `w` and `h` whose product times 4 fits a
32-bit `int`, the constructor `Sprite(w, h)` allocates a pixel array of
exactly `w * h * 4` bytes (in a heap where the next addresses are unused). -/
theorem sprite_size (h : Heap) (w ht : Int) (hw : 0 ≤ w) (hh : 0 ≤ ht)
    (hfit : w * ht * 4 ≤ 2147483647)
    (hc : lookup h.components h.next = none) (hb : lookup h.buffers (h.next + 1) = none) :
    spriteBufferLength h w ht = some (w * ht * 4).toNat := by
  have hprod : 0 ≤ w * ht := mul_nonneg hw hh
  have h1 : wrapInt32 (w * ht) = w * ht := wrapInt32_of_inRange _ (by omega) (by omega)
  have h2 : wrapInt32 (w * ht * 4) = w * ht * 4 := wrapInt32_of_inRange _ (by omega) (by omega)
  have hn : ¬ (w * ht * 4 < 0) := by omega
  simp only [spriteBufferLength, newSprite, h1, h2, hn, if_false]
  rw [lookup_append_singleton, hc]
  simp only [if_true]
  rw [lookup_append_singleton, hb]
  simp

/-- C22, the amended statement at `Sprite(256, 256)` in a new heap: 262144 bytes. -/
theorem sprite_size_witness :
    spriteBufferLength Heap.empty 256 256 = some ((256 : Int) * 256 * 4).toNat ∧
      ((256 : Int) * 256 * 4).toNat = 262144 :=
  ⟨sprite_size Heap.empty 256 256 (by decide) (by decide) (by decide) (by decide) (by decide),
    by decide⟩

theorem texture_run_refCount (ops : List TexOp) :
    ∀ t : Texture, -2147483648 ≤ t.refCount → t.refCount < 2147483648 →
      (t.run ops).refCount =
        wrapInt32 (t.refCount + (addRefCount ops : Int) - (releaseCount ops : Int)) := by
  induction ops with
  | nil =>
    intro t h1 h2
    simp [Texture.run, addRefCount, releaseCount, wrapInt32_of_inRange _ h1 h2]
  | cons op rest ih =>
    intro t h1 h2
    cases op with
    | addRef =>
      have hr := wrapInt32_range (t.refCount + 1)
      have e1 : (t.run (TexOp.addRef :: rest)).refCount =
          wrapInt32 (wrapInt32 (t.refCount + 1) + (addRefCount rest : Int) - (releaseCount rest : Int)) :=
        ih t.addRef hr.1 hr.2
      have ha : (addRefCount (TexOp.addRef :: rest) : Int) = (addRefCount rest : Int) + 1 := by
        simp [addRefCount]
      have hl : releaseCount (TexOp.addRef :: rest) = releaseCount rest := by
        simp [releaseCount]
      rw [e1, ha, hl]
      generalize (addRefCount rest : Int) = A
      generalize (releaseCount rest : Int) = R
      unfold wrapInt32
      omega
    | release =>
      have hr := wrapInt32_range (t.refCount - 1)
      have hrc : t.release.refCount = wrapInt32 (t.refCount - 1) := by
        unfold Texture.release
        split <;> rfl
      have e1 : (t.run (TexOp.release :: rest)).refCount =
          wrapInt32 (t.release.refCount + (addRefCount rest : Int) - (releaseCount rest : Int)) :=
        ih t.release (by rw [hrc]; exact hr.1) (by rw [hrc]; exact hr.2)
      have ha : addRefCount (TexOp.release :: rest) = addRefCount rest := by
        simp [addRefCount]
      have hl : (releaseCount (TexOp.release :: rest) : Int) = (releaseCount rest : Int) + 1 := by
        simp [releaseCount]
      rw [e1, hrc, ha, hl]
      generalize (addRefCount rest : Int) = A
      generalize (releaseCount rest : Int) = R
      unfold wrapInt32
      omega

/-- C24, counterexample: after 2^31 - 1 `addRef` calls on a new Texture the
claimed count 1 + 2147483647 = 2^31 is not a value of the `int` member;
`refCount` has wrapped to -2^31. -/
theorem refCount_overflow :
    (Texture.new 64 64).map
        (fun t => (t.run (List.replicate 2147483647 TexOp.addRef)).refCount)
      = some (-2147483648) ∧
      ((1 : Int) + (addRefCount (List.replicate 2147483647 TexOp.addRef) : Int)
        - (releaseCount (List.replicate 2147483647 TexOp.addRef) : Int)) = 2147483648 := by
  have hnew : Texture.new 64 64 = some ⟨64, 64, 16384, 1, 0⟩ := by decide
  have ha : addRefCount (List.replicate 2147483647 TexOp.addRef) = 2147483647 :=
    List.count_replicate_self _ _
  have hr : releaseCount (List.replicate 2147483647 TexOp.addRef) = 0 :=
    List.count_eq_zero.mpr (fun hmem => by
      have := List.eq_of_mem_replicate hmem
      cases this)
  constructor
  · rw [hnew]
    simp only [Option.map_some']
    rw [texture_run_refCount _ _ (by decide) (by decide), ha, hr]
    decide
  · rw [ha, hr]
    decide

/-- C24, amended: for a freshly constructed Texture and every sequence of
`addRef` and `release` calls during which 1 + (number of `addRef` calls) -
(number of `release` calls) stays within the range of a 32-bit `int`,
`refCount` equals that number at the end; a `release` call executes
`delete this` exactly when it brings `refCount` to 0; and a `release` made
when `refCount` is already 0 brings it to -1 and deletes nothing. -/
theorem refCount_counts (w h : Int) (t : Texture) (hnew : Texture.new w h = some t)
    (ops : List TexOp)
    (hrange : ∀ k, k ≤ ops.length →
      -2147483648 ≤ (1 : Int) + (addRefCount (ops.take k) : Int) - (releaseCount (ops.take k) : Int) ∧
      (1 : Int) + (addRefCount (ops.take k) : Int) - (releaseCount (ops.take k) : Int) < 2147483648) :
    (t.run ops).refCount = 1 + (addRefCount ops : Int) - (releaseCount ops : Int) ∧
      (∀ s : Texture, s.release.deleted = s.deleted + 1 ↔ s.release.refCount = 0) ∧
      (∀ s : Texture, s.release.deleted = s.deleted ∨ s.release.deleted = s.deleted + 1) ∧
      (∀ s : Texture, s.refCount = 0 → s.release.refCount = -1 ∧ s.release.deleted = s.deleted) := by
  have ht : t.refCount = 1 := by
    unfold Texture.new at hnew
    split at hnew
    · cases hnew
    · cases hnew; rfl
  refine ⟨?_, ?_, ?_, ?_⟩
  · rw [texture_run_refCount ops t (by rw [ht]; decide) (by rw [ht]; decide), ht]
    have := hrange ops.length (le_refl _)
    rw [List.take_length] at this
    exact wrapInt32_of_inRange _ this.1 this.2
  · intro s
    unfold Texture.release
    split <;> simp_all
  · intro s
    unfold Texture.release
    split <;> simp
  · intro s hs
    have hw : wrapInt32 (s.refCount - 1) = -1 := by rw [hs]; decide
    unfold Texture.release
    simp [hw]

/-- C24, the amended statement at the calls of `demonstrateRefCountBug`:
`addRef`, `release`, `release`, `release` on a new `Texture(64, 64)`. -/
theorem refCount_counts_witness :
    (Texture.run ⟨64, 64, 16384, 1, 0⟩
        [TexOp.addRef, TexOp.release, TexOp.release, TexOp.release]).refCount
      = 1 + (addRefCount [TexOp.addRef, TexOp.release, TexOp.release, TexOp.release] : Int)
        - (releaseCount [TexOp.addRef, TexOp.release, TexOp.release, TexOp.release] : Int) ∧
      (∀ s : Texture, s.release.deleted = s.deleted + 1 ↔ s.release.refCount = 0) ∧
      (∀ s : Texture, s.release.deleted = s.deleted ∨ s.release.deleted = s.deleted + 1) ∧
      (∀ s : Texture, s.refCount = 0 → s.release.refCount = -1 ∧ s.release.deleted = s.deleted) :=
  refCount_counts 64 64 ⟨64, 64, 16384, 1, 0⟩ (by decide)
    [TexOp.addRef, TexOp.release, TexOp.release, TexOp.release]
    (by
      intro k hk
      have hk4 : k ≤ 4 := hk
      interval_cases k <;> decide)

theorem writeAt_inBounds (a : DynamicArray) (i : Nat) (v : Int) (hi : i < a.data.length) :
    a.writeAt (Int.ofNat i) v = { a with data := a.data.set i v } := by
  have h0 : (0 : Int) ≤ Int.ofNat i := Int.ofNat_nonneg i
  simp [DynamicArray.writeAt, hi]

theorem copy_loop (old : List Int) (k : Nat) :
    ∀ fresh : DynamicArray, k ≤ fresh.data.length →
      ∃ d, (List.range k).foldl
          (fun acc (i : Nat) => acc.writeAt (Int.ofNat i) (old.getD i 0)) fresh
          = { fresh with data := d } ∧
        d.length = fresh.data.length ∧
        ∀ j, d[j]? = if j < k then some (old.getD j 0) else fresh.data[j]? := by
  induction k with
  | zero =>
    intro fresh _
    exact ⟨fresh.data, rfl, rfl, fun j => by simp⟩
  | succ k ih =>
    intro fresh hk
    obtain ⟨d, hd, hlen, hget⟩ := ih fresh (by omega)
    refine ⟨d.set k (old.getD k 0), ?_, by simp [hlen], ?_⟩
    · rw [List.range_succ, List.foldl_append, hd]
      simp only [List.foldl_cons, List.foldl_nil]
      rw [writeAt_inBounds _ k _ (by simp only; omega)]
    · intro j
      rw [List.getElem?_set]
      by_cases hkj : k = j
      · subst hkj
        have : k < d.length := by omega
        simp [this]
      · simp only [hkj, if_false]
        rw [hget j]
        by_cases hj : j < k
        · have : j < k + 1 := by omega
          simp [hj, this]
        · have : ¬ j < k + 1 := by omega
          simp [hj, this]

theorem writeAt_cast (a : DynamicArray) (i : Nat) (v : Int) (hi : i < a.data.length) :
    a.writeAt (i : Int) v = { a with data := a.data.set i v } :=
  writeAt_inBounds a i v hi

theorem getElem?_append_singleton (vs : List Int) (v : Int) (d : List Int) (hlen : vs.length < d.length)
    (hel : ∀ j, j < vs.length → d[j]? = vs[j]?) :
    ∀ j, j < (vs ++ [v]).length → (d.set vs.length v)[j]? = (vs ++ [v])[j]? := by
  intro j hj
  rw [List.length_append, List.length_singleton] at hj
  rw [List.getElem?_set]
  by_cases hjn : vs.length = j
  · subst hjn
    simp [hlen]
  · have hlt : j < vs.length := by omega
    simp only [hjn, if_false]
    rw [hel j hlt, List.getElem?_append_left hlt]

theorem push_step (c : Int) (vs : List Int) (a : DynamicArray) (v : Int)
    (hinv : PushInv c vs a) (hn : vs.length < 1073741824) :
    ∃ a1, a.push v = some a1 ∧ PushInv c (vs ++ [v]) a1 := by
  obtain ⟨hs, hst, hcap, h1, hmax, hle, hel, hcc⟩ := hinv
  have hwrap : wrapInt32 ((vs.length : Int) + 1) = (vs.length : Int) + 1 :=
    wrapInt32_of_inRange _ (by omega) (by omega)
  by_cases hlt : vs.length < a.data.length
  · have hcond : ¬ (a.size ≥ a.capacity) := by rw [hs, hcap]; omega
    refine ⟨{ a with data := a.data.set vs.length v, size := (vs.length : Int) + 1 }, ?_, ?_⟩
    · unfold DynamicArray.push
      simp only [hcond, if_false]
      rw [hs, hwrap, writeAt_cast a vs.length v hlt]
    · refine ⟨by simp, hst, by simpa using hcap, by simpa using h1, by simpa using hmax,
        by simp; omega, ?_, ?_⟩
      · exact getElem?_append_singleton vs v a.data hlt hel
      · intro hc
        simp only [List.length_append, List.length_singleton] at hc
        exact hcc (by push_cast at hc; omega)
  · have hneq : vs.length = a.data.length := by omega
    have hcond : a.size ≥ a.capacity := by rw [hs, hcap]; omega
    have hcap2 : wrapInt32 (a.capacity * 2) = ((2 * a.data.length : Nat) : Int) := by
      rw [hcap]
      rw [wrapInt32_of_inRange _ (by omega) (by omega)]
      push_cast
      ring
    have hsz : a.size.toNat = vs.length := by rw [hs]; simp
    obtain ⟨d, hd, hdlen, hdget⟩ := copy_loop a.data vs.length
      ⟨List.replicate (2 * a.data.length) 0, a.size, ((2 * a.data.length : Nat) : Int), a.stray⟩
      (by simp; omega)
    simp only [List.length_replicate] at hdlen
    have hres : a.resize = some ⟨d, a.size, ((2 * a.data.length : Nat) : Int), a.stray⟩ := by
      unfold DynamicArray.resize
      simp only [hcap2, hsz]
      have hnn : ¬ (((2 * a.data.length : Nat) : Int) < 0) := by omega
      simp only [hnn, if_false, Int.toNat_ofNat]
      rw [hd]
    have hdn : vs.length < d.length := by omega
    refine ⟨⟨d.set vs.length v, (vs.length : Int) + 1, ((2 * a.data.length : Nat) : Int), a.stray⟩,
      ?_, ?_⟩
    · unfold DynamicArray.push
      simp only [hcond, if_true, hres]
      rw [hs, hwrap]
      rw [writeAt_cast _ vs.length v (by simpa using hdn)]
    · refine ⟨by simp, hst, by simp [hdlen], by simp; omega, by simp; omega,
        by simp; omega, ?_, ?_⟩
      · apply getElem?_append_singleton vs v d hdn
        intro j hj
        rw [hdget j]
        simp only [hj, if_true]
        have := hel j hj
        rw [List.getD_eq_getElem?_getD, this]
        rw [List.getElem?_eq_getElem hj]
        rfl
      · intro hc
        simp only [List.length_append, List.length_singleton] at hc
        exfalso
        have := hcc (by push_cast at hc; omega)
        rw [hcap] at this
        push_cast at hc
        omega

theorem new_pushInv (c : Int) (hc1 : 1 ≤ c) (hc2 : c ≤ 2147483647) :
    ∃ a0, DynamicArray.new c = some a0 ∧ PushInv c [] a0 := by
  have hneg : ¬ c < 0 := by omega
  refine ⟨⟨List.replicate c.toNat 0, 0, c, []⟩, by simp [DynamicArray.new, hneg], ?_⟩
  refine ⟨rfl, rfl, ?_, ?_, ?_, ?_, ?_, fun _ => rfl⟩
  · simp only [List.length_replicate]; omega
  · simp only [List.length_replicate]; omega
  · simp only [List.length_replicate]; omega
  · simp
  · intro j hj; simp at hj

theorem pushAll_pushInv (c : Int) (ws : List Int) :
    ∀ (vs : List Int) (a : DynamicArray), PushInv c vs a →
      (vs ++ ws).length ≤ 1073741824 →
      ∃ a1, a.pushAll ws = some a1 ∧ PushInv c (vs ++ ws) a1 := by
  induction ws with
  | nil => intro vs a hinv _; exact ⟨a, rfl, by simpa using hinv⟩
  | cons w rest ih =>
    intro vs a hinv hlen
    simp only [List.length_append, List.length_cons] at hlen
    obtain ⟨a1, hp, hinv1⟩ := push_step c vs a w hinv (by omega)
    obtain ⟨a2, hp2, hinv2⟩ := ih (vs ++ [w]) a1 hinv1 (by simp; omega)
    refine ⟨a2, by simp only [DynamicArray.pushAll, hp]; exact hp2, ?_⟩
    simpa using hinv2

theorem pushAll_append (a : DynamicArray) (xs ys : List Int) :
    a.pushAll (xs ++ ys) = (a.pushAll xs).bind (fun b => b.pushAll ys) := by
  induction xs generalizing a with
  | nil => rfl
  | cons x t ih =>
    simp only [List.cons_append, DynamicArray.pushAll]
    cases hp : a.push x with
    | none => rfl
    | some a1 => exact ih a1

theorem index_of_pushInv (c : Int) (vs : List Int) (a : DynamicArray) (hinv : PushInv c vs a)
    (i : Nat) (hi : i < vs.length) : a.index (i : Int) = vs[i]? := by
  obtain ⟨-, -, -, -, -, hle, hel, -⟩ := hinv
  have hlt : i < a.data.length := by omega
  unfold DynamicArray.index
  have h0 : (0 : Int) ≤ (i : Int) := Int.ofNat_nonneg i
  simp only [h0, Int.toNat_ofNat, hlt, and_self, if_true, List.get?_eq_getElem?]
  exact hel i hi

theorem push_overflow_general (n : Nat) (v : Int) (hn : n = 1073741824) :
    (DynamicArray.new (n : Int)).bind
      (fun a => a.pushAll (List.replicate n v ++ [v])) = none := by
  obtain ⟨a0, hnew, hinv0⟩ := new_pushInv (n : Int) (by omega) (by omega)
  obtain ⟨a, hpa, hinv⟩ := pushAll_pushInv (n : Int) (List.replicate n v) [] a0 hinv0
    (by rw [List.nil_append, List.length_replicate]; omega)
  rw [hnew]
  simp only [Option.some_bind, pushAll_append, hpa]
  obtain ⟨hs, -, hcap, -, -, -, -, hcc⟩ := hinv
  rw [List.nil_append, List.length_replicate] at hs hcc
  have hc := hcc (le_refl _)
  have hcond : a.size ≥ a.capacity := by rw [hs, hc]
  have hw : wrapInt32 (a.capacity * 2) < 0 := by
    rw [hc]
    unfold wrapInt32
    omega
  simp only [DynamicArray.pushAll, DynamicArray.push, hcond, if_true, DynamicArray.resize, hw]

/-- C27, counterexample: with initial capacity 2^30, the push number 2^30 + 1
finds size equal to capacity and doubles the capacity to 2^31, which is not a
32-bit `int`; the wrapped value is negative, `new int[capacity]` throws and
the value is not stored. -/
theorem push_capacity_overflow :
    (DynamicArray.new ((1073741824 : Nat) : Int)).bind
      (fun a => a.pushAll (List.replicate 1073741824 7 ++ [7])) = none :=
  push_overflow_general 1073741824 7 rfl

/-- C27, amended: for every initial capacity `c` with `1 <= c <= INT_MAX` and
every list of at most 2^30 values pushed in order, all pushes succeed, nothing
is written outside the array, size equals the number of values and element `i`
is the value pushed as number `i + 1`; a following `pop` returns the last
value and leaves size one smaller and the elements before it unchanged.  With
capacity 2 and the pushes 1, 2, 3, 4, 5 the capacity is doubled at the third
and at the fifth push. -/
theorem push_pop_elements (c : Int) (vs : List Int) (hc1 : 1 ≤ c) (hc2 : c ≤ 2147483647)
    (hn : vs.length ≤ 1073741824) :
    ∃ a0 a, DynamicArray.new c = some a0 ∧ a0.pushAll vs = some a ∧
      a.size = (vs.length : Int) ∧ a.stray = [] ∧
      (∀ i : Nat, i < vs.length → a.index (i : Int) = vs[i]?) ∧
      (∀ v, vs.getLast? = some v →
        ∃ a1, a.pop = some (a1, v) ∧ a1.size = (vs.length : Int) - 1 ∧
          ∀ i : Nat, i < vs.length - 1 → a1.index (i : Int) = vs[i]?) ∧
      (DynamicArray.new 2).map (fun b => b.capacities [1, 2, 3, 4, 5]) = some [2, 2, 4, 4, 8] := by
  obtain ⟨a0, hnew, hinv0⟩ := new_pushInv c hc1 hc2
  obtain ⟨a, hpa, hinv⟩ := pushAll_pushInv c vs [] a0 hinv0 (by simpa using hn)
  simp only [List.nil_append] at hinv
  refine ⟨a0, a, hnew, hpa, hinv.1, hinv.2.1, index_of_pushInv c vs a hinv, ?_, by decide⟩
  intro v hv
  have hpos : 0 < vs.length := by
    cases vs with
    | nil => simp at hv
    | cons x t => simp
  have hw : wrapInt32 (a.size - 1) = ((vs.length - 1 : Nat) : Int) := by
    rw [hinv.1, wrapInt32_of_inRange _ (by omega) (by omega)]
    omega
  have hidx : a.index ((vs.length - 1 : Nat) : Int) = some v := by
    rw [index_of_pushInv c vs a hinv (vs.length - 1) (by omega), ← List.getLast?_eq_getElem?, hv]
  refine ⟨{ a with size := wrapInt32 (a.size - 1) }, ?_, ?_, ?_⟩
  · simp only [DynamicArray.pop, hw, hidx]
  · simp only [hw]; omega
  · intro i hi
    have := index_of_pushInv c vs a hinv i (by omega)
    simpa [DynamicArray.index] using this

/-- C27, the amended statement at capacity 2 and the pushes of
`demonstrateResizeMemoryLeak`. -/
theorem push_pop_elements_witness :
    ∃ a0 a, DynamicArray.new 2 = some a0 ∧ a0.pushAll [1, 2, 3, 4, 5] = some a ∧
      a.size = (([1, 2, 3, 4, 5] : List Int).length : Int) ∧ a.stray = [] ∧
      (∀ i : Nat, i < ([1, 2, 3, 4, 5] : List Int).length →
        a.index (i : Int) = ([1, 2, 3, 4, 5] : List Int)[i]?) ∧
      (∀ v, ([1, 2, 3, 4, 5] : List Int).getLast? = some v →
        ∃ a1, a.pop = some (a1, v) ∧ a1.size = (([1, 2, 3, 4, 5] : List Int).length : Int) - 1 ∧
          ∀ i : Nat, i < ([1, 2, 3, 4, 5] : List Int).length - 1 →
            a1.index (i : Int) = ([1, 2, 3, 4, 5] : List Int)[i]?) ∧
      (DynamicArray.new 2).map (fun b => b.capacities [1, 2, 3, 4, 5]) = some [2, 2, 4, 4, 8] :=
  push_pop_elements 2 [1, 2, 3, 4, 5] (by decide) (by decide) (by decide)

end ECS

namespace Game

/-! ## ComponentPool -/

theorem acquire_poolInv (p : ComponentPool) (held : List Nat) (hinv : PoolInv p held) :
    PoolInv p.acquire.1
      (match p.acquire.2 with
       | some item => held ++ [item]
       | none => held) ∧ p.acquire.1.maxSize = p.maxSize := by
  obtain ⟨pool, freeList, maxSize, next⟩ := p
  obtain ⟨hlt, hfn, hhn, hfp, hhp, hlen, hmax⟩ := hinv
  simp only at hlt hfn hfp hhp hlen hmax
  cases freeList with
  | cons item rest =>
    have hitem : item ∉ held := fun hm => (hhp item hm).2 (List.mem_cons_self item rest)
    have hnd := List.nodup_cons.mp hfn
    have hgoal : PoolInv ⟨pool, rest, maxSize, next⟩ (held ++ [item]) := by
      refine ⟨hlt, hnd.2, ?_, ?_, ?_, ?_, hmax⟩
      · rw [List.nodup_append]
        refine ⟨hhn, List.nodup_singleton item, ?_⟩
        intro a ha hb
        simp only [List.mem_singleton] at hb
        subst hb
        exact hitem ha
      · intro x hx; exact hfp x (List.mem_cons_of_mem item hx)
      · intro x hx
        rcases List.mem_append.mp hx with h1 | h1
        · exact ⟨(hhp x h1).1, fun hr => (hhp x h1).2 (List.mem_cons_of_mem item hr)⟩
        · simp only [List.mem_singleton] at h1
          subst h1
          exact ⟨hfp x (List.mem_cons_self x rest), hnd.1⟩
      · simp only [List.length_append, List.length_cons, List.length_nil] at hlen ⊢
        omega
    exact ⟨hgoal, rfl⟩
  | nil =>
    by_cases hsz : pool.length < maxSize
    · have hnew : next ∉ held := fun hm => by
        have := hlt next (hhp next hm).1
        omega
      have hgoal : PoolInv ⟨pool ++ [next], [], maxSize, next + 1⟩ (held ++ [next]) := by
        refine ⟨?_, List.nodup_nil, ?_, ?_, ?_, ?_, ?_⟩
        · intro x hx
          rcases List.mem_append.mp hx with h1 | h1
          · have := hlt x h1
            simp only; omega
          · simp only [List.mem_singleton] at h1
            simp only; omega
        · rw [List.nodup_append]
          refine ⟨hhn, List.nodup_singleton _, ?_⟩
          intro a ha hb
          simp only [List.mem_singleton] at hb
          subst hb
          exact hnew ha
        · intro x hx; cases hx
        · intro x hx
          rcases List.mem_append.mp hx with h1 | h1
          · exact ⟨List.mem_append_left _ (hhp x h1).1, by simp⟩
          · exact ⟨List.mem_append_right _ h1, by simp⟩
        · simp only [List.length_append, List.length_singleton, List.length_nil] at hlen ⊢
          omega
        · simp only [List.length_append, List.length_singleton]
          omega
      simp only [ComponentPool.acquire, hsz, if_true]
      exact ⟨hgoal, trivial⟩
    · simp only [ComponentPool.acquire, hsz, if_false]
      exact ⟨⟨hlt, hfn, hhn, hfp, hhp, hlen, hmax⟩, trivial⟩

theorem release_poolInv (p : ComponentPool) (held : List Nat) (item : Nat)
    (hinv : PoolInv p held) (hmem : item ∈ held) :
    PoolInv (p.release item) (held.erase item) := by
  obtain ⟨hlt, hfn, hhn, hfp, hhp, hlen, hmax⟩ := hinv
  unfold ComponentPool.release
  refine ⟨hlt, ?_, hhn.erase item, ?_, ?_, ?_, hmax⟩
  · rw [List.nodup_append]
    refine ⟨hfn, List.nodup_singleton _, ?_⟩
    intro a ha hb
    simp only [List.mem_singleton] at hb
    subst hb
    exact (hhp a hmem).2 ha
  · intro x hx
    rcases List.mem_append.mp hx with h1 | h1
    · exact hfp x h1
    · simp only [List.mem_singleton] at h1
      subst h1
      exact (hhp x hmem).1
  · intro x hx
    have hx2 := (List.Nodup.mem_erase_iff hhn).mp hx
    refine ⟨(hhp x hx2.2).1, ?_⟩
    intro hr
    rcases List.mem_append.mp hr with h1 | h1
    · exact (hhp x hx2.2).2 h1
    · simp only [List.mem_singleton] at h1
      exact hx2.1 h1
  · have hpos : 0 < held.length := List.length_pos_of_mem hmem
    simp only [List.length_append, List.length_singleton, List.length_erase_of_mem hmem]
    omega

theorem runPool_poolInv (ops : List PoolOp) :
    ∀ (p : ComponentPool) (held : List Nat) (p1 : ComponentPool) (held1 : List Nat),
      PoolInv p held → runPool (p, held) ops = some (p1, held1) →
      PoolInv p1 held1 ∧ p1.maxSize = p.maxSize := by
  induction ops with
  | nil =>
    intro p held p1 held1 hinv hrun
    simp only [runPool, Option.some.injEq, Prod.mk.injEq] at hrun
    obtain ⟨rfl, rfl⟩ := hrun
    exact ⟨hinv, rfl⟩
  | cons op rest ih =>
    intro p held p1 held1 hinv hrun
    cases op with
    | acquire =>
      have hstep := acquire_poolInv p held hinv
      simp only [runPool] at hrun
      cases ha : p.acquire.2 with
      | some item =>
        rw [ha] at hrun hstep
        have := ih _ _ _ _ hstep.1 hrun
        exact ⟨this.1, this.2.trans hstep.2⟩
      | none =>
        rw [ha] at hrun hstep
        have := ih _ _ _ _ hstep.1 hrun
        exact ⟨this.1, this.2.trans hstep.2⟩
    | release item =>
      simp only [runPool] at hrun
      by_cases hmem : item ∈ held
      · simp only [hmem, if_true] at hrun
        have := ih _ _ _ _ (release_poolInv p held item hinv hmem) hrun
        exact ⟨this.1, this.2⟩
      · simp [hmem] at hrun

/-- C29: for a pool of maximum size `m` and every sequence of `acquire` and
`release` calls in which `release` is only called on an item that is held at
that time, the pool has created at most `m` items (`pool` holds every item
it created), the held items are pairwise distinct, and the next `acquire`
returns `nullptr` exactly when `m` items are held. -/
theorem pool_invariants (m n0 : Nat) (ops : List PoolOp) (p : ComponentPool) (held : List Nat)
    (hrun : runPool (ComponentPool.new m n0, []) ops = some (p, held)) :
    p.pool.length ≤ m ∧ held.Nodup ∧ (p.acquire.2 = none ↔ held.length = m) := by
  have hinit : PoolInv (ComponentPool.new m n0) [] := by
    refine ⟨?_, List.nodup_nil, List.nodup_nil, ?_, ?_, rfl, Nat.zero_le _⟩
    · intro x hx; cases hx
    · intro x hx; cases hx
    · intro x hx; cases hx
  obtain ⟨⟨-, -, hhn, -, -, hlen, hmax⟩, hm⟩ := runPool_poolInv ops _ _ _ _ hinit hrun
  have hm2 : p.maxSize = m := hm
  rw [hm2] at hmax
  refine ⟨hmax, hhn, ?_⟩
  obtain ⟨pool, freeList, maxSize, next⟩ := p
  simp only at hlen hm2 hmax
  subst hm2
  cases freeList with
  | cons item rest =>
    simp only [List.length_cons] at hlen
    simp only [ComponentPool.acquire]
    constructor
    · intro h; cases h
    · intro h; omega
  | nil =>
    simp only [List.length_nil] at hlen
    by_cases hsz : pool.length < maxSize
    · simp only [ComponentPool.acquire, hsz, if_true]
      constructor
      · intro h; cases h
      · intro h; omega
    · simp only [ComponentPool.acquire, hsz, if_false]
      constructor
      · intro _; omega
      · intro _; trivial

/-- C29 at a pool of maximum size 2 as used in `testContainers`: two items
acquired, the first released and acquired again, then a refused `acquire`. -/
theorem pool_invariants_witness :
    (ComponentPool.pool ⟨[10, 11], [], 2, 12⟩).length ≤ 2 ∧ [11, 10].Nodup ∧
      ((ComponentPool.acquire ⟨[10, 11], [], 2, 12⟩).2 = none ↔ [11, 10].length = 2) :=
  pool_invariants 2 10
    [PoolOp.acquire, PoolOp.acquire, PoolOp.release 10, PoolOp.acquire, PoolOp.acquire]
    ⟨[10, 11], [], 2, 12⟩ [11, 10] (by decide)

/-! ## Components of an entity -/

theorem mapFind_none (m : List (ComponentClass × Nat)) (T : ComponentClass)
    (hf : mapFind m T = none) : T ∉ m.map Prod.fst := by
  induction m with
  | nil => simp
  | cons kv t ih =>
    obtain ⟨k, v⟩ := kv
    by_cases hk : k = T
    · simp [mapFind, hk] at hf
    · simp only [mapFind, hk, if_false] at hf
      simp only [List.map_cons, List.mem_cons, not_or]
      exact ⟨fun hh => hk hh.symm, ih hf⟩

theorem mapFind_mem (m : List (ComponentClass × Nat)) (T : ComponentClass) (p : Nat)
    (hf : mapFind m T = some p) : (T, p) ∈ m := by
  induction m with
  | nil => simp [mapFind] at hf
  | cons kv t ih =>
    obtain ⟨k, v⟩ := kv
    by_cases hk : k = T
    · simp only [mapFind, hk, if_true, Option.some.injEq] at hf
      subst hk; subst hf
      exact List.mem_cons_self _ _
    · simp only [mapFind, hk, if_false] at hf
      exact List.mem_cons_of_mem _ (ih hf)

theorem mapFind_of_mem (m : List (ComponentClass × Nat)) (T : ComponentClass) (p : Nat)
    (hnd : (m.map Prod.fst).Nodup) (hm : (T, p) ∈ m) : mapFind m T = some p := by
  induction m with
  | nil => cases hm
  | cons kv t ih =>
    obtain ⟨k, v⟩ := kv
    simp only [List.map_cons, List.nodup_cons] at hnd
    rcases List.mem_cons.mp hm with heq | htl
    · cases heq
      simp [mapFind]
    · have hk : k ≠ T := by
        intro hh
        subst hh
        exact hnd.1 (List.mem_map.mpr ⟨(k, p), htl, rfl⟩)
      simp only [mapFind, hk, if_false]
      exact ih hnd.2 htl

theorem mapAssign_absent (m : List (ComponentClass × Nat)) (T : ComponentClass) (p : Nat)
    (hT : T ∉ m.map Prod.fst) : mapAssign m T p = m ++ [(T, p)] := by
  induction m with
  | nil => rfl
  | cons kv t ih =>
    obtain ⟨k, v⟩ := kv
    simp only [List.map_cons, List.mem_cons, not_or] at hT
    have hk : ¬ k = T := fun hh => hT.1 hh.symm
    simp [mapAssign, hk, ih hT.2]

theorem mem_mapErase (m : List (ComponentClass × Nat)) (T T1 : ComponentClass) (p : Nat) :
    (T1, p) ∈ mapErase m T ↔ (T1, p) ∈ m ∧ T1 ≠ T := by
  induction m with
  | nil => simp [mapErase]
  | cons kv t ih =>
    obtain ⟨k, v⟩ := kv
    by_cases hk : k = T
    · subst hk
      simp only [mapErase, if_true, ih, List.mem_cons, Prod.mk.injEq]
      constructor
      · rintro ⟨h1, h2⟩; exact ⟨Or.inr h1, h2⟩
      · rintro ⟨h1 | h1, h2⟩
        · exact absurd h1.1 h2
        · exact ⟨h1, h2⟩
    · simp only [mapErase, hk, if_false, List.mem_cons, ih, Prod.mk.injEq]
      constructor
      · rintro (h1 | h1)
        · exact ⟨Or.inl h1, by rw [h1.1]; exact hk⟩
        · exact ⟨Or.inr h1.1, h1.2⟩
      · rintro ⟨h1 | h1, h2⟩
        · exact Or.inl h1
        · exact Or.inr ⟨h1, h2⟩

theorem mapErase_sublist (m : List (ComponentClass × Nat)) (T : ComponentClass) :
    (mapErase m T).Sublist m := by
  induction m with
  | nil => exact List.Sublist.slnil
  | cons kv t ih =>
    obtain ⟨k, v⟩ := kv
    by_cases hk : k = T
    · simp only [mapErase, hk, if_true]
      exact List.Sublist.cons _ (hk ▸ ih)
    · simp only [mapErase, hk, if_false]
      exact List.Sublist.cons₂ _ ih

theorem mapErase_absent (m : List (ComponentClass × Nat)) (T : ComponentClass)
    (hT : T ∉ m.map Prod.fst) : mapErase m T = m := by
  induction m with
  | nil => rfl
  | cons kv t ih =>
    obtain ⟨k, v⟩ := kv
    simp only [List.map_cons, List.mem_cons, not_or] at hT
    have hk : ¬ k = T := fun hh => hT.1 hh.symm
    simp [mapErase, hk, ih hT.2]

theorem mapErase_values (m : List (ComponentClass × Nat)) (T : ComponentClass) (comp : Nat)
    (hk : (m.map Prod.fst).Nodup) (hv : (m.map Prod.snd).Nodup)
    (hf : mapFind m T = some comp) :
    (mapErase m T).map Prod.snd = (m.map Prod.snd).erase comp := by
  induction m with
  | nil => simp [mapFind] at hf
  | cons kv t ih =>
    obtain ⟨k, v⟩ := kv
    simp only [List.map_cons, List.nodup_cons] at hk hv
    by_cases hkT : k = T
    · subst hkT
      simp only [mapFind, if_true, Option.some.injEq] at hf
      subst hf
      simp only [mapErase, if_true, List.map_cons, List.erase_cons_head]
      rw [mapErase_absent t k hk.1]
    · simp only [mapFind, hkT, if_false] at hf
      have hmem : comp ∈ t.map Prod.snd :=
        List.mem_map.mpr ⟨(T, comp), mapFind_mem t T comp hf, rfl⟩
      have hne : v ≠ comp := fun hh => hv.1 (hh ▸ hmem)
      simp only [mapErase, hkT, if_false, List.map_cons]
      rw [List.erase_cons_tail (by simpa using hne), ih hk.2 hv.2 hf]

theorem addComponent_existing (h : Heap) (e : Nat) (T : ComponentClass) (ent : Entity) (p : Nat)
    (he : ECS.lookup h.entities e = some ent) (hf : mapFind ent.componentMap T = some p) :
    addComponent h e T = some (h, p) := by
  simp [addComponent, he, hf]

theorem addComponent_compInv (h : Heap) (e : Nat) (T : ComponentClass) (hinv : CompInv h e) :
    ∃ h1 p, addComponent h e T = some (h1, p) ∧ CompInv h1 e := by
  obtain ⟨ent, he, hcm, hkn, hvn, hent, hfr⟩ := hinv
  cases hf : mapFind ent.componentMap T with
  | some p =>
    exact ⟨h, p, addComponent_existing h e T ent p he hf, ent, he, hcm, hkn, hvn, hent, hfr⟩
  | none =>
    have hT := mapFind_none _ _ hf
    have hnone := hfr h.next (le_refl _)
    have hlk : ECS.lookup (h.components ++ [(h.next, (⟨T, none⟩ : Component))]) h.next
        = some ⟨T, none⟩ := by
      rw [ECS.lookup_append_singleton, hnone]; simp
    refine ⟨{ h with
        entities := ECS.assign h.entities e
          { ent with components := ent.components ++ [h.next],
                     componentMap := mapAssign ent.componentMap T h.next },
        components := ECS.assign (h.components ++ [(h.next, (⟨T, none⟩ : Component))]) h.next
          { cls := T, owner := some e },
        next := h.next + 1 }, h.next, by simp only [addComponent, he, hf, hlk], ?_⟩
    refine ⟨_, ECS.lookup_assign_self _ _ _ _ he, ?_, ?_, ?_, ?_, ?_⟩
    · simp only [mapAssign_absent _ _ _ hT, List.map_append, List.map_cons, List.map_nil, hcm]
    · simp only [mapAssign_absent _ _ _ hT, List.map_append, List.map_cons, List.map_nil]
      rw [List.nodup_append]
      refine ⟨hkn, List.nodup_singleton _, ?_⟩
      intro a ha hb
      simp only [List.mem_singleton] at hb
      subst hb
      exact hT ha
    · simp only [mapAssign_absent _ _ _ hT, List.map_append, List.map_cons, List.map_nil]
      rw [List.nodup_append]
      refine ⟨hvn, List.nodup_singleton _, ?_⟩
      intro a ha hb
      simp only [List.mem_singleton] at hb
      subst hb
      obtain ⟨⟨T1, p1⟩, hm, hp⟩ := List.mem_map.mp ha
      simp only at hp
      have := (hent T1 p1 hm).1
      omega
    · intro T1 p1 hm
      simp only [mapAssign_absent _ _ _ hT, List.mem_append, List.mem_singleton,
        Prod.mk.injEq] at hm
      simp only
      rcases hm with hm | ⟨rfl, rfl⟩
      · obtain ⟨hlt, o, ho⟩ := hent T1 p1 hm
        refine ⟨by omega, o, ?_⟩
        rw [ECS.lookup_assign_other _ _ _ _ (by omega), ECS.lookup_append_singleton, ho]
      · refine ⟨by omega, some e, ?_⟩
        rw [ECS.lookup_assign_self _ _ _ _ hlk]
    · intro a ha
      simp only at ha ⊢
      apply ECS.lookup_assign_none
      rw [ECS.lookup_append_singleton, hfr a (by omega)]
      have hne : ¬ h.next = a := by omega
      simp [hne]

theorem removeComponent_compInv (h : Heap) (e : Nat) (T : ComponentClass) (hinv : CompInv h e) :
    ∃ h1, removeComponent h e T = some h1 ∧ CompInv h1 e := by
  obtain ⟨ent, he, hcm, hkn, hvn, hent, hfr⟩ := hinv
  cases hf : mapFind ent.componentMap T with
  | none =>
    exact ⟨h, by simp [removeComponent, he, hf], ent, he, hcm, hkn, hvn, hent, hfr⟩
  | some comp =>
    refine ⟨{ h with
        entities := ECS.assign h.entities e
          { ent with componentMap := mapErase ent.componentMap T,
                     components := ent.components.erase comp },
        components := ECS.remove h.components comp,
        released := h.released ++ [comp] }, by simp only [removeComponent, he, hf], ?_⟩
    refine ⟨_, ECS.lookup_assign_self _ _ _ _ he, ?_, ?_, ?_, ?_, ?_⟩
    · simp only [mapErase_values _ _ _ hkn hvn hf, hcm]
    · exact hkn.sublist ((mapErase_sublist _ _).map Prod.fst)
    · exact hvn.sublist ((mapErase_sublist _ _).map Prod.snd)
    · intro T1 p1 hm
      simp only at hm ⊢
      obtain ⟨hm1, hne⟩ := (mem_mapErase _ _ _ _).mp hm
      obtain ⟨hlt, o, ho⟩ := hent T1 p1 hm1
      refine ⟨hlt, o, ?_⟩
      have hp : p1 ≠ comp := by
        intro hh
        subst hh
        have h1 := mapFind_mem _ _ _ hf
        have hinj := List.inj_on_of_nodup_map hvn hm1 h1 rfl
        exact hne (Prod.mk.inj hinj).1
      rw [ECS.lookup_remove]
      simp [hp, ho]
    · intro a ha
      simp only at ha ⊢
      rw [ECS.lookup_remove]
      by_cases hac : a = comp
      · simp [hac]
      · simp [hac, hfr a ha]

theorem runComps_compInv (e : Nat) (ops : List CompOp) :
    ∀ h : Heap, CompInv h e → ∃ h1, runComps e h ops = some h1 ∧ CompInv h1 e := by
  induction ops with
  | nil => intro h hinv; exact ⟨h, rfl, hinv⟩
  | cons op rest ih =>
    intro h hinv
    cases op with
    | add T =>
      obtain ⟨h1, p, hs, hinv1⟩ := addComponent_compInv h e T hinv
      obtain ⟨h2, hr, hinv2⟩ := ih h1 hinv1
      exact ⟨h2, by simp only [runComps, hs, hr], hinv2⟩
    | remove T =>
      obtain ⟨h1, hs, hinv1⟩ := removeComponent_compInv h e T hinv
      obtain ⟨h2, hr, hinv2⟩ := ih h1 hinv1
      exact ⟨h2, by simp only [runComps, hs, hr], hinv2⟩

/-- C25: `addComponent<T>` on an entity that already has a `T` returns that
component and leaves the heap as it is.  Starting from an entity without
components (in a heap that respects the allocator invariant), every sequence
of `addComponent<T>` and `removeComponent<T>` calls is defined, and afterwards
the entity holds at most one component per class (two held components of the
same class are the same object), holds none twice, and its component vector
and its map contain exactly the same components. -/
theorem components_one_per_class (h : Heap) (e : Nat) (ent : Entity) (ops : List CompOp)
    (he : ECS.lookup h.entities e = some ent)
    (hempty : ent.components = [] ∧ ent.componentMap = [])
    (hfresh : ∀ a, h.next ≤ a → ECS.lookup h.components a = none) :
    (∀ (h0 : Heap) (e0 : Nat) (T : ComponentClass) (ent0 : Entity) (p : Nat),
        ECS.lookup h0.entities e0 = some ent0 → mapFind ent0.componentMap T = some p →
        addComponent h0 e0 T = some (h0, p)) ∧
      ∃ h1 ent1, runComps e h ops = some h1 ∧ ECS.lookup h1.entities e = some ent1 ∧
        (∀ p q, p ∈ ent1.components → q ∈ ent1.components →
          classOf h1 p = classOf h1 q → p = q) ∧
        ent1.components.Nodup ∧
        (∀ p, p ∈ ent1.components ↔ ∃ T, mapFind ent1.componentMap T = some p) ∧
        ent1.components.length = ent1.componentMap.length := by
  refine ⟨addComponent_existing, ?_⟩
  have hinit : CompInv h e := by
    refine ⟨ent, he, by simp [hempty.1, hempty.2], by simp [hempty.2], by simp [hempty.2], ?_,
      hfresh⟩
    intro T p hm
    rw [hempty.2] at hm
    cases hm
  obtain ⟨h1, hrun, ent1, he1, hcm, hkn, hvn, hent, -⟩ := runComps_compInv e ops h hinit
  refine ⟨h1, ent1, hrun, he1, ?_, by rw [hcm]; exact hvn, ?_, by rw [hcm]; simp⟩
  · intro p q hp hq hcls
    rw [hcm] at hp hq
    obtain ⟨⟨Tp, p1⟩, hmp, rfl⟩ := List.mem_map.mp hp
    obtain ⟨⟨Tq, q1⟩, hmq, rfl⟩ := List.mem_map.mp hq
    obtain ⟨-, op, hop⟩ := hent Tp p1 hmp
    obtain ⟨-, oq, hoq⟩ := hent Tq q1 hmq
    simp only [classOf, hop, hoq, Option.map_some', Option.some.injEq] at hcls
    subst hcls
    have hinj := List.inj_on_of_nodup_map hkn hmp hmq rfl
    exact (Prod.mk.inj hinj).2
  · intro p
    rw [hcm]
    constructor
    · intro hp
      obtain ⟨⟨T, p1⟩, hm, rfl⟩ := List.mem_map.mp hp
      exact ⟨T, mapFind_of_mem _ _ _ hkn hm⟩
    · rintro ⟨T, hT⟩
      exact List.mem_map.mpr ⟨(T, p), mapFind_mem _ _ _ hT, rfl⟩

/-- C25 at a fresh entity "Player" with the calls add Transform, add Physics,
add Transform, remove Transform, add Transform. -/
theorem components_one_per_class_witness :
    (∀ (h0 : Heap) (e0 : Nat) (T : ComponentClass) (ent0 : Entity) (p : Nat),
        ECS.lookup h0.entities e0 = some ent0 → mapFind ent0.componentMap T = some p →
        addComponent h0 e0 T = some (h0, p)) ∧
      ∃ h1 ent1,
        runComps 1 (newEntity Heap.empty "Player").1
          [CompOp.add ComponentClass.Transform, CompOp.add ComponentClass.Physics,
            CompOp.add ComponentClass.Transform, CompOp.remove ComponentClass.Transform,
            CompOp.add ComponentClass.Transform] = some h1 ∧
        ECS.lookup h1.entities 1 = some ent1 ∧
        (∀ p q, p ∈ ent1.components → q ∈ ent1.components →
          classOf h1 p = classOf h1 q → p = q) ∧
        ent1.components.Nodup ∧
        (∀ p, p ∈ ent1.components ↔ ∃ T, mapFind ent1.componentMap T = some p) ∧
        ent1.components.length = ent1.componentMap.length :=
  components_one_per_class (newEntity Heap.empty "Player").1 1
    ⟨"Player", [], [], none, none, [], true, 0⟩ _ (by decide) ⟨rfl, rfl⟩ (fun _ _ => rfl)

/-! ## Parent and child links -/

theorem removeChild_absent (h : Heap) (e child : Nat) (ent : Entity)
    (he : ECS.lookup h.entities e = some ent) (hmem : child ∉ ent.children) :
    removeChild h e child = some h := by
  simp [removeChild, he, hmem]

theorem removeChild_found (h : Heap) (e child : Nat) (ent c : Entity)
    (he : ECS.lookup h.entities e = some ent) (hmem : child ∈ ent.children)
    (hc : ECS.lookup h.entities child = some c) (hne : e ≠ child) :
    ∃ h1, removeChild h e child = some h1 ∧
      ∀ q, ECS.lookup h1.entities q =
        if q = e then some { ent with children := ent.children.erase child }
        else if q = child then some { c with parent := none }
        else ECS.lookup h.entities q := by
  have l1 : ECS.lookup (ECS.assign h.entities child { c with parent := none }) e = some ent := by
    rw [ECS.lookup_assign_other _ _ _ _ hne]; exact he
  refine ⟨{ h with
      entities := ECS.assign (ECS.assign h.entities child { c with parent := none }) e
        { ent with children := ent.children.erase child } },
    by simp only [removeChild, he, hmem, if_true, hc, l1], ?_⟩
  intro q
  simp only [ECS.lookup_assign, l1, hc, Option.map_some']

theorem linkChild_spec (h : Heap) (e child : Nat) (ent c : Entity)
    (he : ECS.lookup h.entities e = some ent)
    (hc : ECS.lookup h.entities child = some c) (hne : e ≠ child) :
    ∃ h1, linkChild h e child = some h1 ∧
      ∀ q, ECS.lookup h1.entities q =
        if q = e then some { ent with children := ent.children ++ [child] }
        else if q = child then some { c with parent := some e }
        else ECS.lookup h.entities q := by
  have l1 : ECS.lookup (ECS.assign h.entities child { c with parent := some e }) e = some ent := by
    rw [ECS.lookup_assign_other _ _ _ _ hne]; exact he
  refine ⟨{ h with
      entities := ECS.assign (ECS.assign h.entities child { c with parent := some e }) e
        { ent with children := ent.children ++ [child] } },
    by simp only [linkChild, hc, l1], ?_⟩
  intro q
  simp only [ECS.lookup_assign, l1, hc, Option.map_some']

theorem removeChild_view (h : Heap) (e child : Nat) (ent c : Entity) (h1 : Heap)
    (he : ECS.lookup h.entities e = some ent) (hmem : child ∈ ent.children)
    (hc : ECS.lookup h.entities child = some c) (hne : e ≠ child)
    (hs : removeChild h e child = some h1) :
    ∀ q, (ECS.lookup h1.entities q = none ∧ ECS.lookup h.entities q = none) ∨
      ∃ x y, ECS.lookup h1.entities q = some x ∧ ECS.lookup h.entities q = some y ∧
        x.parent = (if q = child then none else y.parent) ∧
        x.children = (if q = e then y.children.erase child else y.children) := by
  obtain ⟨h2, hs2, hl⟩ := removeChild_found h e child ent c he hmem hc hne
  rw [hs] at hs2
  cases hs2
  intro q
  rw [hl q]
  by_cases hqe : q = e
  · subst hqe
    exact Or.inr ⟨{ ent with children := ent.children.erase child }, ent, by simp, he, by simp [hne], by simp⟩
  · by_cases hqc : q = child
    · subst hqc
      exact Or.inr ⟨{ c with parent := none }, c, by simp [hqe], hc, by simp, by simp [hqe]⟩
    · simp only [hqe, hqc, if_false]
      cases hq : ECS.lookup h.entities q with
      | none => exact Or.inl ⟨rfl, rfl⟩
      | some y => exact Or.inr ⟨y, y, rfl, rfl, by simp [hqc], by simp [hqe]⟩

theorem linkChild_view (h : Heap) (e child : Nat) (ent c : Entity) (h1 : Heap)
    (he : ECS.lookup h.entities e = some ent)
    (hc : ECS.lookup h.entities child = some c) (hne : e ≠ child)
    (hs : linkChild h e child = some h1) :
    ∀ q, (ECS.lookup h1.entities q = none ∧ ECS.lookup h.entities q = none) ∨
      ∃ x y, ECS.lookup h1.entities q = some x ∧ ECS.lookup h.entities q = some y ∧
        x.parent = (if q = child then some e else y.parent) ∧
        x.children = (if q = e then y.children ++ [child] else y.children) := by
  obtain ⟨h2, hs2, hl⟩ := linkChild_spec h e child ent c he hc hne
  rw [hs] at hs2
  cases hs2
  intro q
  rw [hl q]
  by_cases hqe : q = e
  · subst hqe
    exact Or.inr ⟨{ ent with children := ent.children ++ [child] }, ent, by simp, he, by simp [hne], by simp⟩
  · by_cases hqc : q = child
    · subst hqc
      exact Or.inr ⟨{ c with parent := some e }, c, by simp [hqe], hc, by simp, by simp [hqe]⟩
    · simp only [hqe, hqc, if_false]
      cases hq : ECS.lookup h.entities q with
      | none => exact Or.inl ⟨rfl, rfl⟩
      | some y => exact Or.inr ⟨y, y, rfl, rfl, by simp [hqc], by simp [hqe]⟩

theorem view_forward (h h1 : Heap) (q : Nat) (y : Entity) (P : Entity → Entity → Prop)
    (hv : (ECS.lookup h1.entities q = none ∧ ECS.lookup h.entities q = none) ∨
      ∃ x y, ECS.lookup h1.entities q = some x ∧ ECS.lookup h.entities q = some y ∧ P x y)
    (hq : ECS.lookup h.entities q = some y) :
    ∃ x, ECS.lookup h1.entities q = some x ∧ P x y := by
  rcases hv with ⟨-, hn⟩ | ⟨x, y1, hx, hy, hp⟩
  · rw [hn] at hq; cases hq
  · rw [hy] at hq; cases hq; exact ⟨x, hx, hp⟩

theorem view_backward (h h1 : Heap) (q : Nat) (x : Entity) (P : Entity → Entity → Prop)
    (hv : (ECS.lookup h1.entities q = none ∧ ECS.lookup h.entities q = none) ∨
      ∃ x y, ECS.lookup h1.entities q = some x ∧ ECS.lookup h.entities q = some y ∧ P x y)
    (hq : ECS.lookup h1.entities q = some x) :
    ∃ y, ECS.lookup h.entities q = some y ∧ P x y := by
  rcases hv with ⟨hn, -⟩ | ⟨x1, y, hx, hy, hp⟩
  · rw [hn] at hq; cases hq
  · rw [hx] at hq; cases hq; exact ⟨y, hy, hp⟩

theorem removeChild_linkInv (h : Heap) (e child : Nat) (h1 : Heap) (hinv : LinkInv h)
    (hs : removeChild h e child = some h1) :
    LinkInv h1 ∧ (∀ q, (ECS.lookup h1.entities q).isSome = (ECS.lookup h.entities q).isSome) ∧
      (child ∈ childrenOf h e → parentOf h1 child = none) := by
  obtain ⟨i1, i2, i3⟩ := hinv
  cases he : ECS.lookup h.entities e with
  | none => simp [removeChild, he] at hs
  | some ent =>
    by_cases hmem : child ∈ ent.children
    · obtain ⟨c, hc, hcp⟩ := i2 e ent child he hmem
      have hne : e ≠ child := fun hh => (i3 e ent he).2 (hh ▸ hmem)
      have hv := removeChild_view h e child ent c h1 he hmem hc hne hs
      refine ⟨⟨?_, ?_, ?_⟩, ?_, ?_⟩
      · intro c0 x p hx hxp
        obtain ⟨y, hy, hpar, -⟩ := view_backward h h1 c0 x _ (hv c0) hx
        have hc0 : c0 ≠ child := by
          intro hh
          rw [hpar, if_pos hh] at hxp
          cases hxp
        rw [hpar, if_neg hc0] at hxp
        obtain ⟨ep, hep, hin⟩ := i1 c0 y p hy hxp
        obtain ⟨xp, hxp1, -, hch⟩ := view_forward h h1 p ep _ (hv p) hep
        refine ⟨xp, hxp1, ?_⟩
        rw [hch]
        by_cases hpe : p = e
        · simp only [hpe, if_true]
          exact (List.mem_erase_of_ne hc0).mpr hin
        · simp only [hpe, if_false]
          exact hin
      · intro p xp c0 hxp hin
        obtain ⟨ep, hep, -, hch⟩ := view_backward h h1 p xp _ (hv p) hxp
        have hin0 : c0 ∈ ep.children := by
          rw [hch] at hin
          by_cases hpe : p = e
          · simp only [hpe, if_true] at hin
            exact List.mem_of_mem_erase hin
          · simpa only [hpe, if_false] using hin
        obtain ⟨ec, hec, hecp⟩ := i2 p ep c0 hep hin0
        obtain ⟨x0, hx0, hpar, -⟩ := view_forward h h1 c0 ec _ (hv c0) hec
        refine ⟨x0, hx0, ?_⟩
        have hc0 : c0 ≠ child := by
          intro hh
          rw [hh, hc] at hec
          have hce : c = ec := Option.some.inj hec
          rw [← hce, hcp] at hecp
          have hpe : e = p := Option.some.inj hecp
          rw [← hpe, he] at hep
          have hent : ent = ep := Option.some.inj hep
          rw [hch, ← hpe, if_pos rfl, ← hent, hh] at hin
          exact ((List.Nodup.mem_erase_iff (i3 e ent he).1).mp hin).1 rfl
        rw [hpar, if_neg hc0]
        exact hecp
      · intro p xp hxp
        obtain ⟨ep, hep, -, hch⟩ := view_backward h h1 p xp _ (hv p) hxp
        obtain ⟨hnd, hself⟩ := i3 p ep hep
        rw [hch]
        by_cases hpe : p = e
        · simp only [hpe, if_true]
          exact ⟨hnd.erase child, fun hh => hself (hpe ▸ List.mem_of_mem_erase hh)⟩
        · simp only [hpe, if_false]
          exact ⟨hnd, hself⟩
      · intro q
        rcases hv q with ⟨h1n, hn⟩ | ⟨x, y, hx, hy, -⟩
        · rw [h1n, hn]
        · rw [hx, hy]; rfl
      · intro _
        obtain ⟨x, hx, hpar, -⟩ := view_forward h h1 child c _ (hv child) hc
        simp [parentOf, hx, hpar]
    · have := removeChild_absent h e child ent he hmem
      rw [hs] at this
      cases this
      refine ⟨⟨i1, i2, i3⟩, fun _ => rfl, ?_⟩
      intro hm
      simp only [childrenOf, he] at hm
      exact absurd hm hmem

theorem linkChild_live (h : Heap) (e child : Nat) (h1 : Heap) (hne : e ≠ child)
    (hs : linkChild h e child = some h1) :
    ∃ ent c, ECS.lookup h.entities e = some ent ∧ ECS.lookup h.entities child = some c := by
  unfold linkChild at hs
  cases hc : ECS.lookup h.entities child with
  | none => simp [hc] at hs
  | some c =>
    cases he : ECS.lookup h.entities e with
    | none =>
      simp only [hc] at hs
      rw [ECS.lookup_assign_other _ _ _ _ hne, he] at hs
      simp at hs
    | some ent => exact ⟨ent, c, rfl, rfl⟩

theorem linkChild_linkInv (h : Heap) (e child : Nat) (h1 : Heap) (hinv : LinkInv h)
    (hne : e ≠ child) (hpar : parentOf h child = none)
    (hs : linkChild h e child = some h1) : LinkInv h1 := by
  obtain ⟨i1, i2, i3⟩ := hinv
  obtain ⟨ent, c, he, hc⟩ := linkChild_live h e child h1 hne hs
  have hv := linkChild_view h e child ent c h1 he hc hne hs
  have hcp : c.parent = none := by simpa [parentOf, hc] using hpar
  have hnot : ∀ p ep, ECS.lookup h.entities p = some ep → child ∉ ep.children := by
    intro p ep hep hin
    obtain ⟨ec, hec, hecp⟩ := i2 p ep child hep hin
    rw [hc] at hec
    have : c = ec := Option.some.inj hec
    rw [← this, hcp] at hecp
    cases hecp
  refine ⟨?_, ?_, ?_⟩
  · intro c0 x p hx hxp
    obtain ⟨y, hy, hpar0, -⟩ := view_backward h h1 c0 x _ (hv c0) hx
    by_cases hc0 : c0 = child
    · rw [hpar0, if_pos hc0] at hxp
      have hpe : e = p := Option.some.inj hxp
      obtain ⟨xe, hxe, -, hch⟩ := view_forward h h1 e ent _ (hv e) he
      refine ⟨xe, hpe ▸ hxe, ?_⟩
      rw [hch, if_pos rfl, hc0]
      exact List.mem_append_right _ (List.mem_singleton_self child)
    · rw [hpar0, if_neg hc0] at hxp
      obtain ⟨ep, hep, hin⟩ := i1 c0 y p hy hxp
      obtain ⟨xp, hxp1, -, hch⟩ := view_forward h h1 p ep _ (hv p) hep
      refine ⟨xp, hxp1, ?_⟩
      rw [hch]
      by_cases hpe : p = e
      · simp only [hpe, if_true]
        exact List.mem_append_left _ hin
      · simp only [hpe, if_false]
        exact hin
  · intro p xp c0 hxp hin
    obtain ⟨ep, hep, -, hch⟩ := view_backward h h1 p xp _ (hv p) hxp
    rw [hch] at hin
    have hcases : c0 ∈ ep.children ∨ (p = e ∧ c0 = child) := by
      by_cases hpe : p = e
      · simp only [hpe, if_true] at hin
        rcases List.mem_append.mp hin with h0 | h0
        · exact Or.inl h0
        · exact Or.inr ⟨hpe, List.mem_singleton.mp h0⟩
      · simp only [hpe, if_false] at hin
        exact Or.inl hin
    rcases hcases with hin0 | ⟨hpe, hc0⟩
    · obtain ⟨ec, hec, hecp⟩ := i2 p ep c0 hep hin0
      obtain ⟨x0, hx0, hpar0, -⟩ := view_forward h h1 c0 ec _ (hv c0) hec
      have hc0 : c0 ≠ child := fun hh => hnot p ep hep (hh ▸ hin0)
      exact ⟨x0, hx0, by rw [hpar0, if_neg hc0]; exact hecp⟩
    · obtain ⟨x0, hx0, hpar0, -⟩ := view_forward h h1 child c _ (hv child) hc
      refine ⟨x0, hc0 ▸ hx0, ?_⟩
      rw [hpar0, if_pos rfl, hpe]
  · intro p xp hxp
    obtain ⟨ep, hep, -, hch⟩ := view_backward h h1 p xp _ (hv p) hxp
    obtain ⟨hnd, hself⟩ := i3 p ep hep
    rw [hch]
    by_cases hpe : p = e
    · simp only [hpe, if_true]
      constructor
      · rw [List.nodup_append]
        refine ⟨hnd, List.nodup_singleton _, ?_⟩
        intro a ha hb
        simp only [List.mem_singleton] at hb
        subst hb
        exact hnot p ep hep ha
      · intro hh
        rcases List.mem_append.mp hh with h0 | h0
        · exact hself (hpe ▸ h0)
        · exact hne (List.mem_singleton.mp h0)
    · simp only [hpe, if_false]
      exact ⟨hnd, hself⟩

theorem addChild_linkInv (h : Heap) (e child : Nat) (h1 : Heap) (hinv : LinkInv h)
    (hs : addChild h e child = some h1) : LinkInv h1 := by
  unfold addChild at hs
  by_cases hce : child = e
  · simp [hce] at hs
  · have hne : e ≠ child := fun hh => hce hh.symm
    simp only [hce, if_false] at hs
    cases hc : ECS.lookup h.entities child with
    | none => simp [hc] at hs
    | some c =>
      simp only [hc] at hs
      cases hp : c.parent with
      | none =>
        simp only [hp] at hs
        exact linkChild_linkInv h e child h1 hinv hne (by simp [parentOf, hc, hp]) hs
      | some q =>
        simp only [hp] at hs
        cases hr : removeChild h q child with
        | none => simp [hr] at hs
        | some h2 =>
          simp only [hr] at hs
          obtain ⟨eq, heq, hin⟩ := hinv.1 child c q hc hp
          obtain ⟨hinv2, -, hpar2⟩ := removeChild_linkInv h q child h2 hinv hr
          exact linkChild_linkInv h2 e child h1 hinv2 hne
            (hpar2 (by simpa [childrenOf, heq] using hin)) hs

theorem runLinks_linkInv (ops : List LinkOp) :
    ∀ (h h1 : Heap), LinkInv h → runLinks h ops = some h1 → LinkInv h1 := by
  induction ops with
  | nil =>
    intro h h1 hinv hrun
    simp only [runLinks, Option.some.injEq] at hrun
    exact hrun ▸ hinv
  | cons op rest ih =>
    intro h h1 hinv hrun
    cases op with
    | addChild p c =>
      simp only [runLinks] at hrun
      cases hs : addChild h p c with
      | none => simp [hs] at hrun
      | some h2 =>
        simp only [hs] at hrun
        exact ih h2 h1 (addChild_linkInv h p c h2 hinv hs) hrun
    | removeChild p c =>
      simp only [runLinks] at hrun
      cases hs : removeChild h p c with
      | none => simp [hs] at hrun
      | some h2 =>
        simp only [hs] at hrun
        exact ih h2 h1 (removeChild_linkInv h p c h2 hinv hs).1 hrun

theorem unlinked_linkInv (h : Heap) (hun : Unlinked h) : LinkInv h := by
  refine ⟨?_, ?_, ?_⟩
  · intro c ec p hc hp
    rw [(hun c ec hc).1] at hp
    cases hp
  · intro p ep c hp hin
    rw [(hun p ep hp).2] at hin
    cases hin
  · intro p ep hp
    rw [(hun p ep hp).2]
    exact ⟨List.nodup_nil, by simp⟩

/-- C28: in every state reached from parentless, childless entities through
`addChild` (with a child other than the receiver) and `removeChild`, an entity
`c` has parent `p` if and only if `c` occurs in the child vector of `p`; it
then occurs there exactly once, and no entity is in two child vectors. -/
theorem links_consistent (h : Heap) (ops : List LinkOp) (h1 : Heap) (hun : Unlinked h)
    (hrun : runLinks h ops = some h1) :
    (∀ c p, parentOf h1 c = some p ↔ c ∈ childrenOf h1 p) ∧
      (∀ c p, c ∈ childrenOf h1 p → (childrenOf h1 p).count c = 1) ∧
      (∀ c p q, c ∈ childrenOf h1 p → c ∈ childrenOf h1 q → p = q) := by
  obtain ⟨i1, i2, i3⟩ := runLinks_linkInv ops h h1 (unlinked_linkInv h hun) hrun
  have hpar : ∀ c p, c ∈ childrenOf h1 p → parentOf h1 c = some p := by
    intro c p hin
    unfold childrenOf at hin
    cases hp : ECS.lookup h1.entities p with
    | none => simp [hp] at hin
    | some ep =>
      simp only [hp] at hin
      obtain ⟨ec, hec, hecp⟩ := i2 p ep c hp hin
      simp [parentOf, hec, hecp]
  refine ⟨?_, ?_, ?_⟩
  · intro c p
    constructor
    · intro hcp
      unfold parentOf at hcp
      cases hc : ECS.lookup h1.entities c with
      | none => simp [hc] at hcp
      | some ec =>
        simp only [hc] at hcp
        obtain ⟨ep, hep, hin⟩ := i1 c ec p hc hcp
        simpa [childrenOf, hep] using hin
    · exact hpar c p
  · intro c p hin
    unfold childrenOf at hin ⊢
    cases hp : ECS.lookup h1.entities p with
    | none => simp [hp] at hin
    | some ep =>
      simp only [hp] at hin ⊢
      exact List.count_eq_one_of_mem (i3 p ep hp).1 hin
  · intro c p q hp hq
    have h1p := hpar c p hp
    have h1q := hpar c q hq
    rw [h1p] at h1q
    exact Option.some.inj h1q

theorem threeEntities_unlinked : Unlinked threeEntities := by
  intro e ent he
  simp only [threeEntities, newEntity, Heap.empty, List.nil_append, List.cons_append,
    ECS.lookup] at he
  split at he
  · cases he
    exact ⟨rfl, rfl⟩
  · split at he
    · cases he
      exact ⟨rfl, rfl⟩
    · split at he
      · cases he
        exact ⟨rfl, rfl⟩
      · cases he

/-- C28 at three new entities at the addresses 1, 2, 3 and the calls
`1.addChild(2)`, `3.addChild(2)`, `1.removeChild(2)`, `2.addChild(1)`. -/
theorem links_consistent_witness :
    Unlinked threeEntities ∧
      ∃ h1, runLinks threeEntities
          [LinkOp.addChild 1 2, LinkOp.addChild 3 2, LinkOp.removeChild 1 2,
            LinkOp.addChild 2 1] = some h1 ∧
        ((∀ c p, parentOf h1 c = some p ↔ c ∈ childrenOf h1 p) ∧
          (∀ c p, c ∈ childrenOf h1 p → (childrenOf h1 p).count c = 1) ∧
          (∀ c p q, c ∈ childrenOf h1 p → c ∈ childrenOf h1 q → p = q)) := by
  have hs : (runLinks threeEntities
      [LinkOp.addChild 1 2, LinkOp.addChild 3 2, LinkOp.removeChild 1 2,
        LinkOp.addChild 2 1]).isSome = true := by decide
  obtain ⟨h1, hh⟩ := Option.isSome_iff_exists.mp hs
  exact ⟨threeEntities_unlinked, h1, hh,
    links_consistent threeEntities _ h1 threeEntities_unlinked hh⟩

end Game

namespace GameEngine

theorem addComponent_bounded (e : Entity) (c : Nat)
    (hle : e.components.length ≤ MAX_COMPONENTS) :
    (addComponent e c).components.length ≤ MAX_COMPONENTS := by
  unfold addComponent
  split
  · simp only [List.length_append, List.length_singleton]
    omega
  · exact hle

theorem removeComponent_bounded (h : Heap) (e : Entity) (name : String) (h1 : Heap)
    (e1 : Entity) (hle : e.components.length ≤ MAX_COMPONENTS)
    (hs : removeComponent h e name = some (h1, e1)) :
    e1.components.length ≤ MAX_COMPONENTS := by
  unfold removeComponent at hs
  cases hf : findByName h e.components name with
  | none => simp [hf] at hs
  | some r =>
    cases r with
    | none =>
      simp only [hf, Option.some.injEq, Prod.mk.injEq] at hs
      rw [← hs.2]
      exact hle
    | some i =>
      simp only [hf] at hs
      cases hg : e.components[i]? with
      | none => simp [hg] at hs
      | some c =>
        simp only [hg, Option.some.injEq, Prod.mk.injEq] at hs
        rw [← hs.2]
        exact le_trans (List.length_eraseIdx_le _ _) hle

theorem runOps_bounded (ops : List CompOp) :
    ∀ (h : Heap) (e : Entity) (h1 : Heap) (e1 : Entity),
      e.components.length ≤ MAX_COMPONENTS → runOps h e ops = some (h1, e1) →
      e1.components.length ≤ MAX_COMPONENTS := by
  induction ops with
  | nil =>
    intro h e h1 e1 hle hrun
    simp only [runOps, Option.some.injEq, Prod.mk.injEq] at hrun
    rw [← hrun.2]
    exact hle
  | cons op rest ih =>
    intro h e h1 e1 hle hrun
    cases op with
    | add c =>
      simp only [runOps] at hrun
      exact ih h _ h1 e1 (addComponent_bounded e c hle) hrun
    | remove name =>
      simp only [runOps] at hrun
      cases hs : removeComponent h e name with
      | none => simp [hs] at hrun
      | some r =>
        obtain ⟨h2, e2⟩ := r
        simp only [hs] at hrun
        exact ih h2 e2 h1 e1 (removeComponent_bounded h e name h2 e2 hle hs) hrun

theorem destroy_released (l : List Nat) :
    ∀ (h : Heap), (l.foldl deleteComponent h).released = h.released ++ l := by
  induction l with
  | nil => intro h; simp
  | cons a t ih =>
    intro h
    rw [List.foldl_cons, ih]
    simp [deleteComponent]

theorem foldl_addComponent (l : List Nat) :
    ∀ (e : Entity), e.components.length + l.length ≤ MAX_COMPONENTS →
      (l.foldl addComponent e).components = e.components ++ l := by
  induction l with
  | nil => intro e _; simp
  | cons a t ih =>
    intro e hle
    simp only [List.length_cons] at hle
    have ha : addComponent e a = { e with components := e.components ++ [a] } := by
      unfold addComponent
      rw [if_pos (by omega)]
    rw [List.foldl_cons, ha, ih]
    · simp
    · simp only [List.length_append, List.length_singleton]
      omega

theorem runOps_adds (l : List Nat) :
    ∀ (h : Heap) (e : Entity), runOps h e (l.map CompOp.add) = some (h, l.foldl addComponent e) := by
  induction l with
  | nil => intro h e; rfl
  | cons a t ih =>
    intro h e
    simp only [List.map_cons, runOps, List.foldl_cons]
    exact ih h (addComponent e a)

theorem runOps_cons_add (h : Heap) (e : Entity) (c : Nat) (rest : List CompOp) :
    runOps h e (CompOp.add c :: rest) = runOps h (addComponent e c) rest := rfl

theorem runOps_cons_remove (h : Heap) (e : Entity) (name : String) (rest : List CompOp)
    (h1 : Heap) (e1 : Entity) (hs : removeComponent h e name = some (h1, e1)) :
    runOps h e (CompOp.remove name :: rest) = runOps h1 e1 rest := by
  simp only [runOps, hs]

theorem foldl_addComponent_full (l : List Nat) :
    ∀ (e : Entity), MAX_COMPONENTS ≤ e.components.length → l.foldl addComponent e = e := by
  induction l with
  | nil => intro e _; rfl
  | cons a t ih =>
    intro e hfull
    have ha : addComponent e a = e := by
      unfold addComponent
      rw [if_neg (by omega)]
    rw [List.foldl_cons, ha]
    exact ih e hfull

theorem fillOps_run :
    ∃ h1 e1,
      runOps (Entity.new (heapOf 34) "E").1 (Entity.new (heapOf 34) "E").2 fillOps
        = some (h1, e1) ∧
      e1.components = List.range' 2 32 ∧ h1.released = [1] := by
  have hrem : removeComponent (Entity.new (heapOf 34) "E").1
      (addComponent (Entity.new (heapOf 34) "E").2 1) "C"
      = some (deleteComponent (Entity.new (heapOf 34) "E").1 1, ⟨"E", [], true⟩) := by
    rfl
  have hsplit : List.range' 2 33 = List.range' 2 32 ++ [34] := by
    rw [show (33 : Nat) = 32 + 1 from rfl, List.range'_1_concat]
  refine ⟨deleteComponent (Entity.new (heapOf 34) "E").1 1,
    (List.range' 2 33).foldl addComponent ⟨"E", [], true⟩, ?_, ?_, rfl⟩
  · unfold fillOps
    rw [runOps_cons_add, runOps_cons_remove _ _ _ _ _ _ hrem]
    exact runOps_adds _ _ _
  · have h32 : ((List.range' 2 32).foldl addComponent ⟨"E", [], true⟩).components
        = List.range' 2 32 := by
      rw [foldl_addComponent]
      · rfl
      · simp [MAX_COMPONENTS]
    rw [hsplit, List.foldl_append, foldl_addComponent_full _ _ (by rw [h32]; simp [MAX_COMPONENTS])]
    exact h32

/-- C30: after any sequence of `addComponent` and `removeComponent` calls on a
newly constructed entity, the entity holds at most `MAX_COMPONENTS = 32`
components; `addComponent` on an entity that holds 32 leaves the entity, and
so its component list, unchanged, and the rejected component (one that the
entity does not hold already) is not owned by the entity: it is not in the
component list, and the destructor of the entity does not delete it. -/
theorem components_at_most_max (h : Heap) (name : String) (ops : List CompOp) (h1 : Heap)
    (e1 : Entity)
    (hrun : runOps (Entity.new h name).1 (Entity.new h name).2 ops = some (h1, e1)) :
    e1.components.length ≤ MAX_COMPONENTS ∧
      ∀ (e : Entity) (p : Nat), MAX_COMPONENTS ≤ e.components.length →
        addComponent e p = e ∧
          (p ∉ e.components →
            p ∉ (addComponent e p).components ∧
              ∀ g : Heap, p ∉ g.released → p ∉ (destroy g (addComponent e p)).released) := by
  refine ⟨runOps_bounded ops _ _ h1 e1 (Nat.zero_le _) hrun, ?_⟩
  intro e p hfull
  have hadd : addComponent e p = e := by
    unfold addComponent
    rw [if_neg (by omega)]
  refine ⟨hadd, ?_⟩
  intro hp
  rw [hadd]
  refine ⟨hp, ?_⟩
  intro g hg
  unfold destroy
  rw [destroy_released]
  intro hin
  rcases List.mem_append.mp hin with h0 | h0
  · exact hg h0
  · exact hp h0

/-- C30 at a new entity in a heap with live components named `C` at the
addresses 1 to 34 and the calls `fillOps`: the component at address 1 is added
and removed, the components at 2 to 33 fill the entity, and `addComponent`
with the component at 34 is rejected.  The entity then holds the 32 components
at 2 to 33; a further `addComponent` with the component at 34 leaves it
unchanged, the component is not in the list, and the destructor (run in the
heap reached) does not delete it. -/
theorem components_at_most_max_witness :
    ∃ h1 e1,
      runOps (Entity.new (heapOf 34) "E").1 (Entity.new (heapOf 34) "E").2 fillOps
        = some (h1, e1) ∧
      e1.components = List.range' 2 32 ∧
      e1.components.length ≤ MAX_COMPONENTS ∧
      addComponent e1 34 = e1 ∧
      34 ∉ (addComponent e1 34).components ∧
      34 ∉ (destroy h1 (addComponent e1 34)).released := by
  obtain ⟨h1, e1, hrun, hcomps, hrel⟩ := fillOps_run
  have hthm := components_at_most_max (heapOf 34) "E" fillOps h1 e1 hrun
  have hfull : MAX_COMPONENTS ≤ e1.components.length := by
    rw [hcomps]
    simp [MAX_COMPONENTS]
  have hnew : 34 ∉ e1.components := by
    rw [hcomps, List.mem_range'_1]
    omega
  have hrej := hthm.2 e1 34 hfull
  exact ⟨h1, e1, hrun, hcomps, hthm.1, hrej.1, (hrej.2 hnew).1,
    (hrej.2 hnew).2 h1 (by rw [hrel]; simp)⟩

end GameEngine
